import Mathlib

/-!
# Biostrings `lowlevel_matching.c`: a shallow embedding

Conventions of the embedding:

* a sequence (`cachedCharSeq`) is the list of its letters, a letter being a byte held in a
  `Nat`; `X->length` is `X.length`;
* a C `int` is an unbounded `Int` (for sequences that fit in memory no arithmetic of the file
  comes near the 32-bit limits); a C truth value is an `int`, true when it is not 0;
* `error(...)` is `Except.error`;
* a `for` loop is a function by recursion on a number of iterations, given in its first
  argument, that keeps the test of the loop; every call gives it the number of iterations that
  the C loop has from its start values (`(bound - start).toNat`);
* memory is passed explicitly: the two static rows `row1_buf` and `row2_buf` (their contents, by
  index), the cell `*min_width` of the caller, the selected function
  `_selected_nmismatch_at_Pshift_fun`, the vector `ans`.

The definitions of the code come first, then the vocabulary of the specification, then the
theorems.
-/

set_option autoImplicit false

namespace Biostrings

/-! ## Sequences -/

/-- The letter `X->seq[j]` (0 when `j` is outside the buffer; the callers test the range first). -/
def seqAt (X : List Nat) (j : Int) : Nat := X.getD j.toNat 0

/-- Bitwise complement of a letter, restricted to its 8 bits. -/
def complement8 (c : Nat) : Nat := 255 - c % 256

/-! ## `nmismatch_at_Pshift_*()` -/

/-- Letters match iff they are equal (`*p == *s`). -/
def match_fixedPfixedS (p s : Nat) : Bool := p == s

/-- Bits at 1 in `*p` are also at 1 in `*s` (`((*p) & ~(*s)) == 0`). -/
def match_fixedPnonfixedS (p s : Nat) : Bool := (p &&& complement8 s) == 0

/-- Bits at 1 in `*s` are also at 1 in `*p` (`(~(*p) & (*s)) == 0`). -/
def match_nonfixedPfixedS (p s : Nat) : Bool := (complement8 p &&& s) == 0

/-- The letters share at least one bit at 1 (`(*p) & (*s)`). -/
def match_nonfixedPnonfixedS (p s : Nat) : Bool := (p &&& s) != 0

/-- The `for` loop shared by the four `nmismatch_at_Pshift_*` functions: the first argument is the
letter test of the variant, the list is what is left of `P` from `p` on, `j` the subject position
and `nmis` the running count. -/
def nmismatch_loop (letters_match : Nat → Nat → Bool) (S : List Nat) (max_nmis : Int) :
    List Nat → Int → Int → Int
  | [], _, nmis => nmis
  | p :: ps, j, nmis =>
    if j ≥ 0 ∧ j < S.length ∧ letters_match p (seqAt S j) = true then
      nmismatch_loop letters_match S max_nmis ps (j + 1) nmis
    else if nmis ≥ max_nmis then nmis + 1
    else nmismatch_loop letters_match S max_nmis ps (j + 1) (nmis + 1)

def nmismatch_at_Pshift_fixedPfixedS (P S : List Nat) (Pshift max_nmis : Int) : Int :=
  nmismatch_loop match_fixedPfixedS S max_nmis P Pshift 0

def nmismatch_at_Pshift_fixedPnonfixedS (P S : List Nat) (Pshift max_nmis : Int) : Int :=
  nmismatch_loop match_fixedPnonfixedS S max_nmis P Pshift 0

def nmismatch_at_Pshift_nonfixedPfixedS (P S : List Nat) (Pshift max_nmis : Int) : Int :=
  nmismatch_loop match_nonfixedPfixedS S max_nmis P Pshift 0

def nmismatch_at_Pshift_nonfixedPnonfixedS (P S : List Nat) (Pshift max_nmis : Int) : Int :=
  nmismatch_loop match_nonfixedPnonfixedS S max_nmis P Pshift 0

/-- The type of `_selected_nmismatch_at_Pshift_fun`. -/
abbrev NmismatchFun := List Nat → List Nat → Int → Int → Int

/-- The value `_select_nmismatch_at_Pshift_fun(fixedP, fixedS)` stores in
`_selected_nmismatch_at_Pshift_fun`. -/
def _select_nmismatch_at_Pshift_fun (fixedP fixedS : Int) : NmismatchFun :=
  if fixedP ≠ 0 then
    if fixedS ≠ 0 then nmismatch_at_Pshift_fixedPfixedS
    else nmismatch_at_Pshift_fixedPnonfixedS
  else
    if fixedS ≠ 0 then nmismatch_at_Pshift_nonfixedPfixedS
    else nmismatch_at_Pshift_nonfixedPnonfixedS

/-! ## The edit distance with early bailout -/

def MAX_NEDIT : Int := 100

def MAX_ROW_LENGTH : Int := 2 * MAX_NEDIT + 1

/-- Contents of an `int` row buffer (`row1_buf`, `row2_buf`), by index. -/
structure Row where
  cell : Int → Int

/-- The row after the assignment `row[B] = v`. -/
def Row.set (row : Row) (B v : Int) : Row := ⟨Function.update row.cell B v⟩

/-- The macro `PROPAGATE_NEDIT`: the row `curr_row` after the assignment to `curr_row[B]`. -/
def PROPAGATE_NEDIT (curr_row : Row) (B : Int) (prev_row : Row) (S : List Nat) (j : Int)
    (Pc : Nat) (row_length : Int) : Row :=
  let nedit := prev_row.cell B + (if j < 0 ∨ j ≥ S.length ∨ seqAt S j ≠ Pc then 1 else 0)
  let nedit := if B - 1 ≥ 0 ∧ curr_row.cell (B - 1) + 1 < nedit then curr_row.cell (B - 1) + 1
    else nedit
  let nedit := if B + 1 < row_length ∧ prev_row.cell (B + 1) + 1 < nedit
    then prev_row.cell (B + 1) + 1 else nedit
  curr_row.set B nedit

/-- STAGE 0: `for (B = max_nedit, b = 0; B < row_length; B++, b++) curr_row[B] = b;`
(the first argument bounds the number of iterations). -/
def stage0_loop : Nat → Row → Int → Int → Int → Row
  | 0, curr_row, _, _, _ => curr_row
  | n + 1, curr_row, B, b, row_length =>
    if B < row_length then stage0_loop n (curr_row.set B b) (B + 1) (b + 1) row_length
    else curr_row

/-- The inner loop of STAGE 1:
`for (j = jmin; B < row_length; B++, j++) PROPAGATE_NEDIT(...)`. -/
def propagate_loop (prev_row : Row) (S : List Nat) (Pc : Nat) (row_length : Int) :
    Nat → Row → Int → Int → Row
  | 0, curr_row, _, _ => curr_row
  | n + 1, curr_row, B, j =>
    if B < row_length then
      propagate_loop prev_row S Pc row_length n
        (PROPAGATE_NEDIT curr_row B prev_row S j Pc row_length) (B + 1) (j + 1)
    else curr_row

/-- The inner loop of STAGE 2 and STAGE 3, which also tracks `min_nedit` and `*min_width`.
The state is `(curr_row, min_nedit, *min_width)`. -/
def propagate_min_loop (prev_row : Row) (S : List Nat) (Pc : Nat) (row_length Ploffset : Int) :
    Nat → Row × Int × Int → Int → Int → Row × Int × Int
  | 0, st, _, _ => st
  | n + 1, (curr_row, min_nedit, min_width), B, j =>
    if B < row_length then
      let curr_row := PROPAGATE_NEDIT curr_row B prev_row S j Pc row_length
      let st := if curr_row.cell B < min_nedit then (curr_row, curr_row.cell B, j - Ploffset + 1)
        else (curr_row, min_nedit, min_width)
      propagate_min_loop prev_row S Pc row_length Ploffset n st (B + 1) (j + 1)
    else (curr_row, min_nedit, min_width)

/-- The two static buffers as `_nedit_for_Ploffset` sees them: the contents of the rows that
`prev_row` and `curr_row` point to, and whether the pointers are exchanged (`prev_row` is
`row2_buf`). -/
structure RowPtrs where
  prev_row : Row
  curr_row : Row
  swapped : Bool

/-- The macro `SWAP_NEDIT_BUFS`. -/
def SWAP_NEDIT_BUFS (r : RowPtrs) : RowPtrs := ⟨r.curr_row, r.prev_row, !r.swapped⟩

/-- Contents of `row1_buf`. -/
def RowPtrs.row1_buf (r : RowPtrs) : Row := if r.swapped then r.curr_row else r.prev_row

/-- Contents of `row2_buf`. -/
def RowPtrs.row2_buf (r : RowPtrs) : Row := if r.swapped then r.prev_row else r.curr_row

/-- STAGE 1 (1st `for` loop). The state is `(rows, iplus1, i)`. -/
def stage1_loop (P S : List Nat) (max_nedit row_length jmin : Int) :
    Nat → RowPtrs × Int × Int → RowPtrs × Int × Int
  | 0, st => st
  | n + 1, (rows, iplus1, i) =>
    if iplus1 < max_nedit then
      let Pc := seqAt P i
      let rows := SWAP_NEDIT_BUFS rows
      let B := max_nedit - iplus1
      let curr_row := rows.curr_row.set B iplus1
      let B := B + 1
      let curr_row :=
        propagate_loop rows.prev_row S Pc row_length (row_length - B).toNat curr_row B jmin
      stage1_loop P S max_nedit row_length jmin n
        (⟨rows.prev_row, curr_row, rows.swapped⟩, iplus1 + 1, i + 1)
    else (rows, iplus1, i)

/-- STAGE 3 (2nd `for` loop), with the bailout.
The state is `(rows, i, iplus1, jmin, min_nedit, *min_width)`. -/
def stage3_loop (P S : List Nat) (row_length Ploffset max_nedit_plus1 : Int) :
    Nat → RowPtrs × Int × Int × Int × Int × Int → RowPtrs × Int × Int × Int × Int × Int
  | 0, st => st
  | n + 1, (rows, i, iplus1, jmin, min_nedit, min_width) =>
    if i < P.length then
      let Pc := seqAt P i
      let rows := SWAP_NEDIT_BUFS rows
      let (curr_row, min_nedit, min_width) :=
        propagate_min_loop rows.prev_row S Pc row_length Ploffset row_length.toNat
          (rows.curr_row, iplus1, 0) 0 jmin
      let rows : RowPtrs := ⟨rows.prev_row, curr_row, rows.swapped⟩
      if min_nedit ≥ max_nedit_plus1 then
        (rows, i, iplus1, jmin, min_nedit, min_width)
      else
        stage3_loop P S row_length Ploffset max_nedit_plus1 n
          (rows, i + 1, iplus1 + 1, jmin + 1, min_nedit, min_width)
    else (rows, i, iplus1, jmin, min_nedit, min_width)

/-- What a call of `_nedit_for_Ploffset` leaves: the returned value, the content of the caller's
cell `*min_width`, and the contents of the two static buffers. -/
structure NeditResult where
  nedit : Int
  min_width : Int
  row1_buf : Row
  row2_buf : Row

/-- The function `_nedit_for_Ploffset`. `row1_buf` and `row2_buf` are the contents of the static
buffers at the call and `min_width` the content of the caller's cell `*min_width` at the call. -/
def _nedit_for_Ploffset (row1_buf row2_buf : Row) (P S : List Nat) (Ploffset max_nedit : Int)
    (_loose_Ploffset : Int) (min_width : Int) : Except String NeditResult :=
  if P.length = 0 then .ok ⟨0, min_width, row1_buf, row2_buf⟩
  else if max_nedit = 0 then
    .error "use _selected_nmismatch_at_Pshift_fun() when 'max_nedit' is 0"
  else
    let max_nedit_plus1 := max_nedit + 1
    let max_nedit := if max_nedit > P.length then (P.length : Int) else max_nedit
    if max_nedit > MAX_NEDIT then .error "'max.nedit' too big"
    else
      let rows : RowPtrs := ⟨row1_buf, row2_buf, false⟩
      let row_length := 2 * max_nedit + 1
      let jmin := Ploffset
      -- STAGE 0
      let curr_row :=
        stage0_loop (row_length - max_nedit).toNat rows.curr_row max_nedit 0 row_length
      let rows : RowPtrs := ⟨rows.prev_row, curr_row, rows.swapped⟩
      -- STAGE 1
      let (rows, iplus1, i) :=
        stage1_loop P S max_nedit row_length jmin (max_nedit - 1).toNat (rows, 1, 0)
      -- STAGE 2
      let Pc := seqAt P i
      let rows := SWAP_NEDIT_BUFS rows
      let curr_row := rows.curr_row.set 0 iplus1
      let (curr_row, min_nedit, min_width) :=
        propagate_min_loop rows.prev_row S Pc row_length Ploffset (row_length - 1).toNat
          (curr_row, iplus1, 0) 1 jmin
      let rows : RowPtrs := ⟨rows.prev_row, curr_row, rows.swapped⟩
      let iplus1 := iplus1 + 1
      let i := i + 1
      -- STAGE 3
      let (rows, _, _, _, min_nedit, min_width) :=
        stage3_loop P S row_length Ploffset max_nedit_plus1 ((P.length : Int) - i).toNat
          (rows, i, iplus1, jmin, min_nedit, min_width)
      .ok ⟨min_nedit, min_width, rows.row1_buf, rows.row2_buf⟩

/-- The function `_nedit_for_Proffset`: it raises its error before anything else. -/
def _nedit_for_Proffset (_row1_buf _row2_buf : Row) (_P _S : List Nat)
    (_Proffset _max_nedit _loose_Proffset : Int) (_min_width : Int) :
    Except String NeditResult :=
  .error "_nedit_for_Proffset() is not ready yet, sorry!"

/-! ## `match_pattern_at()` and the entry points -/

def NA_INTEGER : Int := -2147483648

def NA_LOGICAL : Int := -2147483648

/-- What `match_pattern_at` leaves: the memory `ans_elt` points into, and the contents of the two
static buffers. -/
structure MatchResult where
  ans : List Int
  row1_buf : Row
  row2_buf : Row

/-- The count of `match_pattern_at` for an anchor `at_elt` that is not NA (the
`if (indels) ... else ...` of its loop): `nedit` is `nmis`, the rest is what the call leaves in
the local variable `min_width` and in the static buffers. -/
def anchor_count (selected : NmismatchFun) (row1_buf row2_buf : Row) (min_width : Int)
    (P S : List Nat) (at_type0 max_nmis indels at_elt : Int) : Except String NeditResult :=
  if indels ≠ 0 then
    let offset := at_elt - 1
    if at_type0 = 0 then
      _nedit_for_Ploffset row1_buf row2_buf P S offset max_nmis 1 min_width
    else
      _nedit_for_Proffset row1_buf row2_buf P S offset max_nmis 1 min_width
  else
    let offset := if at_type0 = 0 then at_elt - 1 else at_elt - P.length
    .ok ⟨selected P S offset max_nmis, min_width, row1_buf, row2_buf⟩

/-- The `for` loop of `match_pattern_at` over what is left of `at`. `ans` is the memory of the
answer and `pos` the index in it that `ans_elt` points to; `min_width` is the content of the
local variable of that name. -/
def match_pattern_at_loop (selected : NmismatchFun) (P S : List Nat)
    (at_type0 max_nmis min_nmis indels ans_type0 : Int) :
    List Int → Int → List Int → Nat → Int → Row → Row → Except String MatchResult
  | [], _, ans, _, _, row1_buf, row2_buf => .ok ⟨ans, row1_buf, row2_buf⟩
  | at_elt :: rest, i, ans, pos, min_width, row1_buf, row2_buf =>
    if at_elt = NA_INTEGER then
      if ans_type0 = 0 then
        match_pattern_at_loop selected P S at_type0 max_nmis min_nmis indels ans_type0
          rest (i + 1) (ans.set pos NA_INTEGER) (pos + 1) min_width row1_buf row2_buf
      else if ans_type0 = 1 then
        match_pattern_at_loop selected P S at_type0 max_nmis min_nmis indels ans_type0
          rest (i + 1) (ans.set pos NA_LOGICAL) (pos + 1) min_width row1_buf row2_buf
      else
        match_pattern_at_loop selected P S at_type0 max_nmis min_nmis indels ans_type0
          rest (i + 1) ans pos min_width row1_buf row2_buf
    else
      match anchor_count selected row1_buf row2_buf min_width P S at_type0 max_nmis indels
          at_elt with
      | .error e => .error e
      | .ok ⟨nmis, min_width, row1_buf, row2_buf⟩ =>
        if ans_type0 = 0 then
          match_pattern_at_loop selected P S at_type0 max_nmis min_nmis indels ans_type0
            rest (i + 1) (ans.set pos nmis) (pos + 1) min_width row1_buf row2_buf
        else
          let is_matching : Int := if nmis ≤ max_nmis ∧ nmis ≥ min_nmis then 1 else 0
          if ans_type0 = 1 then
            match_pattern_at_loop selected P S at_type0 max_nmis min_nmis indels ans_type0
              rest (i + 1) (ans.set pos is_matching) (pos + 1) min_width row1_buf row2_buf
          else if is_matching ≠ 0 then
            .ok ⟨ans.set pos (if ans_type0 = 2 then i + 1 else at_elt), row1_buf, row2_buf⟩
          else
            match_pattern_at_loop selected P S at_type0 max_nmis min_nmis indels ans_type0
              rest (i + 1) ans pos min_width row1_buf row2_buf

/-- The function `match_pattern_at`. `selected` is the content of
`_selected_nmismatch_at_Pshift_fun`, `ats` the vector `at`, `ans` the memory of the answer with
`ans_elt` pointing to its index `pos`, `min_width` what the local variable of that name holds at
the entry. -/
def match_pattern_at (selected : NmismatchFun) (row1_buf row2_buf : Row) (min_width : Int)
    (P S : List Nat) (ats : List Int) (at_type0 max_nmis min_nmis indels ans_type0 : Int)
    (ans : List Int) (pos : Nat) : Except String MatchResult :=
  let ans := if ans_type0 ≥ 2 then ans.set pos NA_INTEGER else ans
  match_pattern_at_loop selected P S at_type0 max_nmis min_nmis indels ans_type0
    ats 0 ans pos min_width row1_buf row2_buf

/-- A vector of `n` cells just allocated (`NEW_INTEGER`, `NEW_LOGICAL`, `allocMatrix`), holding
whatever `fresh` says the memory holds. -/
def allocVector (fresh : Nat → Int) (n : Nat) : List Int := (List.range n).map fresh

/-- The entry point `XString_match_pattern_at`, the arguments decoded: `fixed` is the pair
`(LOGICAL(fixed)[0], LOGICAL(fixed)[1])`. The first four arguments are the state the call finds:
the selected function, the static buffers and the memory a new vector holds; `min_width` is the
content of the local variable of `match_pattern_at`. The result is the vector `ans`. -/
def XString_match_pattern_at (selected : NmismatchFun) (row1_buf row2_buf : Row)
    (fresh : Nat → Int) (min_width : Int)
    (pattern subject : List Nat) (ats : List Int) (at_type max_mismatch min_mismatch : Int)
    (with_indels : Int) (fixed : Int × Int) (ans_type : Int) : Except String (List Int) :=
  let at_length := ats.length
  let at_type0 := at_type
  let max_nmis := max_mismatch
  let min_nmis := min_mismatch
  let indels : Int := if with_indels ≠ 0 ∧ max_nmis ≠ 0 then 1 else 0
  let fixedP := fixed.1
  let fixedS := fixed.2
  if indels ≠ 0 ∧ ¬ (fixedP ≠ 0 ∧ fixedS ≠ 0) then
    .error "when 'with.indels' is TRUE, only 'fixed=TRUE' is supported for now"
  else
    let ans_type0 := ans_type
    let allocated : Except String (List Int) :=
      if ans_type0 = 0 then .ok (allocVector fresh at_length)
      else if ans_type0 = 1 then .ok (allocVector fresh at_length)
      else if ans_type0 = 2 ∨ ans_type0 = 3 then .ok (allocVector fresh 1)
      else .error "invalid 'ans_type' value"
    match allocated with
    | .error e => .error e
    | .ok ans =>
      let selected := if indels = 0 then _select_nmismatch_at_Pshift_fun fixedP fixedS
        else selected
      match match_pattern_at selected row1_buf row2_buf min_width pattern subject ats at_type0
          max_nmis min_nmis indels ans_type0 ans 0 with
      | .error e => .error e
      | .ok r => .ok r.ans

/-- The `for` loop of `XStringSet_vmatch_pattern_at` over what is left of the subjects; `pos` is
the index in `ans` that `ans_elt` points to. -/
def vmatch_loop (selected : NmismatchFun) (min_width : Int) (P : List Nat) (ats : List Int)
    (at_type0 max_nmis min_nmis indels ans_type0 : Int) (ans_nrow : Nat) :
    List (List Nat) → List Int → Nat → Row → Row → Except String (List Int)
  | [], ans, _, _, _ => .ok ans
  | S_elt :: rest, ans, pos, row1_buf, row2_buf =>
    match match_pattern_at selected row1_buf row2_buf min_width P S_elt ats at_type0
        max_nmis min_nmis indels ans_type0 ans pos with
    | .error e => .error e
    | .ok r =>
      vmatch_loop selected min_width P ats at_type0 max_nmis min_nmis indels ans_type0 ans_nrow
        rest r.ans (pos + ans_nrow) r.row1_buf r.row2_buf

/-- The entry point `XStringSet_vmatch_pattern_at`; `subject` is the list of the sequences of the
set, the matrix `ans` is held column after column. -/
def XStringSet_vmatch_pattern_at (selected : NmismatchFun) (row1_buf row2_buf : Row)
    (fresh : Nat → Int) (min_width : Int)
    (pattern : List Nat) (subject : List (List Nat)) (ats : List Int)
    (at_type max_mismatch min_mismatch : Int)
    (with_indels : Int) (fixed : Int × Int) (ans_type : Int) : Except String (List Int) :=
  let S_length := subject.length
  let at_length := ats.length
  let at_type0 := at_type
  let max_nmis := max_mismatch
  let min_nmis := min_mismatch
  let indels : Int := if with_indels ≠ 0 ∧ max_nmis ≠ 0 then 1 else 0
  let fixedP := fixed.1
  let fixedS := fixed.2
  if indels ≠ 0 ∧ ¬ (fixedP ≠ 0 ∧ fixedS ≠ 0) then
    .error "when 'with.indels' is TRUE, only 'fixed=TRUE' is supported for now"
  else
    let ans_type0 := ans_type
    let allocated : Except String (List Int × Nat) :=
      if ans_type0 = 0 then .ok (allocVector fresh (at_length * S_length), at_length)
      else if ans_type0 = 1 then .ok (allocVector fresh (at_length * S_length), at_length)
      else if ans_type0 = 2 ∨ ans_type0 = 3 then .ok (allocVector fresh S_length, 1)
      else .error "invalid 'ans_type' value"
    match allocated with
    | .error e => .error e
    | .ok (ans, ans_nrow) =>
      let selected := if indels = 0 then _select_nmismatch_at_Pshift_fun fixedP fixedS
        else selected
      vmatch_loop selected min_width pattern ats at_type0 max_nmis min_nmis indels ans_type0
        ans_nrow subject ans 0 row1_buf row2_buf

/-- Letters of a string, as bytes. -/
def bytes (s : String) : List Nat := s.toList.map Char.toNat


/-! ## Specification side of the mismatch counters -/

/-- The rule of the discipline `(fixedP, fixedS)`: do the letters `p` and `s` match. -/
def discipline_rule (fixedP fixedS : Bool) (p s : Nat) : Bool :=
  match fixedP, fixedS with
  | true, true => p == s
  | true, false => (p &&& complement8 s) == 0
  | false, true => (complement8 p &&& s) == 0
  | false, false => (p &&& s) != 0

/-- Position `i` of `P`, placed at `shift + i` in `S`, is a mismatch: `shift + i` is outside
`[0, |S|)` or the letters do not match under `rule`. -/
def mismatch_at (rule : Nat → Nat → Bool) (P S : List Nat) (shift : Int) (i : Nat) : Bool :=
  !(decide (0 ≤ shift + i) && decide (shift + i < S.length) && rule (P.getD i 0) (seqAt S (shift + i)))

/-- The true mismatch count: the number of `i` in `[0, |P|)` that are a mismatch. -/
def true_nmismatch (rule : Nat → Nat → Bool) (P S : List Nat) (shift : Int) : Nat :=
  (List.range P.length).countP (mismatch_at rule P S shift)

/-- Hamming distance of two sequences (of the same length): the number of positions at which
their letters differ. -/
def hamming (X Y : List Nat) : Nat := (List.zip X Y).countP (fun xy => xy.1 != xy.2)

/-- The substring `S[start .. start + width)`. -/
def substring (S : List Nat) (start width : Nat) : List Nat := (S.drop start).take width


/-! ## Specification side of the edit distance -/

/-- The unit-cost Levenshtein distance (insertion, deletion and substitution cost 1 each,
letters compared by equality). -/
def lev (X Y : List Nat) : Nat := levenshtein Levenshtein.defaultCost X Y

/-- The least of `f 0, ..., f n`. -/
def min_upto (f : Nat → Nat) : Nat → Nat
  | 0 => f 0
  | n + 1 => min (min_upto f n) (f (n + 1))

/-- The minimum, over the widths `w` in `[0, |S| - Ploffset]`, of the distance between `P` and
the substring `S[Ploffset .. Ploffset + w)`. -/
def min_lev_from (P S : List Nat) (Ploffset : Nat) : Nat :=
  min_upto (fun w => lev P (substring S Ploffset w)) (S.length - Ploffset)

/-- The test of `PROPAGATE_NEDIT` on the subject: 1 when `j` is out of `S` or `S[j]` is not
`Pc`, else 0. -/
def mism (S : List Nat) (j : Int) (Pc : Nat) : Nat :=
  if j < 0 ∨ j ≥ S.length ∨ seqAt S j ≠ Pc then 1 else 0

/-- One more pattern letter `Pc` in the table of distances: from the row `prev`, indexed by the
width `w` of the subject taken from `Ploffset` on, the next row. -/
def dp_next (S : List Nat) (Ploffset : Int) (Pc : Nat) (prev : Nat → Nat) : Nat → Nat
  | 0 => prev 0 + 1
  | w + 1 =>
    min (prev w + mism S (Ploffset + w) Pc)
      (min (dp_next S Ploffset Pc prev w + 1) (prev (w + 1) + 1))

/-- The full (unbanded) table of distances: `dp P S Ploffset i w` is the distance between the
first `i` letters of `P` and the `w` letters of the subject from `Ploffset` on, a position out
of `S` holding a letter that matches nothing. -/
def dp (P S : List Nat) (Ploffset : Int) : Nat → Nat → Nat
  | 0 => fun w => w
  | i + 1 => dp_next S Ploffset (P.getD i 0) (dp P S Ploffset i)

/-! ## Invariants of the rows -/

/-- The row `row` holds the row `i` of the table `tab`, exactly for the distances up to `K` and
as some value above `K` for the others, at the widths `w` with `lo ≤ w < hi`: the cell of the
width `w` is the cell `w + K - i`. -/
def RowRep (K : Nat) (tab : Nat → Nat) (i : Nat) (row : Row) (lo hi : Nat) : Prop :=
  ∀ w : Nat, lo ≤ w → w < hi →
    min (row.cell ((w : Int) + K - i)) ((K : Int) + 1) = min ((tab w : Nat) : Int) ((K : Int) + 1)

/-- What `min_nedit` and `*min_width` are after the row `r` of the table `tab`: below the
ceiling `K` the least distance of the row and the first width that has it, else a witness that
the whole row is above `K`. -/
def RowMin (K : Nat) (tab : Nat → Nat) (r : Nat) (min_nedit min_width : Int) : Prop :=
  min_nedit ≤ r ∧
  (min_nedit ≤ K → ∃ wd : Nat, min_width = wd ∧ min_nedit = tab wd ∧
      (∀ w, min_nedit ≤ tab w) ∧ ∀ w, w < wd → min_nedit < tab w) ∧
  ((K : Int) < min_nedit → ∀ w, K < tab w)

/-- What a call of `_nedit_for_Ploffset` returns, in terms of the last row of the table: the
returned value is at most `|P|`; if it is at most `max_nedit` it is the least distance of the
row and `*min_width` the first width that has it; else the whole row is above `max_nedit`. -/
def NeditSpec (P S : List Nat) (Ploffset max_nedit : Int) (nedit min_width : Int) : Prop :=
  nedit ≤ P.length ∧
  (nedit ≤ max_nedit → ∃ wd : Nat, min_width = wd ∧ nedit = dp P S Ploffset P.length wd ∧
      (∀ w, nedit ≤ dp P S Ploffset P.length w) ∧
      ∀ w, w < wd → nedit < dp P S Ploffset P.length w) ∧
  (max_nedit < nedit → ∀ w, max_nedit < dp P S Ploffset P.length w)

/-! ## Specification side of `match_pattern_at` -/

/-- "Is a match": `floor <= count <= ceiling`. -/
def is_match (floor ceiling count : Int) : Prop := floor ≤ count ∧ count ≤ ceiling

instance (floor ceiling count : Int) : Decidable (is_match floor ceiling count) := by
  unfold is_match
  infer_instance

/-- What the raw-count mode (`ans_type0 = 0`) and the boolean mode write for a count. -/
def emitted_value (ans_type0 floor ceiling count : Int) : Int :=
  if ans_type0 = 0 then count else if is_match floor ceiling count then 1 else 0

/-- The cell `cell` of the answer holds what the modes 0 and 1 write for the anchor `at_elt`:
NA for an NA anchor, else the value for a count that the dispatched counter has returned for
this anchor (for some content of the scratch memory at its call). -/
def Emitted (selected : NmismatchFun) (P S : List Nat)
    (at_type0 max_nmis min_nmis indels ans_type0 : Int) (at_elt : Int) (cell : Option Int) :
    Prop :=
  (at_elt = NA_INTEGER → cell = some NA_INTEGER) ∧
  (at_elt ≠ NA_INTEGER →
    ∃ (row1_buf row2_buf : Row) (min_width : Int) (c : NeditResult),
      anchor_count selected row1_buf row2_buf min_width P S at_type0 max_nmis indels at_elt
        = .ok c ∧
      cell = some (emitted_value ans_type0 min_nmis max_nmis c.nedit))

/-! ## The run without the bailout -/

/-- The state `(rows, i, iplus1, jmin, min_nedit, *min_width)` of `_nedit_for_Ploffset` at the
end of STAGE 2 (before the 2nd `for` loop), `max_nedit` being the clamped bound: the lines of
the function from `prev_row = row1_buf` to the `i++` that follows STAGE 2. -/
def nedit_stage2 (row1_buf row2_buf : Row) (P S : List Nat) (Ploffset max_nedit : Int) :
    RowPtrs × Int × Int × Int × Int × Int :=
  let rows : RowPtrs := ⟨row1_buf, row2_buf, false⟩
  let row_length := 2 * max_nedit + 1
  let jmin := Ploffset
  let curr_row :=
    stage0_loop (row_length - max_nedit).toNat rows.curr_row max_nedit 0 row_length
  let rows : RowPtrs := ⟨rows.prev_row, curr_row, rows.swapped⟩
  let (rows, iplus1, i) :=
    stage1_loop P S max_nedit row_length jmin (max_nedit - 1).toNat (rows, 1, 0)
  let Pc := seqAt P i
  let rows := SWAP_NEDIT_BUFS rows
  let curr_row := rows.curr_row.set 0 iplus1
  let (curr_row, min_nedit, min_width) :=
    propagate_min_loop rows.prev_row S Pc row_length Ploffset (row_length - 1).toNat
      (curr_row, iplus1, 0) 1 jmin
  let rows : RowPtrs := ⟨rows.prev_row, curr_row, rows.swapped⟩
  let iplus1 := iplus1 + 1
  let i := i + 1
  (rows, i, iplus1, jmin, min_nedit, min_width)

/-- What the function returns from the state at the end of STAGE 3. -/
def nedit_result (st : RowPtrs × Int × Int × Int × Int × Int) : NeditResult :=
  ⟨st.2.2.2.2.1, st.2.2.2.2.2, st.1.row1_buf, st.1.row2_buf⟩

/-- STAGE 3 with the bailout test removed: the loop `stage3_loop` without its
`if (min_nedit >= max_nedit_plus1) break;`. -/
def stage3_loop_no_bailout (P S : List Nat) (row_length Ploffset : Int) :
    Nat → RowPtrs × Int × Int × Int × Int × Int → RowPtrs × Int × Int × Int × Int × Int
  | 0, st => st
  | n + 1, (rows, i, iplus1, jmin, min_nedit, min_width) =>
    if i < P.length then
      let Pc := seqAt P i
      let rows := SWAP_NEDIT_BUFS rows
      let (curr_row, min_nedit, min_width) :=
        propagate_min_loop rows.prev_row S Pc row_length Ploffset row_length.toNat
          (rows.curr_row, iplus1, 0) 0 jmin
      let rows : RowPtrs := ⟨rows.prev_row, curr_row, rows.swapped⟩
      stage3_loop_no_bailout P S row_length Ploffset n
        (rows, i + 1, iplus1 + 1, jmin + 1, min_nedit, min_width)
    else (rows, i, iplus1, jmin, min_nedit, min_width)

/-- The function `_nedit_for_Ploffset` with the bailout test of STAGE 3 removed (all the
letters of the pattern are consumed): the same checks, the same STAGE 0 to STAGE 2, then
`stage3_loop_no_bailout`. -/
def _nedit_for_Ploffset_no_bailout (row1_buf row2_buf : Row) (P S : List Nat)
    (Ploffset max_nedit : Int) (_loose_Ploffset : Int) (min_width : Int) :
    Except String NeditResult :=
  if P.length = 0 then .ok ⟨0, min_width, row1_buf, row2_buf⟩
  else if max_nedit = 0 then
    .error "use _selected_nmismatch_at_Pshift_fun() when 'max_nedit' is 0"
  else
    let max_nedit := if max_nedit > P.length then (P.length : Int) else max_nedit
    if max_nedit > MAX_NEDIT then .error "'max.nedit' too big"
    else
      let st := nedit_stage2 row1_buf row2_buf P S Ploffset max_nedit
      .ok (nedit_result
        (stage3_loop_no_bailout P S (2 * max_nedit + 1) Ploffset
          ((P.length : Int) - st.2.1).toNat st))

/-- The tracked minimum `min_nedit` of the run without bailout after `n` rows of STAGE 3. -/
def tracked_min (row1_buf row2_buf : Row) (P S : List Nat) (Ploffset max_nedit : Int)
    (n : Nat) : Int :=
  let K := if max_nedit > P.length then (P.length : Int) else max_nedit
  (stage3_loop_no_bailout P S (2 * K + 1) Ploffset n
    (nedit_stage2 row1_buf row2_buf P S Ploffset K)).2.2.2.2.1

/-- The value `mn` is what the tracking leaves for a row `row` of `row_length` cells started
with `init`: at most `init` and every cell, and equal to `init` or to a cell. -/
def RawMin (row_length : Int) (row : Row) (init mn : Int) : Prop :=
  mn ≤ init ∧ (∀ B : Int, 0 ≤ B → B < row_length → mn ≤ row.cell B) ∧
  (mn = init ∨ ∃ B : Int, 0 ≤ B ∧ B < row_length ∧ row.cell B = mn)

/-- Two rows hold the same values in the cells `lo ≤ B < hi`. -/
def AgreeOn (lo hi : Int) (row row2 : Row) : Prop :=
  ∀ B : Int, lo ≤ B → B < hi → row.cell B = row2.cell B

/-! ## The indexed accesses of `_nedit_for_Ploffset` -/

/-- One indexed access made by `_nedit_for_Ploffset`: a read of `prev_row[B]`, a read or a
write of `curr_row[B]`, a read of `P->seq[i]`, a read of `S->seq[j]`. -/
inductive Access where
  | prev_row (B : Int)
  | curr_row (B : Int)
  | pattern (i : Int)
  | subject (j : Int)

/-- The accesses of a piece of code, in order; `none` when a loop reaches the number of
iterations it was given with its test still true. -/
abbrev Trace := Option (List Access)

/-- The accesses of two pieces of code run one after the other. -/
def Trace.seq (a b : Trace) : Trace :=
  match a, b with
  | some x, some y => some (x ++ y)
  | _, _ => none

/-- The accesses of the macro `PROPAGATE_NEDIT`, in order: `prev_row[B]`; `S->seq[j]`, which is
evaluated only when `j < 0` and `j >= S->length` are both false; `curr_row[B - 1]`, evaluated
only when `B - 1 >= 0`; `prev_row[B + 1]`, evaluated only when `B + 1 < row_length`; and the
write of `curr_row[B]`. -/
def PROPAGATE_NEDIT_accesses (B : Int) (S : List Nat) (j row_length : Int) : List Access :=
  [Access.prev_row B]
    ++ (if j < 0 ∨ j ≥ S.length then [] else [Access.subject j])
    ++ (if B - 1 ≥ 0 then [Access.curr_row (B - 1)] else [])
    ++ (if B + 1 < row_length then [Access.prev_row (B + 1)] else [])
    ++ [Access.curr_row B]

/-- The accesses of STAGE 0 (`stage0_loop`): the write `curr_row[B] = b` of each iteration. -/
def stage0_loop_accesses : Nat → Int → Int → Trace
  | 0, B, row_length => if B < row_length then none else some []
  | n + 1, B, row_length =>
    if B < row_length then
      Trace.seq (some [Access.curr_row B]) (stage0_loop_accesses n (B + 1) row_length)
    else some []

/-- The accesses of the inner loop of STAGE 1 (`propagate_loop`). -/
def propagate_loop_accesses (S : List Nat) (row_length : Int) : Nat → Int → Int → Trace
  | 0, B, _ => if B < row_length then none else some []
  | n + 1, B, j =>
    if B < row_length then
      Trace.seq (some (PROPAGATE_NEDIT_accesses B S j row_length))
        (propagate_loop_accesses S row_length n (B + 1) (j + 1))
    else some []

/-- The accesses of the inner loop of STAGE 2 and STAGE 3 (`propagate_min_loop`): those of
`PROPAGATE_NEDIT`, the read of `curr_row[B]` in the test `curr_row[B] < min_nedit`, and its
read in `min_nedit = curr_row[B]` when the test holds. -/
def propagate_min_loop_accesses (prev_row : Row) (S : List Nat) (Pc : Nat)
    (row_length Ploffset : Int) : Nat → Row × Int × Int → Int → Int → Trace
  | 0, _, B, _ => if B < row_length then none else some []
  | n + 1, (curr_row, min_nedit, min_width), B, j =>
    if B < row_length then
      let curr_row := PROPAGATE_NEDIT curr_row B prev_row S j Pc row_length
      let st := if curr_row.cell B < min_nedit then (curr_row, curr_row.cell B, j - Ploffset + 1)
        else (curr_row, min_nedit, min_width)
      Trace.seq
        (some (PROPAGATE_NEDIT_accesses B S j row_length ++ [Access.curr_row B]
          ++ (if curr_row.cell B < min_nedit then [Access.curr_row B] else [])))
        (propagate_min_loop_accesses prev_row S Pc row_length Ploffset n st (B + 1) (j + 1))
    else some []

/-- The accesses of STAGE 1 (`stage1_loop`): in each iteration the read `Pc = P->seq[i]`, the
write `curr_row[B++] = iplus1` at `B = max_nedit - iplus1`, and the inner loop. The state is
`(iplus1, i)`. -/
def stage1_loop_accesses (S : List Nat) (max_nedit row_length jmin : Int) :
    Nat → Int × Int → Trace
  | 0, (iplus1, _) => if iplus1 < max_nedit then none else some []
  | n + 1, (iplus1, i) =>
    if iplus1 < max_nedit then
      let B := max_nedit - iplus1
      let acc := [Access.pattern i, Access.curr_row B]
      let B := B + 1
      Trace.seq (some acc)
        (Trace.seq (propagate_loop_accesses S row_length (row_length - B).toNat B jmin)
          (stage1_loop_accesses S max_nedit row_length jmin n (iplus1 + 1, i + 1)))
    else some []

/-- The accesses of STAGE 3 (`stage3_loop`): in each iteration the read `Pc = P->seq[i]` and
the inner loop; the loop stops at the bailout as `stage3_loop` does. -/
def stage3_loop_accesses (P S : List Nat) (row_length Ploffset max_nedit_plus1 : Int) :
    Nat → RowPtrs × Int × Int × Int × Int × Int → Trace
  | 0, (_, i, _, _, _, _) => if i < P.length then none else some []
  | n + 1, (rows, i, iplus1, jmin, _, _) =>
    if i < P.length then
      let Pc := seqAt P i
      let rows := SWAP_NEDIT_BUFS rows
      let acc :=
        propagate_min_loop_accesses rows.prev_row S Pc row_length Ploffset row_length.toNat
          (rows.curr_row, iplus1, 0) 0 jmin
      let (curr_row, min_nedit, min_width) :=
        propagate_min_loop rows.prev_row S Pc row_length Ploffset row_length.toNat
          (rows.curr_row, iplus1, 0) 0 jmin
      let rows : RowPtrs := ⟨rows.prev_row, curr_row, rows.swapped⟩
      Trace.seq (some [Access.pattern i])
        (Trace.seq acc
          (if min_nedit ≥ max_nedit_plus1 then some []
          else
            stage3_loop_accesses P S row_length Ploffset max_nedit_plus1 n
              (rows, i + 1, iplus1 + 1, jmin + 1, min_nedit, min_width)))
    else some []

/-- The accesses of a call of `_nedit_for_Ploffset`, stage after stage; none when the function
returns or fails at its argument checks. -/
def nedit_accesses (row1_buf row2_buf : Row) (P S : List Nat) (Ploffset max_nedit : Int) :
    Trace :=
  if P.length = 0 then some []
  else if max_nedit = 0 then some []
  else
    let max_nedit_plus1 := max_nedit + 1
    let max_nedit := if max_nedit > P.length then (P.length : Int) else max_nedit
    if max_nedit > MAX_NEDIT then some []
    else
      let rows : RowPtrs := ⟨row1_buf, row2_buf, false⟩
      let row_length := 2 * max_nedit + 1
      let jmin := Ploffset
      -- STAGE 0
      let acc0 := stage0_loop_accesses (row_length - max_nedit).toNat max_nedit row_length
      let curr_row :=
        stage0_loop (row_length - max_nedit).toNat rows.curr_row max_nedit 0 row_length
      let rows : RowPtrs := ⟨rows.prev_row, curr_row, rows.swapped⟩
      -- STAGE 1
      let acc1 :=
        stage1_loop_accesses S max_nedit row_length jmin (max_nedit - 1).toNat (1, 0)
      let (rows, iplus1, i) :=
        stage1_loop P S max_nedit row_length jmin (max_nedit - 1).toNat (rows, 1, 0)
      -- STAGE 2
      let rows := SWAP_NEDIT_BUFS rows
      let curr_row := rows.curr_row.set 0 iplus1
      let acc2 := Trace.seq (some [Access.pattern i, Access.curr_row 0])
        (propagate_min_loop_accesses rows.prev_row S (seqAt P i) row_length Ploffset
          (row_length - 1).toNat (curr_row, iplus1, 0) 1 jmin)
      -- STAGE 3
      let st := nedit_stage2 row1_buf row2_buf P S Ploffset max_nedit
      let acc3 :=
        stage3_loop_accesses P S row_length Ploffset max_nedit_plus1
          ((P.length : Int) - st.2.1).toNat st
      Trace.seq acc0 (Trace.seq acc1 (Trace.seq acc2 acc3))

/-- The access is within the `row_length` cells of a row, within the pattern, or within the
subject. -/
def InBounds (P S : List Nat) (row_length : Int) : Access → Prop
  | Access.prev_row B => 0 ≤ B ∧ B < row_length
  | Access.curr_row B => 0 ≤ B ∧ B < row_length
  | Access.pattern i => 0 ≤ i ∧ i < P.length
  | Access.subject j => 0 ≤ j ∧ j < S.length

/-- The trace is complete and all its accesses are in bounds. -/
def TraceOk (P S : List Nat) (row_length : Int) (t : Trace) : Prop :=
  ∃ tr : List Access, t = some tr ∧ ∀ a ∈ tr, InBounds P S row_length a

/-! # Theorems -/

theorem true_nmismatch_nil (rule : Nat → Nat → Bool) (S : List Nat) (shift : Int) :
    true_nmismatch rule [] S shift = 0 := by
  simp [true_nmismatch]

theorem true_nmismatch_cons (rule : Nat → Nat → Bool) (p : Nat) (ps S : List Nat) (shift : Int) :
    true_nmismatch rule (p :: ps) S shift =
      (if shift ≥ 0 ∧ shift < S.length ∧ rule p (seqAt S shift) = true then 0 else 1)
        + true_nmismatch rule ps S (shift + 1) := by
  unfold true_nmismatch
  rw [List.length_cons, List.range_succ_eq_map, List.countP_cons, List.countP_map]
  have h : (mismatch_at rule (p :: ps) S shift ∘ Nat.succ) = mismatch_at rule ps S (shift + 1) := by
    funext i
    simp only [Function.comp, mismatch_at, Nat.succ_eq_add_one, List.getD_cons_succ]
    have e : shift + ((i + 1 : Nat) : Int) = shift + 1 + (i : Int) := by push_cast; ring
    rw [e]
  rw [h]
  have h0 : mismatch_at rule (p :: ps) S shift 0 =
      !(decide (0 ≤ shift) && decide (shift < S.length) && rule p (seqAt S shift)) := by
    simp [mismatch_at]
  rw [h0]
  by_cases c : shift ≥ 0 ∧ shift < S.length ∧ rule p (seqAt S shift) = true
  · obtain ⟨c1, c2, c3⟩ := c
    simp [c1, c2, c3]
  · rw [if_neg c]
    have : (!(decide (0 ≤ shift) && decide (shift < S.length) && rule p (seqAt S shift))) = true := by
      by_contra hc
      apply c
      simp at hc
      exact ⟨hc.1.1, hc.1.2, hc.2⟩
    rw [this]
    simp
    omega

/-- The loop of the counters returns the true count of what is left, added to the running
count, or stops one above the ceiling. -/
theorem nmismatch_loop_eq (rule : Nat → Nat → Bool) (S : List Nat) (max_nmis : Int)
    (ps : List Nat) : ∀ (j nmis : Int),
    nmismatch_loop rule S max_nmis ps j nmis =
      min (nmis + true_nmismatch rule ps S j) (max max_nmis nmis + 1) := by
  induction ps with
  | nil =>
    intro j nmis
    simp only [nmismatch_loop, true_nmismatch_nil]
    omega
  | cons p ps ih =>
    intro j nmis
    rw [nmismatch_loop, true_nmismatch_cons]
    by_cases c : j ≥ 0 ∧ j < S.length ∧ rule p (seqAt S j) = true
    · rw [if_pos c, if_pos c, ih]
      simp
    · rw [if_neg c, if_neg c]
      by_cases c2 : nmis ≥ max_nmis
      · rw [if_pos c2]
        push_cast
        omega
      · rw [if_neg c2, ih]
        push_cast
        omega

theorem select_eq_loop (fixedP fixedS : Int) (P S : List Nat) (shift k : Int) :
    _select_nmismatch_at_Pshift_fun fixedP fixedS P S shift k =
      nmismatch_loop (discipline_rule (decide (fixedP ≠ 0)) (decide (fixedS ≠ 0))) S k P shift 0 := by
  unfold _select_nmismatch_at_Pshift_fun
  by_cases hP : fixedP = 0 <;> by_cases hS : fixedS = 0 <;> simp [hP, hS] <;> rfl

theorem select_eq_min (fixedP fixedS : Int) (P S : List Nat) (shift k : Int) :
    _select_nmismatch_at_Pshift_fun fixedP fixedS P S shift k =
      min (true_nmismatch (discipline_rule (decide (fixedP ≠ 0)) (decide (fixedS ≠ 0))) P S shift : Int)
        (max k 0 + 1) := by
  rw [select_eq_loop, nmismatch_loop_eq]
  simp

theorem hamming_cons (x y : Nat) (X Y : List Nat) :
    hamming (x :: X) (y :: Y) = (if x = y then 0 else 1) + hamming X Y := by
  unfold hamming
  rw [List.zip_cons_cons, List.countP_cons]
  by_cases h : x = y
  · simp [h]
  · simp [h]; omega

theorem substring_succ (S : List Nat) (start width : Nat) (h : start < S.length) :
    substring S start (width + 1) = S.getD start 0 :: substring S (start + 1) width := by
  unfold substring
  rw [List.drop_eq_getElem_cons h, List.take_succ_cons, List.getD_eq_getElem _ _ h]

/-- Inside the subject the true count under the fixed/fixed rule is the Hamming distance to
the aligned substring. -/
theorem true_nmismatch_eq_hamming (S : List Nat) (ps : List Nat) : ∀ (shift : Nat),
    shift + ps.length ≤ S.length →
    true_nmismatch (discipline_rule true true) ps S shift = hamming ps (substring S shift ps.length) := by
  induction ps with
  | nil => intro shift _; simp [true_nmismatch_nil, substring, hamming]
  | cons p ps ih =>
    intro shift h
    have hlt : shift < S.length := by simp at h; omega
    rw [true_nmismatch_cons, List.length_cons, substring_succ S shift ps.length hlt, hamming_cons]
    have := ih (shift + 1) (by simp at h; omega)
    push_cast at this
    rw [this]
    congr 1
    have e : seqAt S (shift : Int) = S.getD shift 0 := by simp [seqAt]
    rw [e]
    by_cases c : p = S.getD shift 0
    · simp [discipline_rule, c, hlt]
    · simp [discipline_rule, c, hlt]


/-! ## The Levenshtein distance: recurrences -/

theorem lev_nil_left (Y : List Nat) : lev [] Y = Y.length := by
  induction Y with
  | nil => simp [lev]
  | cons y Y ih =>
    simp only [lev] at ih ⊢
    rw [levenshtein_nil_cons, ih]
    simp [Levenshtein.defaultCost]
    omega

theorem lev_nil_right (X : List Nat) : lev X [] = X.length := by
  induction X with
  | nil => simp [lev]
  | cons x X ih =>
    simp only [lev] at ih ⊢
    rw [levenshtein_cons_nil, ih]
    simp [Levenshtein.defaultCost]
    omega

theorem lev_cons_cons (x y : Nat) (X Y : List Nat) :
    lev (x :: X) (y :: Y) =
      min (lev X Y + (if x = y then 0 else 1)) (min (lev X (y :: Y) + 1) (lev (x :: X) Y + 1)) := by
  simp only [lev, levenshtein_cons_cons, Levenshtein.defaultCost]
  omega

/-- The recurrence on the last letters. -/
theorem lev_snoc_snoc (x y : Nat) (X : List Nat) : ∀ Y : List Nat,
    lev (X ++ [x]) (Y ++ [y]) =
      min (lev X Y + (if x = y then 0 else 1))
        (min (lev (X ++ [x]) Y + 1) (lev X (Y ++ [y]) + 1)) := by
  induction X with
  | nil =>
    intro Y
    induction Y with
    | nil =>
      simp only [List.nil_append, lev_cons_cons, lev_nil_left, lev_nil_right, List.length_nil,
        List.length_cons]
    | cons b Y ihY =>
      have h1 := lev_cons_cons x b [] (Y ++ [y])
      have h2 := lev_cons_cons x b [] Y
      simp only [List.nil_append, List.cons_append, lev_nil_left, List.length_append,
        List.length_cons, List.length_nil] at ihY h1 h2 ⊢
      rw [h1, ihY, h2]
      omega
  | cons a X ihX =>
    intro Y
    induction Y with
    | nil =>
      have h1 := lev_cons_cons a y (X ++ [x]) []
      have h2 := ihX []
      have h3 := lev_cons_cons a y X []
      simp only [List.nil_append, List.cons_append, lev_nil_right, List.length_append,
        List.length_cons, List.length_nil] at h1 h2 h3 ⊢
      rw [h1, h2, h3]
      omega
    | cons b Y ihY =>
      have h1 := lev_cons_cons a b (X ++ [x]) (Y ++ [y])
      have h2 := ihX Y
      have h3 := ihX (b :: Y)
      have h4 := lev_cons_cons a b X Y
      have h5 := lev_cons_cons a b (X ++ [x]) Y
      have h6 := lev_cons_cons a b X (Y ++ [y])
      simp only [List.cons_append] at ihY h1 h2 h3 h4 h5 h6 ⊢
      rw [h1, h2, h3, ihY, h4, h5, h6]
      simp only [← min_add_add_right]
      apply le_antisymm <;> simp only [le_min_iff, min_le_iff] <;> omega

/-! ## The table of distances -/

theorem mism_le_one (S : List Nat) (j : Int) (Pc : Nat) : mism S j Pc ≤ 1 := by
  unfold mism
  split <;> omega

theorem dp_succ_zero (P S : List Nat) (off : Int) (i : Nat) :
    dp P S off (i + 1) 0 = dp P S off i 0 + 1 := rfl

theorem dp_succ_succ (P S : List Nat) (off : Int) (i w : Nat) :
    dp P S off (i + 1) (w + 1) =
      min (dp P S off i w + mism S (off + w) (P.getD i 0))
        (min (dp P S off (i + 1) w + 1) (dp P S off i (w + 1) + 1)) := rfl

theorem dp_col_zero (P S : List Nat) (off : Int) (i : Nat) : dp P S off i 0 = i := by
  induction i with
  | zero => rfl
  | succ i ih => rw [dp_succ_zero, ih]

/-- A distance is at least the number of pattern letters in excess. -/
theorem dp_add_width_ge (P S : List Nat) (off : Int) (i : Nat) :
    ∀ w, i ≤ dp P S off i w + w := by
  induction i with
  | zero => intro w; omega
  | succ i ih =>
    intro w
    induction w with
    | zero => have := dp_col_zero P S off (i + 1); omega
    | succ w ihw =>
      rw [dp_succ_succ]
      have h1 := ih w
      have h2 := ih (w + 1)
      omega

/-- A distance is at least the number of subject letters in excess. -/
theorem dp_add_index_ge (P S : List Nat) (off : Int) (i : Nat) :
    ∀ w, w ≤ dp P S off i w + i := by
  induction i with
  | zero => intro w; simp [dp]
  | succ i ih =>
    intro w
    induction w with
    | zero => omega
    | succ w ihw =>
      rw [dp_succ_succ]
      have h1 := ih w
      have h2 := ih (w + 1)
      omega

theorem dp_succ_le (P S : List Nat) (off : Int) (i w : Nat) :
    dp P S off (i + 1) w ≤ dp P S off i w + 1 := by
  cases w with
  | zero => rw [dp_succ_zero]
  | succ w => rw [dp_succ_succ]; omega

/-- Past the end of the subject a wider substring is never closer to the pattern. -/
theorem dp_pad_mono (P S : List Nat) (off : Int) (i : Nat) :
    ∀ w : Nat, (S.length : Int) ≤ off + w → dp P S off i w ≤ dp P S off i (w + 1) := by
  induction i with
  | zero => intro w _; simp [dp]
  | succ i ih =>
    intro w hw
    have h1 := ih w hw
    have h2 := dp_succ_le P S off i w
    have hm : mism S (off + w) (P.getD i 0) = 1 := by
      unfold mism
      rw [if_pos]
      right; left; omega
    rw [dp_succ_succ P S off i w, hm]
    omega

theorem dp_pad_mono_le (P S : List Nat) (off : Int) (i : Nat) (w : Nat)
    (hw : (S.length : Int) ≤ off + w) : ∀ n, dp P S off i w ≤ dp P S off i (w + n) := by
  intro n
  induction n with
  | zero => simp
  | succ n ih =>
    have := dp_pad_mono P S off i (w + n) (by push_cast; omega)
    rw [← Nat.add_assoc]
    omega

/-- A lower bound of a whole row of the table is one of the next row. -/
theorem dp_row_lower (P S : List Nat) (off : Int) (i c : Nat)
    (h : ∀ w, c ≤ dp P S off i w) : ∀ w, c ≤ dp P S off (i + 1) w := by
  intro w
  induction w with
  | zero => rw [dp_succ_zero]; have := h 0; omega
  | succ w ih =>
    rw [dp_succ_succ]
    have h1 := h w
    have h2 := h (w + 1)
    omega

theorem dp_row_lower_le (P S : List Nat) (off : Int) (i c : Nat)
    (h : ∀ w, c ≤ dp P S off i w) : ∀ n w, c ≤ dp P S off (i + n) w := by
  intro n
  induction n with
  | zero => simpa using h
  | succ n ih =>
    rw [← Nat.add_assoc]
    exact dp_row_lower P S off (i + n) c ih

theorem take_succ_getD (l : List Nat) : ∀ (i : Nat), i < l.length →
    l.take (i + 1) = l.take i ++ [l.getD i 0] := by
  induction l with
  | nil => intro i h; simp at h
  | cons a l ih =>
    intro i h
    cases i with
    | zero => simp
    | succ i =>
      simp only [List.take_succ_cons, List.cons_append, List.getD_cons_succ]
      rw [ih i (by simpa using h)]

theorem substring_length (S : List Nat) (start width : Nat) (h : start + width ≤ S.length) :
    (substring S start width).length = width := by
  simp [substring]
  omega

theorem substring_snoc (S : List Nat) (start width : Nat) (h : start + width < S.length) :
    substring S start (width + 1) = substring S start width ++ [S.getD (start + width) 0] := by
  unfold substring
  rw [take_succ_getD _ _ (by simp; omega)]
  congr 2
  simp only [List.getD_eq_getElem?_getD, List.getElem?_drop]

/-- Inside the subject the table holds the Levenshtein distances between the prefixes of the
pattern and the substrings that start at the offset. -/
theorem dp_eq_lev (P S : List Nat) (o : Nat) (i : Nat) :
    i ≤ P.length → ∀ w, o + w ≤ S.length →
      dp P S (o : Int) i w = lev (P.take i) (substring S o w) := by
  induction i with
  | zero =>
    intro _ w hw
    rw [List.take_zero, lev_nil_left, substring_length S o w hw]
    rfl
  | succ i ih =>
    intro hi w
    have ih := ih (by omega)
    induction w with
    | zero =>
      intro _
      rw [dp_col_zero]
      have : substring S o 0 = [] := by simp [substring]
      rw [this, lev_nil_right, List.length_take]
      omega
    | succ w ihw =>
      intro hw
      rw [dp_succ_succ, ih w (by omega), ih (w + 1) hw, ihw (by omega),
        take_succ_getD P i (by omega), substring_snoc S o w (by omega), lev_snoc_snoc]
      congr 2
      have e : seqAt S ((o : Int) + (w : Int)) = S.getD (o + w) 0 := by
        unfold seqAt
        congr 1
      unfold mism
      rw [e]
      by_cases c : P.getD i 0 = S.getD (o + w) 0
      · rw [if_pos c, if_neg]
        rw [c]
        simp
        omega
      · rw [if_neg c, if_pos]
        right; right
        exact fun h => c h.symm

/-! ## The loops of `_nedit_for_Ploffset` -/

theorem Row.set_cell_same (row : Row) (B v : Int) : (row.set B v).cell B = v := by
  simp [Row.set]

theorem Row.set_cell_ne (row : Row) (B v B2 : Int) (h : B2 ≠ B) :
    (row.set B v).cell B2 = row.cell B2 := by
  simp [Row.set, Function.update, h]

theorem mism_cast (S : List Nat) (j : Int) (Pc : Nat) :
    ((mism S j Pc : Nat) : Int) = if j < 0 ∨ j ≥ S.length ∨ seqAt S j ≠ Pc then 1 else 0 := by
  unfold mism
  split <;> simp

theorem seqAt_cast (X : List Nat) (i : Nat) : seqAt X (i : Int) = X.getD i 0 := by
  simp [seqAt]

theorem PROPAGATE_NEDIT_cell_ne (curr_row : Row) (B : Int) (prev_row : Row) (S : List Nat)
    (j : Int) (Pc : Nat) (row_length : Int) (B2 : Int) (h : B2 ≠ B) :
    (PROPAGATE_NEDIT curr_row B prev_row S j Pc row_length).cell B2 = curr_row.cell B2 := by
  simp only [PROPAGATE_NEDIT]
  exact Row.set_cell_ne _ _ _ _ h

theorem cap_add (K a1 a m : Int) (h : min a1 (K + 1) = min a (K + 1)) (hm : 0 ≤ m) :
    min (a1 + m) (K + 1) = min (a + m) (K + 1) := by omega

theorem cap_ite_min (K x1 x y1 y : Int) (p : Prop) [Decidable p]
    (hx : min x1 (K + 1) = min x (K + 1))
    (hy : p → min y1 (K + 1) = min y (K + 1)) (hy2 : ¬ p → K + 1 ≤ y) :
    min (if p ∧ y1 < x1 then y1 else x1) (K + 1) = min (min x y) (K + 1) := by
  by_cases hp : p
  · have := hy hp
    simp only [hp, true_and]
    split <;> omega
  · have := hy2 hp
    simp only [hp, false_and, if_false]
    omega

theorem cap_cell (K : Nat) (a1 b1 c1 : Int) (a b c m : Nat) (p q : Prop) [Decidable p]
    [Decidable q] (hm : m ≤ 1)
    (ha : min a1 ((K : Int) + 1) = min (a : Int) ((K : Int) + 1))
    (hb : p → min b1 ((K : Int) + 1) = min (b : Int) ((K : Int) + 1))
    (hb2 : ¬ p → K + 1 ≤ b)
    (hc : q → min c1 ((K : Int) + 1) = min (c : Int) ((K : Int) + 1))
    (hc2 : ¬ q → K + 1 ≤ c) :
    min (if q ∧ c1 + 1 < (if p ∧ b1 + 1 < a1 + (m : Int) then b1 + 1 else a1 + (m : Int))
          then c1 + 1 else (if p ∧ b1 + 1 < a1 + (m : Int) then b1 + 1 else a1 + (m : Int)))
        ((K : Int) + 1) =
      min (((min (a + m) (min (b + 1) (c + 1)) : Nat)) : Int) ((K : Int) + 1) := by
  have h1 := cap_add K a1 a m ha (by omega)
  have h2 := cap_ite_min K (a1 + m) (a + m) (b1 + 1) (b + 1) p h1
    (fun hp => cap_add K b1 b 1 (hb hp) (by omega)) (fun hp => by have := hb2 hp; omega)
  have h3 := cap_ite_min K _ _ (c1 + 1) (c + 1) q h2
    (fun hq => cap_add K c1 c 1 (hc hq) (by omega)) (fun hq => by have := hc2 hq; omega)
  rw [h3]
  push_cast
  simp only [min_assoc]

/-- One cell of the next row: `PROPAGATE_NEDIT` follows the recurrence of the table, up to the
ceiling. -/
theorem PROPAGATE_NEDIT_cap (K : Nat) (curr_row : Row) (B : Int) (prev_row : Row) (S : List Nat)
    (j : Int) (Pc : Nat) (row_length : Int) (a b c : Nat)
    (ha : min (prev_row.cell B) ((K : Int) + 1) = min (a : Int) ((K : Int) + 1))
    (hb : B - 1 ≥ 0 → min (curr_row.cell (B - 1)) ((K : Int) + 1) = min (b : Int) ((K : Int) + 1))
    (hb2 : ¬ B - 1 ≥ 0 → K + 1 ≤ b)
    (hc : B + 1 < row_length →
      min (prev_row.cell (B + 1)) ((K : Int) + 1) = min (c : Int) ((K : Int) + 1))
    (hc2 : ¬ B + 1 < row_length → K + 1 ≤ c) :
    min ((PROPAGATE_NEDIT curr_row B prev_row S j Pc row_length).cell B) ((K : Int) + 1) =
      min (((min (a + mism S j Pc) (min (b + 1) (c + 1)) : Nat)) : Int) ((K : Int) + 1) := by
  simp only [PROPAGATE_NEDIT, Row.set_cell_same]
  rw [← mism_cast]
  exact cap_cell K _ _ _ a b c _ _ _ (mism_le_one S j Pc) ha hb hb2 hc hc2

theorem propagate_loop_cell_below (prev_row : Row) (S : List Nat) (Pc : Nat) (row_length : Int) :
    ∀ (n : Nat) (curr_row : Row) (B j B2 : Int), B2 < B →
      (propagate_loop prev_row S Pc row_length n curr_row B j).cell B2 = curr_row.cell B2 := by
  intro n
  induction n with
  | zero => intro curr_row B j B2 _; rfl
  | succ n ih =>
    intro curr_row B j B2 h
    rw [propagate_loop]
    split
    · rw [ih _ _ _ _ (by omega), PROPAGATE_NEDIT_cell_ne _ _ _ _ _ _ _ _ (by omega)]
    · rfl

/-- The inner loop fills the row `i + 1` of the table from the row `i`, from the width `w0` to
the end of the band. -/
theorem propagate_loop_rep (P S : List Nat) (off : Int) (K i : Nat) (prev_row : Row)
    (hprev : RowRep K (dp P S off i) i prev_row (i - K) (i + K + 1)) :
    ∀ (n : Nat) (curr_row : Row) (w0 : Nat) (B j : Int),
      1 ≤ w0 → i + 1 ≤ w0 + K → w0 + n = i + K + 2 →
      B = (w0 : Int) + K - (i + 1) → j = off + w0 - 1 →
      RowRep K (dp P S off (i + 1)) (i + 1) curr_row (i + 1 - K) w0 →
      RowRep K (dp P S off (i + 1)) (i + 1)
        (propagate_loop prev_row S (P.getD i 0) (2 * (K : Int) + 1) n curr_row B j)
        (i + 1 - K) (i + K + 2) := by
  intro n
  induction n with
  | zero =>
    intro curr_row w0 B j _ _ hn _ _ hcur
    have : w0 = i + K + 2 := by omega
    subst this
    exact hcur
  | succ n ih =>
    intro curr_row w0 B j h1 h2 hn hB hj hcur
    rw [propagate_loop, if_pos (by omega)]
    apply ih _ (w0 + 1) (B + 1) (j + 1) (by omega) (by omega) (by omega)
      (by push_cast; omega) (by push_cast; omega)
    intro w hlo hhi
    by_cases hw : w = w0
    · subst hw
      obtain ⟨v, rfl⟩ : ∃ v, w = v + 1 := ⟨w - 1, by omega⟩
      have hB2 : ((v + 1 : Nat) : Int) + K - ((i + 1 : Nat) : Int) = B := by push_cast; omega
      have hj2 : j = off + (v : Int) := by push_cast at hj; omega
      rw [hB2, dp_succ_succ, hj2]
      apply PROPAGATE_NEDIT_cap
      · have := hprev v (by omega) (by omega)
        have e : (v : Int) + K - i = B := by omega
        rwa [e] at this
      · intro hb
        have := hcur v (by omega) (by omega)
        have e : (v : Int) + K - ((i + 1 : Nat) : Int) = B - 1 := by omega
        rwa [e] at this
      · intro hb
        have := dp_add_width_ge P S off (i + 1) v
        omega
      · intro hc
        have := hprev (v + 1) (by omega) (by omega)
        have e : ((v + 1 : Nat) : Int) + K - i = B + 1 := by omega
        rwa [e] at this
      · intro hc
        have := dp_add_index_ge P S off i (v + 1)
        omega
    · have hne : (w : Int) + K - ((i + 1 : Nat) : Int) ≠ B := by omega
      rw [PROPAGATE_NEDIT_cell_ne _ _ _ _ _ _ _ _ hne]
      exact hcur w hlo (by omega)

/-- What the inner loop of STAGE 2 and STAGE 3 leaves in `min_nedit` and `*min_width`, from the
cells of the row it has written. -/
theorem propagate_min_loop_track (prev_row : Row) (S : List Nat) (Pc : Nat)
    (row_length Ploffset : Int) :
    ∀ (n : Nat) (curr_row : Row) (min_nedit min_width B j : Int),
      B + n = row_length →
      ∃ (R : Row) (mn mw : Int),
        propagate_min_loop prev_row S Pc row_length Ploffset n
          (curr_row, min_nedit, min_width) B j = (R, mn, mw) ∧
        R = propagate_loop prev_row S Pc row_length n curr_row B j ∧
        mn ≤ min_nedit ∧
        (∀ t : Nat, t < n → mn ≤ R.cell (B + t)) ∧
        ((mn = min_nedit ∧ mw = min_width) ∨
          ∃ t : Nat, t < n ∧ R.cell (B + t) = mn ∧ mn < min_nedit ∧
            mw = j + t - Ploffset + 1 ∧ ∀ t2 : Nat, t2 < t → mn < R.cell (B + t2)) := by
  intro n
  induction n with
  | zero =>
    intro curr_row min_nedit min_width B j _
    exact ⟨curr_row, min_nedit, min_width, rfl, rfl, le_refl _, fun t ht => by omega,
      Or.inl ⟨rfl, rfl⟩⟩
  | succ n ih =>
    intro curr_row min_nedit min_width B j hB
    rw [propagate_min_loop, propagate_loop, if_pos (by omega), if_pos (by omega)]
    simp only []
    have hcell : ∀ R, R = propagate_loop prev_row S Pc row_length n
        (PROPAGATE_NEDIT curr_row B prev_row S j Pc row_length) (B + 1) (j + 1) →
        R.cell B = (PROPAGATE_NEDIT curr_row B prev_row S j Pc row_length).cell B := by
      intro R hR
      rw [hR, propagate_loop_cell_below _ _ _ _ _ _ _ _ _ (by omega)]
    split
    · rename_i hlt
      obtain ⟨R, mn, mw, hrun, hR, hle, hall, hcase⟩ :=
        ih (PROPAGATE_NEDIT curr_row B prev_row S j Pc row_length)
          ((PROPAGATE_NEDIT curr_row B prev_row S j Pc row_length).cell B)
          (j - Ploffset + 1) (B + 1) (j + 1) (by push_cast at hB; omega)
      have hc := hcell R hR
      refine ⟨R, mn, mw, hrun, hR, by omega, ?_, ?_⟩
      · intro t ht
        cases t with
        | zero => simp only [Nat.cast_zero, add_zero]; omega
        | succ t =>
          have := hall t (by omega)
          have e : B + ((t + 1 : Nat) : Int) = B + 1 + t := by push_cast; ring
          rwa [e]
      · right
        rcases hcase with ⟨h1, h2⟩ | ⟨t, ht, h1, h2, h3, h4⟩
        · refine ⟨0, by omega, ?_, by omega, ?_, fun t2 ht2 => by omega⟩
          · simp only [Nat.cast_zero, add_zero]; omega
          · simp only [Nat.cast_zero, add_zero]; omega
        · refine ⟨t + 1, by omega, ?_, by omega, ?_, ?_⟩
          · have e : B + ((t + 1 : Nat) : Int) = B + 1 + t := by push_cast; ring
            rwa [e]
          · push_cast; omega
          · intro t2 ht2
            cases t2 with
            | zero => simp only [Nat.cast_zero, add_zero]; omega
            | succ t2 =>
              have := h4 t2 (by omega)
              have e : B + ((t2 + 1 : Nat) : Int) = B + 1 + t2 := by push_cast; ring
              rwa [e]
    · rename_i hlt
      obtain ⟨R, mn, mw, hrun, hR, hle, hall, hcase⟩ :=
        ih (PROPAGATE_NEDIT curr_row B prev_row S j Pc row_length)
          min_nedit min_width (B + 1) (j + 1) (by push_cast at hB; omega)
      have hc := hcell R hR
      refine ⟨R, mn, mw, hrun, hR, by omega, ?_, ?_⟩
      · intro t ht
        cases t with
        | zero => simp only [Nat.cast_zero, add_zero]; omega
        | succ t =>
          have := hall t (by omega)
          have e : B + ((t + 1 : Nat) : Int) = B + 1 + t := by push_cast; ring
          rwa [e]
      · rcases hcase with ⟨h1, h2⟩ | ⟨t, ht, h1, h2, h3, h4⟩
        · left; exact ⟨h1, h2⟩
        · right
          refine ⟨t + 1, by omega, ?_, by omega, ?_, ?_⟩
          · have e : B + ((t + 1 : Nat) : Int) = B + 1 + t := by push_cast; ring
            rwa [e]
          · push_cast; omega
          · intro t2 ht2
            cases t2 with
            | zero => simp only [Nat.cast_zero, add_zero]; omega
            | succ t2 =>
              have := h4 t2 (by omega)
              have e : B + ((t2 + 1 : Nat) : Int) = B + 1 + t2 := by push_cast; ring
              rwa [e]

/-- From the cells of a row and what the inner loop has tracked, the least distance of the row
of the table and its first width. -/
theorem rowMin_of_track (K r : Nat) (tab : Nat → Nat) (R : Row) (mn mw : Int) (w0 n : Nat)
    (B j off : Int)
    (htab0 : tab 0 = r) (hlow : ∀ w, r ≤ tab w + w) (hhigh : ∀ w, w ≤ tab w + r)
    (hw0 : 1 ≤ w0) (hn : w0 + n = r + K + 1) (hB : B = (w0 : Int) + K - r)
    (hj : j = off + w0 - 1) (hband : w0 ≤ 1 ∨ w0 + K ≤ r)
    (hrep : RowRep K tab r R w0 (r + K + 1))
    (hle : mn ≤ r)
    (hall : ∀ t : Nat, t < n → mn ≤ R.cell (B + t))
    (hcase : (mn = r ∧ mw = 0) ∨
      ∃ t : Nat, t < n ∧ R.cell (B + t) = mn ∧ mn < r ∧
        mw = j + t - off + 1 ∧ ∀ t2 : Nat, t2 < t → mn < R.cell (B + t2)) :
    RowMin K tab r mn mw := by
  have hcell : ∀ w : Nat, w0 ≤ w → w < r + K + 1 →
      min (R.cell (B + ((w - w0 : Nat) : Int))) ((K : Int) + 1)
        = min ((tab w : Nat) : Int) ((K : Int) + 1) := by
    intro w h1 h2
    have := hrep w h1 h2
    have e : (w : Int) + K - r = B + ((w - w0 : Nat) : Int) := by omega
    rwa [e] at this
  have hregion : ∀ w : Nat, w = 0 ∨ (1 ≤ w ∧ w < w0) ∨ (w0 ≤ w ∧ w < r + K + 1) ∨
      r + K + 1 ≤ w := by
    intro w; omega
  have hout1 : ∀ w : Nat, 1 ≤ w → w < w0 → K < tab w := by
    intro w h1 h2
    have := hlow w
    omega
  have hout2 : ∀ w : Nat, r + K + 1 ≤ w → K < tab w := by
    intro w h1
    have := hhigh w
    omega
  have hge : mn ≤ K → ∀ w, mn ≤ tab w := by
    intro hmK w
    rcases hregion w with h | ⟨h1, h2⟩ | ⟨h1, h2⟩ | h
    · subst h; rw [htab0]; exact hle
    · have := hout1 w h1 h2; omega
    · have hc := hcell w h1 h2
      have ha := hall (w - w0) (by omega)
      omega
    · have := hout2 w h; omega
  refine ⟨hle, ?_, ?_⟩
  · intro hmK
    rcases hcase with ⟨h1, h2⟩ | ⟨t, ht, h1, h2, h3, h4⟩
    · refine ⟨0, by simpa using h2, by rw [htab0]; exact h1, hge hmK, fun w hw => by omega⟩
    · have hc := hcell (w0 + t) (by omega) (by omega)
      have e : w0 + t - w0 = t := by omega
      rw [e, h1] at hc
      refine ⟨w0 + t, by push_cast; omega, by omega, hge hmK, ?_⟩
      intro w hw
      rcases hregion w with h | ⟨h5, h6⟩ | ⟨h5, h6⟩ | h
      · subst h; rw [htab0]; exact h2
      · have := hout1 w h5 h6; omega
      · have hc2 := hcell w h5 h6
        have ha := h4 (w - w0) (by omega)
        omega
      · have := hout2 w h; omega
  · intro hKm w
    rcases hregion w with h | ⟨h1, h2⟩ | ⟨h1, h2⟩ | h
    · subst h; rw [htab0]; omega
    · exact_mod_cast hout1 w h1 h2
    · have hc := hcell w h1 h2
      have ha := hall (w - w0) (by omega)
      omega
    · exact_mod_cast hout2 w h

theorem stage0_loop_cells (K : Nat) :
    ∀ (n : Nat) (curr_row : Row) (b : Nat) (B bb : Int), b + n = K + 1 →
      B = (K : Int) + b → bb = b →
      (∀ w : Nat, w < b → curr_row.cell ((w : Int) + K) = w) →
      ∀ w : Nat, w < K + 1 →
        (stage0_loop n curr_row B bb (2 * (K : Int) + 1)).cell ((w : Int) + K) = w := by
  intro n
  induction n with
  | zero =>
    intro curr_row b B bb hn _ _ h w hw
    exact h w (by omega)
  | succ n ih =>
    intro curr_row b B bb hn hB hbb h w hw
    rw [stage0_loop, if_pos (by omega)]
    apply ih _ (b + 1) (B + 1) (bb + 1) (by omega) (by push_cast; omega) (by push_cast; omega)
      _ w hw
    intro v hv
    by_cases hvb : v = b
    · subst hvb
      have e : (v : Int) + K = B := by omega
      rw [e, Row.set_cell_same]
      omega
    · rw [Row.set_cell_ne _ _ _ _ (by omega)]
      exact h v (by omega)

/-- STAGE 0 leaves the row 0 of the table. -/
theorem stage0_loop_rep (P S : List Nat) (off : Int) (K : Nat) (curr_row : Row) :
    RowRep K (dp P S off 0) 0
      (stage0_loop (2 * (K : Int) + 1 - K).toNat curr_row K 0 (2 * (K : Int) + 1)) 0 (K + 1) := by
  intro w _ hw
  have e : (2 * (K : Int) + 1 - K).toNat = K + 1 := by omega
  have := stage0_loop_cells K (K + 1) curr_row 0 K 0 (by omega) (by simp) (by simp)
    (fun v hv => by omega) w hw
  rw [e]
  have e2 : (w : Int) + K - ((0 : Nat) : Int) = (w : Int) + K := by simp
  rw [e2, this]
  rfl

/-- STAGE 1 leaves the row `K - 1` of the table, `K` being the clamped `max_nedit`. -/
theorem stage1_loop_rep (P S : List Nat) (off : Int) (K : Nat) :
    ∀ (n : Nat) (rows : RowPtrs) (i : Nat) (iplus1 ii : Int),
      i + 1 + n = K → iplus1 = (i : Int) + 1 → ii = i →
      RowRep K (dp P S off i) i rows.curr_row 0 (i + K + 1) →
      ∃ rows2 : RowPtrs,
        stage1_loop P S K (2 * (K : Int) + 1) off n (rows, iplus1, ii)
          = (rows2, (K : Int), (K : Int) - 1) ∧
        RowRep K (dp P S off (K - 1)) (K - 1) rows2.curr_row 0 (2 * K) := by
  intro n
  induction n with
  | zero =>
    intro rows i iplus1 ii hn h1 h2 hrep
    refine ⟨rows, ?_, ?_⟩
    · rw [stage1_loop]
      congr 2 <;> omega
    · have e : K - 1 = i := by omega
      have e2 : 2 * K = i + K + 1 := by omega
      rw [e, e2]
      exact hrep
  | succ n ih =>
    intro rows i iplus1 ii hn h1 h2 hrep
    rw [stage1_loop, if_pos (by omega)]
    simp only [SWAP_NEDIT_BUFS]
    apply ih _ (i + 1) (iplus1 + 1) (ii + 1) (by omega) (by push_cast; omega)
      (by push_cast; omega)
    simp only []
    have hfuel : (2 * (K : Int) + 1 - (↑K - iplus1 + 1)).toNat = i + K + 1 := by omega
    have hPc : seqAt P ii = P.getD i 0 := by rw [h2, seqAt_cast]
    rw [hfuel, hPc]
    have := propagate_loop_rep P S off K i rows.curr_row
      (fun w h1 h2 => hrep w (by omega) h2) (i + K + 1)
      (rows.prev_row.set (↑K - iplus1) iplus1) 1 (↑K - iplus1 + 1) off
      (by omega) (by omega) (by omega) (by push_cast; omega) (by push_cast; omega)
      (by
        intro w _ hw
        have hw0 : w = 0 := by omega
        subst hw0
        have e : ((0 : Nat) : Int) + K - ((i + 1 : Nat) : Int) = ↑K - iplus1 := by
          push_cast; omega
        rw [e, Row.set_cell_same, dp_col_zero, h1]
        push_cast
        rfl)
    have e : i + 1 - K = 0 := by omega
    rw [e] at this
    have e2 : i + 1 + K + 1 = i + K + 2 := by omega
    rw [e2]
    exact this

/-- One row of STAGE 2 or STAGE 3: the inner loop with the tracking, started at the width `w0`
of the row `r + 1`, leaves that row of the table, its least distance and first width. -/
theorem propagate_min_loop_row (P S : List Nat) (off : Int) (K r : Nat) (prev_row curr_row : Row)
    (w0 n : Nat) (B : Int) (jmin iplus1 : Int)
    (hprev : RowRep K (dp P S off r) r prev_row (r - K) (r + K + 1))
    (hw0 : 1 ≤ w0) (hw1 : r + 1 ≤ w0 + K) (hn : w0 + n = r + K + 2)
    (hB : B = (w0 : Int) + K - (r + 1)) (hj : jmin = off + w0 - 1) (hip : iplus1 = (r : Int) + 1)
    (hband : w0 ≤ 1 ∨ w0 + K ≤ r + 1)
    (hcur : RowRep K (dp P S off (r + 1)) (r + 1) curr_row (r + 1 - K) w0) :
    ∃ (R : Row) (mn mw : Int),
      propagate_min_loop prev_row S (P.getD r 0) (2 * (K : Int) + 1) off n
        (curr_row, iplus1, 0) B jmin = (R, mn, mw) ∧
      RowRep K (dp P S off (r + 1)) (r + 1) R (r + 1 - K) (r + K + 2) ∧
      RowMin K (dp P S off (r + 1)) (r + 1) mn mw := by
  obtain ⟨R, mn, mw, hrun, hR, hle, hall, hcase⟩ :=
    propagate_min_loop_track prev_row S (P.getD r 0) (2 * (K : Int) + 1) off n curr_row
      iplus1 0 B jmin (by omega)
  have hrep := propagate_loop_rep P S off K r prev_row hprev n curr_row w0 B jmin hw0 hw1 hn
    hB hj hcur
  rw [← hR] at hrep
  refine ⟨R, mn, mw, hrun, hrep, ?_⟩
  apply rowMin_of_track K (r + 1) (dp P S off (r + 1)) R mn mw w0 n B jmin off
    (dp_col_zero P S off (r + 1)) (dp_add_width_ge P S off (r + 1))
    (dp_add_index_ge P S off (r + 1)) hw0 (by omega) (by push_cast; omega) hj hband
    (fun w h1 h2 => hrep w (by omega) (by omega)) (by push_cast; omega) hall
  rcases hcase with ⟨h1, h2⟩ | h
  · left; exact ⟨by push_cast; omega, h2⟩
  · right
    obtain ⟨t, ht, h1, h2, h3, h4⟩ := h
    exact ⟨t, ht, h1, by push_cast; omega, h3, h4⟩

/-- STAGE 3 stops at a row `r2` of the table, with its least distance and first width: the
last row, or a row where it bails out. -/
theorem stage3_loop_spec (P S : List Nat) (off : Int) (K : Nat) (max_nedit_plus1 : Int) :
    ∀ (n : Nat) (rows : RowPtrs) (r : Nat) (i iplus1 jmin mn mw : Int),
      r + n = P.length → K ≤ r → i = r → iplus1 = (r : Int) + 1 → jmin = off + r - K →
      RowRep K (dp P S off r) r rows.curr_row (r - K) (r + K + 1) →
      RowMin K (dp P S off r) r mn mw →
      ∃ (rows2 : RowPtrs) (i2 ip2 jm2 mn2 mw2 : Int) (r2 : Nat),
        stage3_loop P S (2 * (K : Int) + 1) off max_nedit_plus1 n
          (rows, i, iplus1, jmin, mn, mw) = (rows2, i2, ip2, jm2, mn2, mw2) ∧
        r ≤ r2 ∧ r2 ≤ P.length ∧ RowMin K (dp P S off r2) r2 mn2 mw2 ∧
        (r2 = P.length ∨ (r < r2 ∧ mn2 ≥ max_nedit_plus1)) := by
  intro n
  induction n with
  | zero =>
    intro rows r i iplus1 jmin mn mw hn hK hi hip hj hrep hmin
    exact ⟨rows, i, iplus1, jmin, mn, mw, r, rfl, le_refl _, by omega, hmin, Or.inl (by omega)⟩
  | succ n ih =>
    intro rows r i iplus1 jmin mn mw hn hK hi hip hj hrep hmin
    rw [stage3_loop, if_pos (by omega)]
    simp only [SWAP_NEDIT_BUFS]
    have hPc : seqAt P i = P.getD r 0 := by rw [hi, seqAt_cast]
    have hfuel : (2 * (K : Int) + 1).toNat = 2 * K + 1 := by omega
    rw [hPc, hfuel]
    obtain ⟨R, mn1, mw1, hrun, hrep1, hmin1⟩ :=
      propagate_min_loop_row P S off K r rows.curr_row rows.prev_row (r + 1 - K) (2 * K + 1) 0
        jmin iplus1 hrep (by omega) (by omega) (by omega) (by omega)
        (by omega) hip (by omega) (fun w h1 h2 => by omega)
    rw [hrun]
    simp only []
    split
    · rename_i hbail
      exact ⟨_, _, _, _, _, _, r + 1, rfl, by omega, by omega, hmin1, Or.inr ⟨by omega, hbail⟩⟩
    · obtain ⟨rows2, i2, ip2, jm2, mn2, mw2, r2, hrun2, h1, h2, h3, h4⟩ :=
        ih ⟨rows.curr_row, R, !rows.swapped⟩ (r + 1) (i + 1) (iplus1 + 1) (jmin + 1) mn1 mw1
          (by omega) (by omega) (by push_cast; omega) (by push_cast; omega)
          (by push_cast; omega)
          (by
            have e : r + 1 + K + 1 = r + K + 2 := by omega
            rw [e]; exact hrep1)
          hmin1
      refine ⟨rows2, i2, ip2, jm2, mn2, mw2, r2, hrun2, by omega, h2, h3, ?_⟩
      rcases h4 with h | ⟨h5, h6⟩
      · left; exact h
      · right; exact ⟨by omega, h6⟩

/-- From the row where STAGE 3 stops to the last row of the table. -/
theorem neditSpec_of_rowMin (P S : List Nat) (off max_nedit : Int) (K r2 : Nat) (mn mw : Int)
    (hK : (K : Int) = min max_nedit (P.length : Int)) (hr2 : r2 ≤ P.length)
    (hmin : RowMin K (dp P S off r2) r2 mn mw)
    (hstop : r2 = P.length ∨ (K < r2 ∧ mn ≥ max_nedit + 1)) :
    NeditSpec P S off max_nedit mn mw := by
  have h1 : mn ≤ r2 := hmin.1
  rcases hstop with h | ⟨h4, h5⟩
  · subst h
    have hle2 : mn ≤ max_nedit → mn ≤ K := by intro h; omega
    have hlt2 : max_nedit < mn → (K : Int) < mn := by intro h; omega
    have hKmax : max_nedit < mn → max_nedit ≤ K := by intro h; omega
    refine ⟨h1, fun hle => hmin.2.1 (hle2 hle), fun hlt w => ?_⟩
    have h5 := hmin.2.2 (hlt2 hlt) w
    have h6 := hKmax hlt
    clear hmin
    omega
  · have hKmax : (K : Int) = max_nedit := by omega
    have hm1 : mn ≤ P.length := by omega
    have hm2 : ¬ mn ≤ max_nedit := by omega
    have hm3 : (K : Int) < mn := by omega
    refine ⟨hm1, fun hle => absurd hle hm2, fun hlt w => ?_⟩
    have hrow : ∀ w, K + 1 ≤ dp P S off r2 w := by
      intro w
      have := hmin.2.2 hm3 w
      clear hmin
      omega
    clear hmin
    have := dp_row_lower_le P S off r2 (K + 1) hrow (P.length - r2) w
    have e : r2 + (P.length - r2) = P.length := by omega
    rw [e] at this
    omega

/-- The call of `_nedit_for_Ploffset` on a non-empty pattern with a bound it accepts returns,
and what it returns is read on the last row of the table. -/
theorem nedit_for_Ploffset_spec (row1_buf row2_buf : Row) (P S : List Nat)
    (Ploffset max_nedit loose min_width : Int)
    (hP : P ≠ []) (hmax : 1 ≤ max_nedit) (hcap : min max_nedit (P.length : Int) ≤ 100) :
    ∃ res : NeditResult,
      _nedit_for_Ploffset row1_buf row2_buf P S Ploffset max_nedit loose min_width = .ok res ∧
      NeditSpec P S Ploffset max_nedit res.nedit res.min_width := by
  have hlen : 0 < P.length := List.length_pos.mpr hP
  obtain ⟨k, hK⟩ : ∃ k : Nat, ((k + 1 : Nat) : Int) = min max_nedit (P.length : Int) :=
    ⟨(min max_nedit (P.length : Int)).toNat - 1, by omega⟩
  have hclamp : (if max_nedit > (P.length : Int) then (P.length : Int) else max_nedit)
      = ((k + 1 : Nat) : Int) := by
    split <;> omega
  have hKm : k + 1 ≤ P.length := by omega
  unfold _nedit_for_Ploffset
  rw [if_neg (by omega), if_neg (by omega)]
  simp only []
  rw [hclamp, if_neg (by simp only [MAX_NEDIT]; omega)]
  -- STAGE 0 and STAGE 1
  have hfuel1 : (((k + 1 : Nat) : Int) - 1).toNat = k := by omega
  obtain ⟨rows1, hrun1, hrep1⟩ := stage1_loop_rep P S Ploffset (k + 1) k
    ⟨row1_buf, stage0_loop (2 * ((k + 1 : Nat) : Int) + 1 - ((k + 1 : Nat) : Int)).toNat row2_buf
      ((k + 1 : Nat) : Int) 0 (2 * ((k + 1 : Nat) : Int) + 1), false⟩ 0 1 0
    (by omega) (by simp) (by simp)
    (by rw [Nat.zero_add]; exact stage0_loop_rep P S Ploffset (k + 1) row2_buf)
  rw [hfuel1, hrun1]
  simp only [SWAP_NEDIT_BUFS]
  -- STAGE 2
  have hPc : seqAt P (((k + 1 : Nat) : Int) - 1) = P.getD k 0 := by
    have e : ((k + 1 : Nat) : Int) - 1 = (k : Int) := by push_cast; omega
    rw [e, seqAt_cast]
  have hfuel2 : (2 * ((k + 1 : Nat) : Int) + 1 - 1).toNat = 2 * (k + 1) := by omega
  have e1 : k + 1 - 1 = k := by omega
  rw [e1] at hrep1
  obtain ⟨R, mn, mw, hrun2, hrep2, hmin2⟩ :=
    propagate_min_loop_row P S Ploffset (k + 1) k rows1.curr_row
      (rows1.prev_row.set 0 ((k + 1 : Nat) : Int)) 1 (2 * (k + 1)) 1 Ploffset
      ((k + 1 : Nat) : Int)
      (fun w h1 h2 => hrep1 w (by omega) (by omega)) (by omega) (by omega) (by omega)
      (by push_cast; omega) (by push_cast; omega) (by push_cast; omega) (by omega)
      (by
        intro w _ hw
        have hw0 : w = 0 := by omega
        subst hw0
        have e : ((0 : Nat) : Int) + ((k + 1 : Nat) : Int) - ((k + 1 : Nat) : Int) = 0 := by
          omega
        rw [e, Row.set_cell_same, dp_col_zero])
  rw [hPc, hfuel2, hrun2]
  simp only []
  -- STAGE 3
  have hfuel3 : ((P.length : Int) - (((k + 1 : Nat) : Int) - 1 + 1)).toNat = P.length - (k + 1) := by
    omega
  obtain ⟨rows3, i3, ip3, jm3, mn3, mw3, r3, hrun3, h1, h2, h3, h4⟩ :=
    stage3_loop_spec P S Ploffset (k + 1) (max_nedit + 1) (P.length - (k + 1))
      ⟨rows1.curr_row, R, !rows1.swapped⟩ (k + 1) (((k + 1 : Nat) : Int) - 1 + 1)
      (((k + 1 : Nat) : Int) + 1) Ploffset mn mw
      (by omega) (le_refl _) (by omega) (by omega) (by omega)
      (fun w h1 h2 => hrep2 w (by omega) (by omega)) hmin2
  rw [hfuel3, hrun3]
  refine ⟨_, rfl, ?_⟩
  simp only []
  apply neditSpec_of_rowMin P S Ploffset max_nedit (k + 1) r3 mn3 mw3 hK h2 h3
  rcases h4 with h | ⟨h5, h6⟩
  · left; exact h
  · right; exact ⟨by omega, h6⟩

/-! ## The returned distance and width against the Levenshtein distance -/

theorem min_upto_le (f : Nat → Nat) (n : Nat) : ∀ w, w ≤ n → min_upto f n ≤ f w := by
  induction n with
  | zero =>
    intro w hw
    have : w = 0 := by omega
    subst this
    exact le_refl _
  | succ n ih =>
    intro w hw
    rw [min_upto]
    by_cases h : w = n + 1
    · subst h; omega
    · have := ih w (by omega); omega

theorem min_upto_attained (f : Nat → Nat) (n : Nat) : ∃ w, w ≤ n ∧ min_upto f n = f w := by
  induction n with
  | zero => exact ⟨0, le_refl _, rfl⟩
  | succ n ih =>
    obtain ⟨w, hw, he⟩ := ih
    rw [min_upto]
    by_cases h : min_upto f n ≤ f (n + 1)
    · exact ⟨w, by omega, by omega⟩
    · exact ⟨n + 1, le_refl _, by omega⟩

theorem dp_last_eq_lev (P S : List Nat) (o w : Nat) (hw : o + w ≤ S.length) :
    dp P S (o : Int) P.length w = lev P (substring S o w) := by
  rw [dp_eq_lev P S o P.length (le_refl _) w hw, List.take_length]

/-- The least distance to a substring of the subject is on the last row of the table. -/
theorem min_lev_from_attained (P S : List Nat) (o : Nat) (ho : o ≤ S.length) :
    ∃ w, w ≤ S.length - o ∧ dp P S (o : Int) P.length w = min_lev_from P S o := by
  obtain ⟨w, hw, he⟩ := min_upto_attained (fun w => lev P (substring S o w)) (S.length - o)
  exact ⟨w, hw, by rw [dp_last_eq_lev P S o w (by omega)]; exact he.symm⟩

/-- The least distance to a substring of the subject is a lower bound of the whole last row of
the table, the widths that go past the end of the subject included. -/
theorem min_lev_from_le (P S : List Nat) (o : Nat) (ho : o ≤ S.length) (w : Nat) :
    min_lev_from P S o ≤ dp P S (o : Int) P.length w := by
  by_cases hw : w ≤ S.length - o
  · rw [dp_last_eq_lev P S o w (by omega)]
    exact min_upto_le (fun w => lev P (substring S o w)) (S.length - o) w hw
  · have h1 := dp_pad_mono_le P S (o : Int) P.length (S.length - o) (by omega)
      (w - (S.length - o))
    have e : S.length - o + (w - (S.length - o)) = w := by omega
    rw [e] at h1
    have h2 : min_lev_from P S o ≤ dp P S (o : Int) P.length (S.length - o) := by
      rw [dp_last_eq_lev P S o _ (by omega)]
      exact min_upto_le (fun w => lev P (substring S o w)) (S.length - o) _ (le_refl _)
    omega

/-- Below the ceiling the stored width is within the subject. -/
theorem neditSpec_width_le (P S : List Nat) (o : Nat) (max_nedit nedit min_width : Int)
    (ho : o ≤ S.length) (hspec : NeditSpec P S (o : Int) max_nedit nedit min_width)
    (hle : nedit ≤ max_nedit) :
    ∃ wd : Nat, min_width = wd ∧ wd ≤ S.length - o ∧ nedit = dp P S (o : Int) P.length wd ∧
      (∀ w, nedit ≤ dp P S (o : Int) P.length w) ∧
      ∀ w, w < wd → nedit < dp P S (o : Int) P.length w := by
  obtain ⟨wd, h4, h5, h6, h7⟩ := hspec.2.1 hle
  refine ⟨wd, h4, ?_, h5, h6, h7⟩
  by_contra hgt
  have h8 := h7 (S.length - o) (by omega)
  have h9 := dp_pad_mono_le P S (o : Int) P.length (S.length - o) (by omega)
    (wd - (S.length - o))
  have e : S.length - o + (wd - (S.length - o)) = wd := by omega
  rw [e] at h9
  omega

/-- C1: on a non-empty pattern, with `0 ≤ Ploffset ≤ |S|`, `max_nedit ≥ 1` and
`min(max_nedit, |P|) ≤ 100`, the call of `_nedit_for_Ploffset` returns, and the value it
returns is at most `max_nedit` if and only if the least Levenshtein distance between `P` and a
substring `S[Ploffset .. Ploffset + w)`, `w` in `[0, |S| - Ploffset]`, is at most `max_nedit`,
in which case it is that least distance. -/
theorem C1_nedit_for_Ploffset_min_distance (row1_buf row2_buf : Row) (P S : List Nat)
    (Ploffset max_nedit loose min_width : Int)
    (hP : P ≠ []) (hoff0 : 0 ≤ Ploffset) (hoff1 : Ploffset ≤ S.length)
    (hmax : 1 ≤ max_nedit) (hcap : min max_nedit (P.length : Int) ≤ 100) :
    ∃ res : NeditResult,
      _nedit_for_Ploffset row1_buf row2_buf P S Ploffset max_nedit loose min_width = .ok res ∧
      (res.nedit ≤ max_nedit ↔ (min_lev_from P S Ploffset.toNat : Int) ≤ max_nedit) ∧
      (res.nedit ≤ max_nedit → res.nedit = min_lev_from P S Ploffset.toNat) := by
  obtain ⟨res, hrun, -, h2, h3⟩ :=
    nedit_for_Ploffset_spec row1_buf row2_buf P S Ploffset max_nedit loose min_width hP hmax hcap
  obtain ⟨o, rfl⟩ := Int.eq_ofNat_of_zero_le hoff0
  have ho : o ≤ S.length := by omega
  rw [Int.toNat_ofNat]
  obtain ⟨w0, hw0, he0⟩ := min_lev_from_attained P S o ho
  have hexact : res.nedit ≤ max_nedit → res.nedit = min_lev_from P S o := by
    intro hle
    obtain ⟨wd, -, h5, h6, -⟩ := h2 hle
    have h7 := h6 w0
    have h8 := min_lev_from_le P S o ho wd
    omega
  refine ⟨res, hrun, ⟨fun hle => ?_, fun hle => ?_⟩, hexact⟩
  · have := hexact hle
    omega
  · by_contra hgt
    have := h3 (by omega) w0
    omega

theorem C1_witness :
    bytes "ACGT" ≠ [] ∧ (0 : Int) ≤ 2 ∧ (2 : Int) ≤ (bytes "TTAGTTT").length ∧ (1 : Int) ≤ 2 ∧
    min (2 : Int) ((bytes "ACGT").length : Int) ≤ 100 ∧
    ∃ res : NeditResult,
      _nedit_for_Ploffset ⟨fun _ => 0⟩ ⟨fun _ => 0⟩ (bytes "ACGT") (bytes "TTAGTTT") 2 2 1 0
        = .ok res ∧
      res.nedit ≤ 2 ∧ (min_lev_from (bytes "ACGT") (bytes "TTAGTTT") (2 : Int).toNat : Int) ≤ 2 ∧
      res.nedit = min_lev_from (bytes "ACGT") (bytes "TTAGTTT") (2 : Int).toNat := by
  obtain ⟨res, hrun, h1, h2⟩ :=
    C1_nedit_for_Ploffset_min_distance ⟨fun _ => 0⟩ ⟨fun _ => 0⟩ (bytes "ACGT") (bytes "TTAGTTT")
      2 2 1 0 (by decide) (by decide) (by decide) (by decide) (by decide)
  have hmin : (min_lev_from (bytes "ACGT") (bytes "TTAGTTT") (2 : Int).toNat : Int) ≤ 2 := by
    decide
  exact ⟨by decide, by decide, by decide, by decide, by decide, res, hrun, h1.mpr hmin, hmin,
    h2 (h1.mpr hmin)⟩

/-- C2: on a non-empty pattern, with `0 ≤ Ploffset ≤ |S|`, `max_nedit ≥ 1` and
`min(max_nedit, |P|) ≤ 100`, whenever `_nedit_for_Ploffset` returns a distance `d ≤ max_nedit`
the width it stores in `*min_width` is the smallest `w` in `[0, |S| - Ploffset]` such that the
Levenshtein distance between `P` and `S[Ploffset .. Ploffset + w)` is `d`. -/
theorem C2_nedit_for_Ploffset_min_width (row1_buf row2_buf : Row) (P S : List Nat)
    (Ploffset max_nedit loose min_width : Int)
    (hP : P ≠ []) (hoff0 : 0 ≤ Ploffset) (hoff1 : Ploffset ≤ S.length)
    (hmax : 1 ≤ max_nedit) (hcap : min max_nedit (P.length : Int) ≤ 100) :
    ∃ res : NeditResult,
      _nedit_for_Ploffset row1_buf row2_buf P S Ploffset max_nedit loose min_width = .ok res ∧
      (res.nedit ≤ max_nedit →
        ∃ wd : Nat, res.min_width = wd ∧ wd ≤ S.length - Ploffset.toNat ∧
          (lev P (substring S Ploffset.toNat wd) : Int) = res.nedit ∧
          ∀ w, w < wd → (lev P (substring S Ploffset.toNat w) : Int) ≠ res.nedit) := by
  obtain ⟨res, hrun, hspec⟩ :=
    nedit_for_Ploffset_spec row1_buf row2_buf P S Ploffset max_nedit loose min_width hP hmax hcap
  obtain ⟨o, rfl⟩ := Int.eq_ofNat_of_zero_le hoff0
  have ho : o ≤ S.length := by omega
  rw [Int.toNat_ofNat]
  refine ⟨res, hrun, fun hle => ?_⟩
  obtain ⟨wd, h4, hwd, h5, -, h7⟩ := neditSpec_width_le P S o max_nedit _ _ ho hspec hle
  refine ⟨wd, h4, hwd, ?_, fun w hw => ?_⟩
  · rw [← dp_last_eq_lev P S o wd (by omega)]
    omega
  · have := h7 w hw
    rw [dp_last_eq_lev P S o w (by omega)] at this
    omega

theorem C2_witness :
    bytes "ACGT" ≠ [] ∧ (0 : Int) ≤ 2 ∧ (2 : Int) ≤ (bytes "TTAGTTT").length ∧ (1 : Int) ≤ 2 ∧
    min (2 : Int) ((bytes "ACGT").length : Int) ≤ 100 ∧
    ∃ res : NeditResult,
      _nedit_for_Ploffset ⟨fun _ => 0⟩ ⟨fun _ => 0⟩ (bytes "ACGT") (bytes "TTAGTTT") 2 2 1 0
        = .ok res ∧
      res.nedit ≤ 2 ∧
      ∃ wd : Nat, res.min_width = wd ∧ wd ≤ (bytes "TTAGTTT").length - (2 : Int).toNat ∧
        (lev (bytes "ACGT") (substring (bytes "TTAGTTT") (2 : Int).toNat wd) : Int)
          = res.nedit ∧
        ∀ w, w < wd →
          (lev (bytes "ACGT") (substring (bytes "TTAGTTT") (2 : Int).toNat w) : Int)
            ≠ res.nedit := by
  obtain ⟨res, hrun, h1⟩ :=
    C2_nedit_for_Ploffset_min_width ⟨fun _ => 0⟩ ⟨fun _ => 0⟩ (bytes "ACGT") (bytes "TTAGTTT")
      2 2 1 0 (by decide) (by decide) (by decide) (by decide) (by decide)
  have hrun0 : (_nedit_for_Ploffset ⟨fun _ => 0⟩ ⟨fun _ => 0⟩ (bytes "ACGT") (bytes "TTAGTTT")
      2 2 1 0).map (fun r => r.nedit) = .ok 1 := rfl
  have hle : res.nedit ≤ 2 := by
    rw [hrun] at hrun0
    simp only [Except.map, Except.ok.injEq] at hrun0
    omega
  exact ⟨by decide, by decide, by decide, by decide, by decide, res, hrun, hle, h1 hle⟩

/-! ## The claims on the mismatch counters -/

/-- C3: for each of the four disciplines, every pattern, subject, shift and ceiling `k ≥ 0`,
the function selected by `_select_nmismatch_at_Pshift_fun` returns a value `≤ k` if and only if
the true mismatch count is `≤ k`; it returns the true count when that is `≤ k`, and a value
`> k` otherwise. -/
theorem C3_selected_counter_exact_up_to_ceiling (fixedP fixedS : Int) (P S : List Nat)
    (shift k : Int) (hk : 0 ≤ k) :
    (_select_nmismatch_at_Pshift_fun fixedP fixedS P S shift k ≤ k ↔
      (true_nmismatch (discipline_rule (decide (fixedP ≠ 0)) (decide (fixedS ≠ 0))) P S shift
        : Int) ≤ k) ∧
    ((true_nmismatch (discipline_rule (decide (fixedP ≠ 0)) (decide (fixedS ≠ 0))) P S shift
        : Int) ≤ k →
      _select_nmismatch_at_Pshift_fun fixedP fixedS P S shift k =
        true_nmismatch (discipline_rule (decide (fixedP ≠ 0)) (decide (fixedS ≠ 0))) P S shift) ∧
    (k < (true_nmismatch (discipline_rule (decide (fixedP ≠ 0)) (decide (fixedS ≠ 0))) P S shift
        : Int) →
      k < _select_nmismatch_at_Pshift_fun fixedP fixedS P S shift k) := by
  rw [select_eq_min]
  omega

theorem C3_witness :
    (0 : Int) ≤ 1 ∧
    ((_select_nmismatch_at_Pshift_fun 1 0 [1, 2, 4] [3, 1, 4] (-1) 1 ≤ 1 ↔
      (true_nmismatch (discipline_rule (decide ((1 : Int) ≠ 0)) (decide ((0 : Int) ≠ 0)))
        [1, 2, 4] [3, 1, 4] (-1) : Int) ≤ 1) ∧
    ((true_nmismatch (discipline_rule (decide ((1 : Int) ≠ 0)) (decide ((0 : Int) ≠ 0)))
        [1, 2, 4] [3, 1, 4] (-1) : Int) ≤ 1 →
      _select_nmismatch_at_Pshift_fun 1 0 [1, 2, 4] [3, 1, 4] (-1) 1 =
        true_nmismatch (discipline_rule (decide ((1 : Int) ≠ 0)) (decide ((0 : Int) ≠ 0)))
          [1, 2, 4] [3, 1, 4] (-1)) ∧
    (1 < (true_nmismatch (discipline_rule (decide ((1 : Int) ≠ 0)) (decide ((0 : Int) ≠ 0)))
        [1, 2, 4] [3, 1, 4] (-1) : Int) →
      1 < _select_nmismatch_at_Pshift_fun 1 0 [1, 2, 4] [3, 1, 4] (-1) 1)) :=
  ⟨by decide, C3_selected_counter_exact_up_to_ceiling 1 0 [1, 2, 4] [3, 1, 4] (-1) 1 (by decide)⟩

/-- C4, as the claim states it, fails: with the pattern "AAA" on the subject "CCC" at shift 0
(the pattern within the subject) and the ceiling 0 the counter returns 1, and the Hamming
distance is 3. -/
theorem C4_counterexample :
    ¬ ((0 : Int) ≤ 0 → (0 : Int) + (bytes "AAA").length ≤ (bytes "CCC").length →
      nmismatch_at_Pshift_fixedPfixedS (bytes "AAA") (bytes "CCC") 0 0 =
        hamming (bytes "AAA") (substring (bytes "CCC") 0 (bytes "AAA").length)) := by
  decide

/-- C4, amended: with the pattern fully within the subject, the fixed/fixed counter returns the
Hamming distance between `P` and `S[shift .. shift + |P|)` or one more than the ceiling (one
more than 0 for a negative ceiling), whichever is less. -/
theorem C4_fixed_fixed_counter_is_capped_hamming (P S : List Nat) (shift max_nmis : Int)
    (h0 : 0 ≤ shift) (h1 : shift + P.length ≤ S.length) :
    nmismatch_at_Pshift_fixedPfixedS P S shift max_nmis =
      min (hamming P (substring S shift.toNat P.length) : Int) (max max_nmis 0 + 1) := by
  obtain ⟨o, rfl⟩ := Int.eq_ofNat_of_zero_le h0
  rw [Int.toNat_ofNat, ← true_nmismatch_eq_hamming S P o (by omega)]
  unfold nmismatch_at_Pshift_fixedPfixedS
  rw [nmismatch_loop_eq]
  have e : match_fixedPfixedS = discipline_rule true true := rfl
  rw [e]
  simp

theorem C4_witness :
    (0 : Int) ≤ 2 ∧ (2 : Int) + (bytes "ACGT").length ≤ (bytes "TTACCTTT").length ∧
    nmismatch_at_Pshift_fixedPfixedS (bytes "ACGT") (bytes "TTACCTTT") 2 4 =
      min (hamming (bytes "ACGT") (substring (bytes "TTACCTTT") (2 : Int).toNat
        (bytes "ACGT").length) : Int) (max 4 0 + 1) :=
  ⟨by decide, by decide,
    C4_fixed_fixed_counter_is_capped_hamming (bytes "ACGT") (bytes "TTACCTTT") 2 4
      (by decide) (by decide)⟩

/-! ## The claims on `_nedit_for_Ploffset` at given inputs -/

/-- C5, as the claim states it, fails: on the pattern "AC" and the subject "AXC" at offset 0
with `max_nedit` 1 the call does not return the distance 1 with the width 3. -/
theorem C5_counterexample :
    ¬ ∃ res : NeditResult,
      _nedit_for_Ploffset ⟨fun _ => 0⟩ ⟨fun _ => 0⟩ (bytes "AC") (bytes "AXC") 0 1 1 0
        = .ok res ∧ res.nedit = 1 ∧ res.min_width = 3 := by
  rintro ⟨res, hrun, -, hw⟩
  have h : (_nedit_for_Ploffset ⟨fun _ => 0⟩ ⟨fun _ => 0⟩ (bytes "AC") (bytes "AXC") 0 1 1 0).map
      (fun r => r.min_width) = .ok 1 := rfl
  rw [hrun] at h
  simp only [Except.map, Except.ok.injEq] at h
  omega

/-- C5, amended: on the pattern "AC" and the subject "AXC" at offset 0 with `max_nedit` 1 the
call returns the distance 1 and stores the width 1 (the substring "A"). -/
theorem C5_AC_in_AXC_distance_1_width_1 (row1_buf row2_buf : Row) (loose min_width : Int) :
    ∃ res : NeditResult,
      _nedit_for_Ploffset row1_buf row2_buf (bytes "AC") (bytes "AXC") 0 1 loose min_width
        = .ok res ∧ res.nedit = 1 ∧ res.min_width = 1 :=
  ⟨_, rfl, rfl, rfl⟩

/-- C8, at the empty pattern: the call returns 0 and leaves `*min_width` as it was: no width is
stored. -/
theorem C8_empty_pattern_stores_no_width (row1_buf row2_buf : Row) (S : List Nat)
    (Ploffset max_nedit loose min_width : Int) :
    ∃ res : NeditResult,
      _nedit_for_Ploffset row1_buf row2_buf [] S Ploffset max_nedit loose min_width = .ok res ∧
      res.nedit = 0 ∧ res.min_width = min_width :=
  ⟨_, rfl, rfl, rfl⟩

theorem lev_self (X : List Nat) : lev X X = 0 := by
  induction X with
  | nil => simp [lev]
  | cons x X ih => rw [lev_cons_cons, ih]; simp

theorem lev_eq_zero (X : List Nat) : ∀ Y : List Nat, lev X Y = 0 → X = Y := by
  induction X with
  | nil =>
    intro Y h
    rw [lev_nil_left] at h
    exact (List.length_eq_zero.mp h).symm
  | cons x X ihX =>
    intro Y
    induction Y with
    | nil =>
      intro h
      rw [lev_nil_right] at h
      simp at h
    | cons y Y _ =>
      intro h
      rw [lev_cons_cons] at h
      have h1 : lev X Y + (if x = y then 0 else 1) = 0 := by omega
      by_cases hxy : x = y
      · rw [if_pos hxy] at h1
        rw [hxy, ihX Y (by omega)]
      · rw [if_neg hxy] at h1
        omega

/-- The part of C8 on the non-empty patterns: when `S[Ploffset .. Ploffset + |P|)` is `P`, the
call returns the distance 0 and stores the width `|P|`. -/
theorem nedit_for_Ploffset_exact_occurrence (row1_buf row2_buf : Row) (P S : List Nat)
    (Ploffset max_nedit loose min_width : Int)
    (hP : P ≠ []) (hoff0 : 0 ≤ Ploffset)
    (hocc : substring S Ploffset.toNat P.length = P)
    (hmax : 1 ≤ max_nedit) (hcap : min max_nedit (P.length : Int) ≤ 100) :
    ∃ res : NeditResult,
      _nedit_for_Ploffset row1_buf row2_buf P S Ploffset max_nedit loose min_width = .ok res ∧
      res.nedit = 0 ∧ res.min_width = P.length := by
  have hpos : 0 < P.length := List.length_pos.mpr hP
  have hlen : Ploffset.toNat + P.length ≤ S.length := by
    have h := congrArg List.length hocc
    simp only [substring, List.length_take, List.length_drop] at h
    omega
  obtain ⟨res, hrun, hspec⟩ :=
    nedit_for_Ploffset_spec row1_buf row2_buf P S Ploffset max_nedit loose min_width hP hmax hcap
  obtain ⟨o, rfl⟩ := Int.eq_ofNat_of_zero_le hoff0
  rw [Int.toNat_ofNat] at hocc hlen
  have hzero : dp P S (o : Int) P.length P.length = 0 := by
    rw [dp_last_eq_lev P S o P.length hlen, hocc, lev_self]
  have hle : res.nedit ≤ max_nedit := by
    by_contra hgt
    have := hspec.2.2 (by omega) P.length
    omega
  obtain ⟨wd, h4, hwd, h5, h6, -⟩ :=
    neditSpec_width_le P S o max_nedit _ _ (by omega) hspec hle
  have h0 : res.nedit = 0 := by
    have := h6 P.length
    omega
  refine ⟨res, hrun, h0, ?_⟩
  have h7 : lev P (substring S o wd) = 0 := by
    rw [← dp_last_eq_lev P S o wd (by omega)]
    omega
  have h9 := congrArg List.length (lev_eq_zero _ _ h7)
  simp only [substring, List.length_take, List.length_drop] at h9
  rw [h4]
  omega

/-! ## The stored width: bounds -/

theorem propagate_min_loop_width_nonneg (prev_row : Row) (S : List Nat) (Pc : Nat)
    (row_length Ploffset : Int) :
    ∀ (n : Nat) (curr_row : Row) (min_nedit min_width B j : Int),
      0 ≤ min_width → Ploffset ≤ j + 1 →
      0 ≤ (propagate_min_loop prev_row S Pc row_length Ploffset n
        (curr_row, min_nedit, min_width) B j).2.2 := by
  intro n
  induction n with
  | zero => intro curr_row min_nedit min_width B j h _; exact h
  | succ n ih =>
    intro curr_row min_nedit min_width B j h hj
    rw [propagate_min_loop]
    split
    · simp only []
      split
      · exact ih _ _ _ _ _ (by omega) (by omega)
      · exact ih _ _ _ _ _ h (by omega)
    · exact h

theorem stage3_loop_width_nonneg (P S : List Nat) (row_length Ploffset max_nedit_plus1 : Int) :
    ∀ (n : Nat) (rows : RowPtrs) (i iplus1 jmin min_nedit min_width : Int),
      0 ≤ min_width → Ploffset ≤ jmin + 1 →
      0 ≤ (stage3_loop P S row_length Ploffset max_nedit_plus1 n
        (rows, i, iplus1, jmin, min_nedit, min_width)).2.2.2.2.2 := by
  intro n
  induction n with
  | zero => intro rows i iplus1 jmin min_nedit min_width h _; exact h
  | succ n ih =>
    intro rows i iplus1 jmin min_nedit min_width h hj
    rw [stage3_loop]
    split
    · have hw := propagate_min_loop_width_nonneg (SWAP_NEDIT_BUFS rows).prev_row S (seqAt P i)
        row_length Ploffset row_length.toNat (SWAP_NEDIT_BUFS rows).curr_row iplus1 0 0 jmin
        (le_refl _) hj
      simp only []
      split
      · exact hw
      · exact ih _ _ _ _ _ _ hw (by omega)
    · exact h

/-- On a non-empty pattern, a call that returns has stored a width that is not negative. -/
theorem nedit_for_Ploffset_width_nonneg (row1_buf row2_buf : Row) (P S : List Nat)
    (Ploffset max_nedit loose min_width : Int) (res : NeditResult) (hP : P ≠ [])
    (hrun : _nedit_for_Ploffset row1_buf row2_buf P S Ploffset max_nedit loose min_width
      = .ok res) :
    0 ≤ res.min_width := by
  have hlen : P.length ≠ 0 := fun h => hP (List.length_eq_zero.mp h)
  unfold _nedit_for_Ploffset at hrun
  rw [if_neg hlen] at hrun
  by_cases h0 : max_nedit = 0
  · rw [if_pos h0] at hrun
    cases hrun
  · rw [if_neg h0] at hrun
    simp only [] at hrun
    generalize (if max_nedit > (P.length : Int) then (P.length : Int) else max_nedit) = K
      at hrun
    by_cases hK : K > MAX_NEDIT
    · rw [if_pos hK] at hrun
      cases hrun
    · rw [if_neg hK] at hrun
      cases hrun
      simp only []
      apply stage3_loop_width_nonneg
      · apply propagate_min_loop_width_nonneg
        · exact le_refl _
        · omega
      · omega

/-- With a negative `max_nedit` the value returned on a non-empty pattern is at least 1. -/
theorem nedit_for_Ploffset_neg_bound (row1_buf row2_buf : Row) (P S : List Nat)
    (Ploffset max_nedit loose min_width : Int) (res : NeditResult) (hP : P ≠ [])
    (hneg : max_nedit < 0)
    (hrun : _nedit_for_Ploffset row1_buf row2_buf P S Ploffset max_nedit loose min_width
      = .ok res) :
    1 ≤ res.nedit := by
  have hlen : P.length ≠ 0 := fun h => hP (List.length_eq_zero.mp h)
  have hclamp : (if max_nedit > (P.length : Int) then (P.length : Int) else max_nedit)
      = max_nedit := by
    rw [if_neg (by omega)]
  have e0 : (2 * max_nedit + 1 - max_nedit).toNat = 0 := by omega
  have e1 : (max_nedit - 1).toNat = 0 := by omega
  have e2 : (2 * max_nedit + 1 - 1).toNat = 0 := by omega
  have e3 : (2 * max_nedit + 1).toNat = 0 := by omega
  unfold _nedit_for_Ploffset at hrun
  rw [if_neg hlen, if_neg (by omega)] at hrun
  simp only [] at hrun
  rw [hclamp, if_neg (by simp only [MAX_NEDIT]; omega), e0, e1, e2] at hrun
  simp only [stage0_loop, stage1_loop, propagate_min_loop] at hrun
  cases hn : ((P.length : Int) - (0 + 1)).toNat with
  | zero =>
    rw [hn] at hrun
    simp only [stage3_loop] at hrun
    cases hrun
    simp
  | succ n =>
    rw [hn] at hrun
    rw [stage3_loop, if_pos (by omega), e3] at hrun
    simp only [propagate_min_loop] at hrun
    rw [if_pos (by omega)] at hrun
    cases hrun
    simp

/-- C7, as the claim states it, fails: on the pattern "AAAAA" and the subject "AAA" at offset 0
with `max_nedit` 1 the call returns 2 and has stored the width 4, with 3 letters of the subject
left from the offset. -/
theorem C7_counterexample :
    ¬ ∀ res : NeditResult,
      _nedit_for_Ploffset ⟨fun _ => 0⟩ ⟨fun _ => 0⟩ (bytes "AAAAA") (bytes "AAA") 0 1 1 0
        = .ok res →
      0 ≤ res.min_width ∧ res.min_width ≤ ((bytes "AAA").length : Int) - 0 := by
  intro h
  have h2 := (h _ rfl).2
  revert h2
  decide

/-- C7, amended: for every call of `_nedit_for_Ploffset` on a non-empty pattern that returns,
the width stored in `*min_width` is `≥ 0`; and it is `≤ |S| - Ploffset` when
`0 ≤ Ploffset ≤ |S|` and the returned distance is at most `max_nedit`. -/
theorem C7_stored_width_bounds (row1_buf row2_buf : Row) (P S : List Nat)
    (Ploffset max_nedit loose min_width : Int) (res : NeditResult) (hP : P ≠ [])
    (hrun : _nedit_for_Ploffset row1_buf row2_buf P S Ploffset max_nedit loose min_width
      = .ok res) :
    0 ≤ res.min_width ∧
    (0 ≤ Ploffset → Ploffset ≤ S.length → res.nedit ≤ max_nedit →
      res.min_width ≤ (S.length : Int) - Ploffset) := by
  refine ⟨nedit_for_Ploffset_width_nonneg row1_buf row2_buf P S Ploffset max_nedit loose
    min_width res hP hrun, fun hoff0 hoff1 hle => ?_⟩
  have hlen : P.length ≠ 0 := fun h => hP (List.length_eq_zero.mp h)
  have hmax : 1 ≤ max_nedit := by
    by_contra hlt
    by_cases h0 : max_nedit = 0
    · unfold _nedit_for_Ploffset at hrun
      rw [if_neg hlen, if_pos h0] at hrun
      cases hrun
    · have := nedit_for_Ploffset_neg_bound row1_buf row2_buf P S Ploffset max_nedit loose
        min_width res hP (by omega) hrun
      omega
  have hcap : min max_nedit (P.length : Int) ≤ 100 := by
    by_contra hgt
    unfold _nedit_for_Ploffset at hrun
    rw [if_neg hlen, if_neg (by omega)] at hrun
    simp only [] at hrun
    rw [if_pos (by simp only [MAX_NEDIT]; split <;> omega)] at hrun
    cases hrun
  obtain ⟨res2, hrun2, hspec⟩ :=
    nedit_for_Ploffset_spec row1_buf row2_buf P S Ploffset max_nedit loose min_width hP hmax hcap
  rw [hrun] at hrun2
  cases hrun2
  obtain ⟨o, rfl⟩ := Int.eq_ofNat_of_zero_le hoff0
  obtain ⟨wd, h4, h5, -, -, -⟩ :=
    neditSpec_width_le P S o max_nedit _ _ (by omega) hspec hle
  omega

theorem C7_witness :
    ∃ res : NeditResult,
      bytes "ACGT" ≠ [] ∧
      _nedit_for_Ploffset ⟨fun _ => 0⟩ ⟨fun _ => 0⟩ (bytes "ACGT") (bytes "TTAGTTT") 2 2 1 0
        = .ok res ∧
      (0 : Int) ≤ 2 ∧ (2 : Int) ≤ (bytes "TTAGTTT").length ∧ res.nedit ≤ 2 ∧
      0 ≤ res.min_width ∧ res.min_width ≤ ((bytes "TTAGTTT").length : Int) - 2 :=
  ⟨_, by decide, rfl, by decide, by decide, by decide,
    (C7_stored_width_bounds ⟨fun _ => 0⟩ ⟨fun _ => 0⟩ (bytes "ACGT") (bytes "TTAGTTT") 2 2 1 0 _
      (by decide) rfl).1,
    (C7_stored_width_bounds ⟨fun _ => 0⟩ ⟨fun _ => 0⟩ (bytes "ACGT") (bytes "TTAGTTT") 2 2 1 0 _
      (by decide) rfl).2 (by decide) (by decide) (by decide)⟩

/-! ## The entry points -/

/-- C6, as the claim states it, fails: with `with_indels` TRUE, `fixed` (FALSE, TRUE) and
`max_mismatch` 0 the call of `XString_match_pattern_at` raises no error: it returns the answer
of the matching by substitutions only. -/
theorem C6_counterexample :
    ¬ ∃ e : String,
      XString_match_pattern_at nmismatch_at_Pshift_fixedPfixedS ⟨fun _ => 0⟩ ⟨fun _ => 0⟩
        (fun _ => 0) 0 (bytes "ACGT") (bytes "TTACGTTT") [1, 3] 0 0 0 1 (0, 1) 1
        = .error e := by
  rintro ⟨e, h⟩
  have h2 : XString_match_pattern_at nmismatch_at_Pshift_fixedPfixedS ⟨fun _ => 0⟩
      ⟨fun _ => 0⟩ (fun _ => 0) 0 (bytes "ACGT") (bytes "TTACGTTT") [1, 3] 0 0 0 1 (0, 1) 1
      = .ok [0, 1] := rfl
  rw [h2] at h
  cases h

/-- C6, amended: when `with_indels` is TRUE, `max_mismatch` is not 0 and `fixedP` or `fixedS`
is FALSE, `XString_match_pattern_at` and `XStringSet_vmatch_pattern_at` raise the error on the
indels, for every pattern, subject and anchor list. (With `max_mismatch` 0 the flag
`with_indels` is dropped and the matching is by substitutions only.) -/
theorem C6_indels_require_fixed (selected : NmismatchFun) (row1_buf row2_buf : Row)
    (fresh : Nat → Int) (min_width : Int) (pattern subject : List Nat)
    (subjects : List (List Nat)) (ats : List Int)
    (at_type max_mismatch min_mismatch with_indels fixedP fixedS ans_type : Int)
    (hindels : with_indels ≠ 0) (hmax : max_mismatch ≠ 0) (hfixed : fixedP = 0 ∨ fixedS = 0) :
    XString_match_pattern_at selected row1_buf row2_buf fresh min_width pattern subject ats
        at_type max_mismatch min_mismatch with_indels (fixedP, fixedS) ans_type
      = .error "when 'with.indels' is TRUE, only 'fixed=TRUE' is supported for now" ∧
    XStringSet_vmatch_pattern_at selected row1_buf row2_buf fresh min_width pattern subjects ats
        at_type max_mismatch min_mismatch with_indels (fixedP, fixedS) ans_type
      = .error "when 'with.indels' is TRUE, only 'fixed=TRUE' is supported for now" := by
  have h1 : (if with_indels ≠ 0 ∧ max_mismatch ≠ 0 then (1 : Int) else 0) = 1 :=
    if_pos ⟨hindels, hmax⟩
  have h2 : (1 : Int) ≠ 0 ∧ ¬ (fixedP ≠ 0 ∧ fixedS ≠ 0) := by
    refine ⟨by decide, ?_⟩
    rintro ⟨h3, h4⟩
    rcases hfixed with h | h
    · exact h3 h
    · exact h4 h
  constructor
  · unfold XString_match_pattern_at
    simp only []
    rw [h1, if_pos h2]
  · unfold XStringSet_vmatch_pattern_at
    simp only []
    rw [h1, if_pos h2]

theorem C6_witness :
    (1 : Int) ≠ 0 ∧ (2 : Int) ≠ 0 ∧ ((0 : Int) = 0 ∨ (1 : Int) = 0) ∧
    (XString_match_pattern_at nmismatch_at_Pshift_fixedPfixedS ⟨fun _ => 0⟩ ⟨fun _ => 0⟩
        (fun _ => 0) 0 (bytes "ACGT") (bytes "TTACGTTT") [1, 3] 0 2 0 1 (0, 1) 1
      = .error "when 'with.indels' is TRUE, only 'fixed=TRUE' is supported for now" ∧
    XStringSet_vmatch_pattern_at nmismatch_at_Pshift_fixedPfixedS ⟨fun _ => 0⟩ ⟨fun _ => 0⟩
        (fun _ => 0) 0 (bytes "ACGT") [bytes "TTACGTTT"] [1, 3] 0 2 0 1 (0, 1) 1
      = .error "when 'with.indels' is TRUE, only 'fixed=TRUE' is supported for now") :=
  ⟨by decide, by decide, Or.inl rfl,
    C6_indels_require_fixed nmismatch_at_Pshift_fixedPfixedS ⟨fun _ => 0⟩ ⟨fun _ => 0⟩
      (fun _ => 0) 0 (bytes "ACGT") (bytes "TTACGTTT") [bytes "TTACGTTT"] [1, 3] 0 2 0 1 0 1 1
      (by decide) (by decide) (Or.inl rfl)⟩

/-! ## `match_pattern_at` -/

theorem getElem?_set_same (l : List Int) (p : Nat) (v : Int) (h : p < l.length) :
    (l.set p v)[p]? = some v := by
  rw [List.getElem?_set]
  simp [h]

theorem getElem?_set_other (l : List Int) (p q : Nat) (v : Int) (h : p ≠ q) :
    (l.set p v)[q]? = l[q]? := by
  rw [List.getElem?_set]
  simp [h]

/-- The loop of `match_pattern_at` in the modes 0 and 1: one cell written per anchor, in the
order of the anchors, from the cell `pos` on, and no other cell touched. -/
theorem match_pattern_at_loop_emits (selected : NmismatchFun) (P S : List Nat)
    (at_type0 max_nmis min_nmis indels ans_type0 : Int) (hmode : ans_type0 = 0 ∨ ans_type0 = 1) :
    ∀ (ats : List Int) (i : Int) (ans : List Int) (pos : Nat) (min_width : Int)
      (row1_buf row2_buf : Row) (res : MatchResult),
      match_pattern_at_loop selected P S at_type0 max_nmis min_nmis indels ans_type0
        ats i ans pos min_width row1_buf row2_buf = .ok res →
      pos + ats.length ≤ ans.length →
      res.ans.length = ans.length ∧
      (∀ p : Nat, p < pos ∨ pos + ats.length ≤ p → res.ans[p]? = ans[p]?) ∧
      ∀ k : Nat, k < ats.length →
        Emitted selected P S at_type0 max_nmis min_nmis indels ans_type0 (ats.getD k 0)
          (res.ans[pos + k]?) := by
  intro ats
  induction ats with
  | nil =>
    intro i ans pos min_width row1_buf row2_buf res hrun _
    rw [match_pattern_at_loop] at hrun
    cases hrun
    exact ⟨rfl, fun _ _ => rfl, fun k hk => by simp at hk⟩
  | cons a rest ih =>
    intro i ans pos min_width row1_buf row2_buf res hrun hfit
    simp only [List.length_cons] at hfit
    have hpos : pos < ans.length := by omega
    -- what any of the writing branches gives
    have step : ∀ (v : Int) (mw : Int) (r1 r2 : Row),
        match_pattern_at_loop selected P S at_type0 max_nmis min_nmis indels ans_type0
          rest (i + 1) (ans.set pos v) (pos + 1) mw r1 r2 = .ok res →
        Emitted selected P S at_type0 max_nmis min_nmis indels ans_type0 a (some v) →
        res.ans.length = ans.length ∧
        (∀ p : Nat, p < pos ∨ pos + (a :: rest).length ≤ p → res.ans[p]? = ans[p]?) ∧
        ∀ k : Nat, k < (a :: rest).length →
          Emitted selected P S at_type0 max_nmis min_nmis indels ans_type0
            ((a :: rest).getD k 0) (res.ans[pos + k]?) := by
      intro v mw r1 r2 hrun2 hemit
      obtain ⟨h1, h2, h3⟩ := ih (i + 1) (ans.set pos v) (pos + 1) mw r1 r2 res hrun2
        (by rw [List.length_set]; omega)
      rw [List.length_set] at h1
      refine ⟨h1, fun p hp => ?_, fun k hk => ?_⟩
      · simp only [List.length_cons] at hp
        rw [h2 p (by omega), getElem?_set_other _ _ _ _ (by omega)]
      · cases k with
        | zero =>
          simp only [List.getD_cons_zero, Nat.add_zero]
          rw [h2 pos (by omega), getElem?_set_same _ _ _ hpos]
          exact hemit
        | succ k =>
          simp only [List.getD_cons_succ]
          have := h3 k (by simpa using hk)
          have e : pos + 1 + k = pos + (k + 1) := by omega
          rw [e] at this
          exact this
    rw [match_pattern_at_loop] at hrun
    by_cases hna : a = NA_INTEGER
    · rw [if_pos hna] at hrun
      rcases hmode with h0 | h1
      · rw [if_pos h0] at hrun
        exact step _ _ _ _ hrun ⟨fun _ => rfl, fun h => absurd hna h⟩
      · rw [if_neg (by omega), if_pos h1] at hrun
        exact step _ _ _ _ hrun ⟨fun _ => rfl, fun h => absurd hna h⟩
    · rw [if_neg hna] at hrun
      cases hc : anchor_count selected row1_buf row2_buf min_width P S at_type0 max_nmis indels a
        with
      | error e =>
        rw [hc] at hrun
        cases hrun
      | ok c =>
        obtain ⟨nmis, mw, r1, r2⟩ := c
        rw [hc] at hrun
        simp only [] at hrun
        rcases hmode with h0 | h1
        · rw [if_pos h0] at hrun
          refine step _ _ _ _ hrun ⟨fun h => absurd h hna, fun _ => ?_⟩
          exact ⟨row1_buf, row2_buf, min_width, _, hc, by simp [emitted_value, h0]⟩
        · rw [if_neg (by omega), if_pos h1] at hrun
          refine step _ _ _ _ hrun ⟨fun h => absurd h hna, fun _ => ?_⟩
          refine ⟨row1_buf, row2_buf, min_width, _, hc, ?_⟩
          have hne : ans_type0 ≠ 0 := by omega
          simp only [emitted_value, if_neg hne, is_match]
          congr 1
          by_cases hm : nmis ≤ max_nmis ∧ nmis ≥ min_nmis
          · rw [if_pos hm, if_pos ⟨hm.2, hm.1⟩]
          · rw [if_neg hm, if_neg (fun h => hm ⟨h.2, h.1⟩)]

/-- C10: in the raw-count mode (`ans_type0 = 0`) and the boolean mode (`ans_type0 = 1`), when
`match_pattern_at` returns (no error raised), it has written exactly one cell per anchor, in the
order of the anchors from the cell `ans_elt` points to (no other cell is touched): NA for an NA
anchor; for another anchor the count returned by the dispatched counter in the raw-count
mode, and in the boolean mode 1 if `min_nmis ≤ count ≤ max_nmis`, else 0. -/
theorem C10_match_pattern_at_one_output_per_anchor (selected : NmismatchFun)
    (row1_buf row2_buf : Row) (min_width : Int) (P S : List Nat) (ats : List Int)
    (at_type0 max_nmis min_nmis indels ans_type0 : Int) (ans : List Int) (pos : Nat)
    (res : MatchResult)
    (hmode : ans_type0 = 0 ∨ ans_type0 = 1) (hfit : pos + ats.length ≤ ans.length)
    (hrun : match_pattern_at selected row1_buf row2_buf min_width P S ats at_type0 max_nmis
      min_nmis indels ans_type0 ans pos = .ok res) :
    res.ans.length = ans.length ∧
    (∀ p : Nat, p < pos ∨ pos + ats.length ≤ p → res.ans[p]? = ans[p]?) ∧
    ∀ k : Nat, k < ats.length →
      Emitted selected P S at_type0 max_nmis min_nmis indels ans_type0 (ats.getD k 0)
        (res.ans[pos + k]?) := by
  unfold match_pattern_at at hrun
  simp only [] at hrun
  rw [if_neg (by omega)] at hrun
  exact match_pattern_at_loop_emits selected P S at_type0 max_nmis min_nmis indels ans_type0
    hmode ats 0 ans pos min_width row1_buf row2_buf res hrun hfit

theorem C10_witness :
    ∃ res : MatchResult,
      ((1 : Int) = 0 ∨ (1 : Int) = 1) ∧
      0 + [3, NA_INTEGER, 1].length ≤ [7, 7, 7].length ∧
      match_pattern_at nmismatch_at_Pshift_fixedPfixedS ⟨fun _ => 0⟩ ⟨fun _ => 0⟩ 0
        (bytes "ACGT") (bytes "TTACGTTT") [3, NA_INTEGER, 1] 0 1 0 1 1 [7, 7, 7] 0 = .ok res ∧
      (res.ans.length = [7, 7, 7].length ∧
      (∀ p : Nat, p < 0 ∨ 0 + [3, NA_INTEGER, 1].length ≤ p →
        res.ans[p]? = ([7, 7, 7] : List Int)[p]?) ∧
      ∀ k : Nat, k < [3, NA_INTEGER, 1].length →
        Emitted nmismatch_at_Pshift_fixedPfixedS (bytes "ACGT") (bytes "TTACGTTT") 0 1 0 1 1
          (([3, NA_INTEGER, 1] : List Int).getD k 0) (res.ans[0 + k]?)) :=
  ⟨_, Or.inr rfl, by decide, rfl,
    C10_match_pattern_at_one_output_per_anchor nmismatch_at_Pshift_fixedPfixedS ⟨fun _ => 0⟩
      ⟨fun _ => 0⟩ 0 (bytes "ACGT") (bytes "TTACGTTT") [3, NA_INTEGER, 1] 0 1 0 1 1 [7, 7, 7] 0 _
      (Or.inr rfl) (by decide) rfl⟩

/-- The loop of `match_pattern_at` in the modes 2 and 3, against its run in the mode 0 from the
same state: no cell written when no count of the mode 0 is a match, else the index or the
value of the first anchor whose count is a match. -/
theorem match_pattern_at_loop_first (selected : NmismatchFun) (P S : List Nat)
    (at_type0 max_nmis min_nmis indels ans_type0 : Int) (hmode : ans_type0 = 2 ∨ ans_type0 = 3) :
    ∀ (ats : List Int) (i : Int) (ansR : List Int) (posR : Nat) (ansF : List Int) (posF : Nat)
      (min_width : Int) (row1_buf row2_buf : Row) (rr rf : MatchResult),
      match_pattern_at_loop selected P S at_type0 max_nmis min_nmis indels 0
        ats i ansR posR min_width row1_buf row2_buf = .ok rr →
      match_pattern_at_loop selected P S at_type0 max_nmis min_nmis indels ans_type0
        ats i ansF posF min_width row1_buf row2_buf = .ok rf →
      posR + ats.length ≤ ansR.length →
      (rf.ans = ansF ∧
        ∀ k : Nat, k < ats.length → ats.getD k 0 ≠ NA_INTEGER →
          ¬ is_match min_nmis max_nmis (rr.ans.getD (posR + k) 0)) ∨
      (∃ k : Nat, k < ats.length ∧ ats.getD k 0 ≠ NA_INTEGER ∧
        is_match min_nmis max_nmis (rr.ans.getD (posR + k) 0) ∧
        (∀ k2 : Nat, k2 < k → ats.getD k2 0 ≠ NA_INTEGER →
          ¬ is_match min_nmis max_nmis (rr.ans.getD (posR + k2) 0)) ∧
        rf.ans = ansF.set posF (if ans_type0 = 2 then i + k + 1 else ats.getD k 0)) := by
  have hne0 : ans_type0 ≠ 0 := by omega
  have hne1 : ans_type0 ≠ 1 := by omega
  intro ats
  induction ats with
  | nil =>
    intro i ansR posR ansF posF min_width row1_buf row2_buf rr rf hraw hfirst _
    rw [match_pattern_at_loop] at hfirst
    cases hfirst
    exact Or.inl ⟨rfl, fun k hk => by simp at hk⟩
  | cons a rest ih =>
    intro i ansR posR ansF posF min_width row1_buf row2_buf rr rf hraw hfirst hfit
    simp only [List.length_cons] at hfit
    have hposR : posR < ansR.length := by omega
    -- the cell of the mode 0 for this anchor stays as written
    have hkeep : ∀ (v : Int) (mw : Int) (r1 r2 : Row),
        match_pattern_at_loop selected P S at_type0 max_nmis min_nmis indels 0
          rest (i + 1) (ansR.set posR v) (posR + 1) mw r1 r2 = .ok rr →
        rr.ans.getD (posR + 0) 0 = v := by
      intro v mw r1 r2 h
      have h2 := (match_pattern_at_loop_emits selected P S at_type0 max_nmis min_nmis indels 0
        (Or.inl rfl) rest (i + 1) (ansR.set posR v) (posR + 1) mw r1 r2 rr h
        (by rw [List.length_set]; omega)).2.1 posR (Or.inl (by omega))
      rw [getElem?_set_same _ _ _ hposR] at h2
      simp [List.getD_eq_getElem?_getD, h2]
    -- the recursive call on the rest of the anchors
    have hrec : ∀ (v : Int) (mw : Int) (r1 r2 : Row),
        match_pattern_at_loop selected P S at_type0 max_nmis min_nmis indels 0
          rest (i + 1) (ansR.set posR v) (posR + 1) mw r1 r2 = .ok rr →
        match_pattern_at_loop selected P S at_type0 max_nmis min_nmis indels ans_type0
          rest (i + 1) ansF posF mw r1 r2 = .ok rf →
        (a ≠ NA_INTEGER → ¬ is_match min_nmis max_nmis v) →
        (rf.ans = ansF ∧
          ∀ k : Nat, k < (a :: rest).length → (a :: rest).getD k 0 ≠ NA_INTEGER →
            ¬ is_match min_nmis max_nmis (rr.ans.getD (posR + k) 0)) ∨
        (∃ k : Nat, k < (a :: rest).length ∧ (a :: rest).getD k 0 ≠ NA_INTEGER ∧
          is_match min_nmis max_nmis (rr.ans.getD (posR + k) 0) ∧
          (∀ k2 : Nat, k2 < k → (a :: rest).getD k2 0 ≠ NA_INTEGER →
            ¬ is_match min_nmis max_nmis (rr.ans.getD (posR + k2) 0)) ∧
          rf.ans = ansF.set posF
            (if ans_type0 = 2 then i + k + 1 else (a :: rest).getD k 0)) := by
      intro v mw r1 r2 h1 h2 hno
      have hv := hkeep v mw r1 r2 h1
      have hhead : ∀ k : Nat, k < (a :: rest).length → (a :: rest).getD k 0 ≠ NA_INTEGER →
          (∀ k3 : Nat, k3 < rest.length → k3 + 1 = k → rest.getD k3 0 ≠ NA_INTEGER →
            ¬ is_match min_nmis max_nmis (rr.ans.getD (posR + 1 + k3) 0)) →
          ¬ is_match min_nmis max_nmis (rr.ans.getD (posR + k) 0) := by
        intro k hk hka htail
        cases k with
        | zero =>
          rw [hv]
          exact hno (by simpa using hka)
        | succ k =>
          have := htail k (by simpa using hk) rfl (by simpa using hka)
          have e : posR + 1 + k = posR + (k + 1) := by omega
          rwa [e] at this
      rcases ih (i + 1) (ansR.set posR v) (posR + 1) ansF posF mw r1 r2 rr rf h1 h2
          (by rw [List.length_set]; omega) with ⟨h3, h4⟩ | ⟨k, hk, h5, h6, h7, h8⟩
      · left
        exact ⟨h3, fun k hk hka => hhead k hk hka (fun k3 hk3 _ h => h4 k3 hk3 h)⟩
      · right
        refine ⟨k + 1, by simpa using hk, by simpa using h5, ?_, ?_, ?_⟩
        · have e : posR + 1 + k = posR + (k + 1) := by omega
          rwa [e] at h6
        · intro k2 hk2 hka
          exact hhead k2 (by simp only [List.length_cons]; omega) hka
            (fun k3 _ hk3 h => h7 k3 (by omega) h)
        · rw [h8]
          simp only [List.getD_cons_succ]
          congr 1
          split
          · push_cast; ring
          · rfl
    rw [match_pattern_at_loop] at hraw hfirst
    by_cases hna : a = NA_INTEGER
    · rw [if_pos hna, if_pos rfl] at hraw
      rw [if_pos hna, if_neg hne0, if_neg hne1] at hfirst
      exact hrec _ _ _ _ hraw hfirst (fun h => absurd hna h)
    · rw [if_neg hna] at hraw hfirst
      cases hc : anchor_count selected row1_buf row2_buf min_width P S at_type0 max_nmis indels a
        with
      | error e =>
        rw [hc] at hraw
        cases hraw
      | ok c =>
        obtain ⟨nmis, mw, r1, r2⟩ := c
        rw [hc] at hraw hfirst
        simp only [] at hraw hfirst
        rw [if_neg hne0, if_neg hne1] at hfirst
        have hv := hkeep _ _ _ _ hraw
        by_cases hm : nmis ≤ max_nmis ∧ nmis ≥ min_nmis
        · rw [if_pos hm, if_pos (by decide)] at hfirst
          cases hfirst
          right
          refine ⟨0, by simp, by simpa using hna, ?_, fun k2 hk2 => by omega, ?_⟩
          · rw [hv]
            exact ⟨hm.2, hm.1⟩
          · simp
        · rw [if_neg hm, if_neg (by decide)] at hfirst
          exact hrec _ _ _ _ hraw hfirst (fun _ h => hm ⟨h.2, h.1⟩)

/-- C9: in the first-index mode (`ans_type0 = 2`) and the first-value mode (`ans_type0 = 3`),
when no error is raised, with for count of the anchor at position `k` the value the raw-count
mode writes for it from the same state (the cell `posR + k` of its answer): the result is NA
exactly when no anchor that is not NA has a count with `min_nmis ≤ count ≤ max_nmis`; else,
with `k` the first position of such an anchor, the result is `k + 1` in the first-index mode
and the anchor at `k` in the first-value mode. -/
theorem C9_first_index_and_first_value (selected : NmismatchFun)
    (row1_buf row2_buf : Row) (min_width : Int) (P S : List Nat) (ats : List Int)
    (at_type0 max_nmis min_nmis indels ans_type0 : Int)
    (ansR : List Int) (posR : Nat) (ansF : List Int) (posF : Nat) (rr rf : MatchResult)
    (hmode : ans_type0 = 2 ∨ ans_type0 = 3)
    (hfitR : posR + ats.length ≤ ansR.length) (hfitF : posF < ansF.length)
    (hraw : match_pattern_at selected row1_buf row2_buf min_width P S ats at_type0 max_nmis
      min_nmis indels 0 ansR posR = .ok rr)
    (hfirst : match_pattern_at selected row1_buf row2_buf min_width P S ats at_type0 max_nmis
      min_nmis indels ans_type0 ansF posF = .ok rf) :
    (rf.ans.getD posF 0 = NA_INTEGER ↔
      ∀ k : Nat, k < ats.length → ats.getD k 0 ≠ NA_INTEGER →
        ¬ is_match min_nmis max_nmis (rr.ans.getD (posR + k) 0)) ∧
    (∀ k : Nat, k < ats.length → ats.getD k 0 ≠ NA_INTEGER →
      is_match min_nmis max_nmis (rr.ans.getD (posR + k) 0) →
      (∀ k2 : Nat, k2 < k → ats.getD k2 0 ≠ NA_INTEGER →
        ¬ is_match min_nmis max_nmis (rr.ans.getD (posR + k2) 0)) →
      rf.ans.getD posF 0 = if ans_type0 = 2 then (k : Int) + 1 else ats.getD k 0) := by
  unfold match_pattern_at at hraw hfirst
  simp only [] at hraw hfirst
  rw [if_neg (by decide)] at hraw
  rw [if_pos (by omega)] at hfirst
  have hget : ∀ (l : List Int) (v : Int), posF < l.length → (l.set posF v).getD posF 0 = v := by
    intro l v h
    simp [List.getD_eq_getElem?_getD, getElem?_set_same l posF v h]
  rcases match_pattern_at_loop_first selected P S at_type0 max_nmis min_nmis indels ans_type0
      hmode ats 0 ansR posR (ansF.set posF NA_INTEGER) posF min_width row1_buf row2_buf rr rf
      hraw hfirst hfitR with ⟨h1, h2⟩ | ⟨k, hk, h3, h4, h5, h6⟩
  · have hres : rf.ans.getD posF 0 = NA_INTEGER := by rw [h1]; exact hget _ _ hfitF
    exact ⟨⟨fun _ => h2, fun _ => hres⟩, fun k hk hka hm _ => absurd hm (h2 k hk hka)⟩
  · have hres : rf.ans.getD posF 0 = if ans_type0 = 2 then (k : Int) + 1 else ats.getD k 0 := by
      rw [h6, hget _ _ (by rw [List.length_set]; exact hfitF)]
      split
      · ring
      · rfl
    have hne : rf.ans.getD posF 0 ≠ NA_INTEGER := by
      rw [hres]
      split
      · simp only [NA_INTEGER]; omega
      · exact h3
    refine ⟨⟨fun h => absurd h hne, fun h => absurd h4 (h k hk h3)⟩, ?_⟩
    intro k1 hk1 hka hm hbefore
    have e : k1 = k := by
      rcases Nat.lt_trichotomy k1 k with h | h | h
      · exact absurd hm (h5 k1 h hka)
      · exact h
      · exact absurd h4 (hbefore k h h3)
    rw [e]
    exact hres

theorem C9_witness :
    ∃ rr rf : MatchResult,
      ((2 : Int) = 2 ∨ (2 : Int) = 3) ∧
      0 + [NA_INTEGER, 1, 3, 2].length ≤ [7, 7, 7, 7].length ∧ 0 < [7].length ∧
      match_pattern_at nmismatch_at_Pshift_fixedPfixedS ⟨fun _ => 0⟩ ⟨fun _ => 0⟩ 0
        (bytes "ACGT") (bytes "TTACGTTT") [NA_INTEGER, 1, 3, 2] 0 1 0 1 0 [7, 7, 7, 7] 0
        = .ok rr ∧
      match_pattern_at nmismatch_at_Pshift_fixedPfixedS ⟨fun _ => 0⟩ ⟨fun _ => 0⟩ 0
        (bytes "ACGT") (bytes "TTACGTTT") [NA_INTEGER, 1, 3, 2] 0 1 0 1 2 [7] 0 = .ok rf ∧
      ((rf.ans.getD 0 0 = NA_INTEGER ↔
        ∀ k : Nat, k < [NA_INTEGER, 1, 3, 2].length →
          ([NA_INTEGER, 1, 3, 2] : List Int).getD k 0 ≠ NA_INTEGER →
          ¬ is_match 0 1 (rr.ans.getD (0 + k) 0)) ∧
      (∀ k : Nat, k < [NA_INTEGER, 1, 3, 2].length →
        ([NA_INTEGER, 1, 3, 2] : List Int).getD k 0 ≠ NA_INTEGER →
        is_match 0 1 (rr.ans.getD (0 + k) 0) →
        (∀ k2 : Nat, k2 < k → ([NA_INTEGER, 1, 3, 2] : List Int).getD k2 0 ≠ NA_INTEGER →
          ¬ is_match 0 1 (rr.ans.getD (0 + k2) 0)) →
        rf.ans.getD 0 0 =
          if (2 : Int) = 2 then (k : Int) + 1 else ([NA_INTEGER, 1, 3, 2] : List Int).getD k 0)) :=
  ⟨_, _, Or.inl rfl, by decide, by decide, rfl, rfl,
    C9_first_index_and_first_value nmismatch_at_Pshift_fixedPfixedS ⟨fun _ => 0⟩ ⟨fun _ => 0⟩ 0
      (bytes "ACGT") (bytes "TTACGTTT") [NA_INTEGER, 1, 3, 2] 0 1 0 1 2 [7, 7, 7, 7] 0 [7] 0 _ _
      (Or.inl rfl) (by decide) (by decide) rfl rfl⟩

/-! ## The count of an anchor without indels; the errors -/

/-- C11: without indels the count that `match_pattern_at` uses for an anchor `a` is the selected
counter at the shift `a - 1` under the first-letter convention (`at_type0 = 0`) and at the shift
`a - |P|` under the last-letter convention (`at_type0 = 1`); so the anchor `a` under the
last-letter convention has the count of the anchor `a - |P| + 1` under the first-letter
convention. The pattern "ACGT", fixed/fixed, at the anchor 3 under the first-letter convention
has the count 0 on the subject "TTACGTTT" and the count 1 on the subject "TTACCTTT". -/
theorem C11_anchor_to_shift (selected : NmismatchFun) (row1_buf row2_buf : Row)
    (fresh : Nat → Int) (min_width : Int) (P S : List Nat) (max_nmis a : Int) :
    anchor_count selected row1_buf row2_buf min_width P S 0 max_nmis 0 a
      = .ok ⟨selected P S (a - 1) max_nmis, min_width, row1_buf, row2_buf⟩ ∧
    anchor_count selected row1_buf row2_buf min_width P S 1 max_nmis 0 a
      = .ok ⟨selected P S (a - P.length) max_nmis, min_width, row1_buf, row2_buf⟩ ∧
    anchor_count selected row1_buf row2_buf min_width P S 1 max_nmis 0 a
      = anchor_count selected row1_buf row2_buf min_width P S 0 max_nmis 0 (a - P.length + 1) ∧
    XString_match_pattern_at selected row1_buf row2_buf fresh min_width
      (bytes "ACGT") (bytes "TTACGTTT") [3] 0 4 0 0 (1, 1) 0 = .ok [0] ∧
    XString_match_pattern_at selected row1_buf row2_buf fresh min_width
      (bytes "ACGT") (bytes "TTACCTTT") [3] 0 4 0 0 (1, 1) 0 = .ok [1] := by
  refine ⟨rfl, rfl, ?_, rfl, rfl⟩
  simp only [anchor_count]
  have e : a - ↑P.length + 1 - 1 = a - ↑P.length := by ring
  simp [e]

/-- C12: `_nedit_for_Ploffset` raises an error exactly when the pattern is not empty and
`max_nedit` is 0 or `min(max_nedit, |P|)` is above 100. An empty pattern returns 0 for every
`max_nedit`, and a `max_nedit` above 100 is accepted on a pattern of at most 100 letters (here
1000 on "ACGT"). -/
theorem C12_nedit_for_Ploffset_errors (row1_buf row2_buf : Row) (P S : List Nat)
    (Ploffset max_nedit loose min_width : Int) :
    ((∃ e : String,
        _nedit_for_Ploffset row1_buf row2_buf P S Ploffset max_nedit loose min_width = .error e) ↔
      (P ≠ [] ∧ (max_nedit = 0 ∨ min max_nedit (P.length : Int) > 100))) ∧
    _nedit_for_Ploffset row1_buf row2_buf [] S Ploffset max_nedit loose min_width
      = .ok ⟨0, min_width, row1_buf, row2_buf⟩ ∧
    (∃ res : NeditResult,
      _nedit_for_Ploffset row1_buf row2_buf (bytes "ACGT") S Ploffset 1000 loose min_width
        = .ok res) := by
  refine ⟨?_, rfl, ⟨_, rfl⟩⟩
  unfold _nedit_for_Ploffset
  by_cases hP : P = []
  · subst hP
    simp
  · have hlen : P.length ≠ 0 := fun h => hP (List.length_eq_zero.mp h)
    rw [if_neg hlen]
    by_cases h0 : max_nedit = 0
    · rw [if_pos h0]
      exact ⟨fun _ => ⟨hP, Or.inl h0⟩, fun _ => ⟨_, rfl⟩⟩
    · rw [if_neg h0]
      simp only []
      have hclamp : (if max_nedit > (P.length : Int) then (P.length : Int) else max_nedit)
          = min max_nedit (P.length : Int) := by
        split <;> omega
      rw [hclamp]
      by_cases hK : min max_nedit (P.length : Int) > MAX_NEDIT
      · rw [if_pos hK]
        exact ⟨fun _ => ⟨hP, Or.inr (by simpa [MAX_NEDIT] using hK)⟩, fun _ => ⟨_, rfl⟩⟩
      · rw [if_neg hK]
        constructor
        · rintro ⟨e, he⟩
          cases he
        · rintro ⟨_, h | h⟩
          · exact absurd h h0
          · exact absurd (by simpa [MAX_NEDIT] using h) hK

/-- C13: swapping which sequence is fixed swaps the direction of the containment: the rule
(fixedP, non-fixedS) on `(p, s)` is the rule (non-fixedP, fixedS) on `(s, p)`; hence on
sequences `X` and `Y` of the same length, at the shift 0 and for every ceiling, the counter
(fixedP, non-fixedS) with `P = X`, `S = Y` returns what the counter (non-fixedP, fixedS) returns
with `P = Y`, `S = X`. -/
theorem C13_mixed_disciplines_swap :
    (∀ p s : Nat, match_fixedPnonfixedS p s = match_nonfixedPfixedS s p) ∧
    (∀ (X Y : List Nat) (k : Int), X.length = Y.length →
      nmismatch_at_Pshift_fixedPnonfixedS X Y 0 k
        = nmismatch_at_Pshift_nonfixedPfixedS Y X 0 k) := by
  have hrule : ∀ p s : Nat, match_fixedPnonfixedS p s = match_nonfixedPfixedS s p := by
    intro p s
    simp only [match_fixedPnonfixedS, match_nonfixedPfixedS, Nat.land_comm]
  refine ⟨hrule, fun X Y k hlen => ?_⟩
  unfold nmismatch_at_Pshift_fixedPnonfixedS nmismatch_at_Pshift_nonfixedPfixedS
  rw [nmismatch_loop_eq, nmismatch_loop_eq]
  congr 3
  unfold true_nmismatch
  rw [hlen]
  apply List.countP_congr
  intro i hi
  have hiY : i < Y.length := by simpa using hi
  have hiX : i < X.length := by omega
  have e : ∀ Z : List Nat, seqAt Z ((0 : Int) + (i : Int)) = Z.getD i 0 := by
    intro Z
    simp [seqAt]
  simp only [mismatch_at, e, hrule]
  simp [hiX, hiY]

theorem C13_witness :
    (∀ p s : Nat, match_fixedPnonfixedS p s = match_nonfixedPfixedS s p) ∧
    ([1, 2, 4].length = [3, 1, 12].length ∧
      nmismatch_at_Pshift_fixedPnonfixedS [1, 2, 4] [3, 1, 12] 0 5
        = nmismatch_at_Pshift_nonfixedPfixedS [3, 1, 12] [1, 2, 4] 0 5) :=
  ⟨C13_mixed_disciplines_swap.1, rfl, C13_mixed_disciplines_swap.2 [1, 2, 4] [3, 1, 12] 5 rfl⟩

theorem match_pattern_at_loop_Proffset_error (selected : NmismatchFun) (P S : List Nat)
    (at_type0 max_nmis min_nmis indels ans_type0 : Int) (hindels : indels ≠ 0)
    (htype : at_type0 ≠ 0) :
    ∀ (ats : List Int) (i : Int) (ans : List Int) (pos : Nat) (min_width : Int)
      (row1_buf row2_buf : Row), (∃ a, a ∈ ats ∧ a ≠ NA_INTEGER) →
      match_pattern_at_loop selected P S at_type0 max_nmis min_nmis indels ans_type0
        ats i ans pos min_width row1_buf row2_buf
        = .error "_nedit_for_Proffset() is not ready yet, sorry!" := by
  intro ats
  induction ats with
  | nil =>
    intro i ans pos min_width row1_buf row2_buf h
    obtain ⟨a, ha, -⟩ := h
    simp at ha
  | cons b rest ih =>
    intro i ans pos min_width row1_buf row2_buf h
    rw [match_pattern_at_loop]
    by_cases hb : b = NA_INTEGER
    · have hrest : ∃ a, a ∈ rest ∧ a ≠ NA_INTEGER := by
        obtain ⟨a, ha, hna⟩ := h
        rcases List.mem_cons.mp ha with h1 | h1
        · exact absurd (h1 ▸ hb) hna
        · exact ⟨a, h1, hna⟩
      rw [if_pos hb]
      split
      · exact ih _ _ _ _ _ _ hrest
      · split
        · exact ih _ _ _ _ _ _ hrest
        · exact ih _ _ _ _ _ _ hrest
    · rw [if_neg hb]
      have hc : anchor_count selected row1_buf row2_buf min_width P S at_type0 max_nmis indels b
          = .error "_nedit_for_Proffset() is not ready yet, sorry!" := by
        simp only [anchor_count, if_pos hindels, if_neg htype, _nedit_for_Proffset]
      rw [hc]

/-- C14: `_nedit_for_Proffset` raises its error on every input, and `match_pattern_at` with
indels and the last-letter convention raises that error for every list of anchors that has an
anchor that is not NA, in every answer mode: no result is returned. -/
theorem C14_right_anchored_indels_fail (selected : NmismatchFun) (row1_buf row2_buf : Row)
    (min_width : Int) (P S : List Nat) (ats : List Int)
    (Proffset max_nmis min_nmis loose indels ans_type0 : Int) (ans : List Int) (pos : Nat) :
    _nedit_for_Proffset row1_buf row2_buf P S Proffset max_nmis loose min_width
      = .error "_nedit_for_Proffset() is not ready yet, sorry!" ∧
    (indels ≠ 0 → (∃ a, a ∈ ats ∧ a ≠ NA_INTEGER) →
      match_pattern_at selected row1_buf row2_buf min_width P S ats 1 max_nmis min_nmis indels
        ans_type0 ans pos = .error "_nedit_for_Proffset() is not ready yet, sorry!") := by
  refine ⟨rfl, fun hindels hex => ?_⟩
  unfold match_pattern_at
  exact match_pattern_at_loop_Proffset_error selected P S 1 max_nmis min_nmis indels ans_type0
    hindels (by decide) ats 0 _ pos min_width row1_buf row2_buf hex

theorem C14_witness :
    _nedit_for_Proffset ⟨fun _ => 0⟩ ⟨fun _ => 0⟩ (bytes "ACGT") (bytes "TTACGTTT") 5 1 1 0
      = .error "_nedit_for_Proffset() is not ready yet, sorry!" ∧
    (1 : Int) ≠ 0 ∧ (∃ a, a ∈ [NA_INTEGER, 6] ∧ a ≠ NA_INTEGER) ∧
    match_pattern_at nmismatch_at_Pshift_fixedPfixedS ⟨fun _ => 0⟩ ⟨fun _ => 0⟩ 0
      (bytes "ACGT") (bytes "TTACGTTT") [NA_INTEGER, 6] 1 1 0 1 2 [7] 0
      = .error "_nedit_for_Proffset() is not ready yet, sorry!" :=
  ⟨rfl, by decide, ⟨6, by decide, by decide⟩,
    (C14_right_anchored_indels_fail nmismatch_at_Pshift_fixedPfixedS ⟨fun _ => 0⟩ ⟨fun _ => 0⟩ 0
      (bytes "ACGT") (bytes "TTACGTTT") [NA_INTEGER, 6] 5 1 0 1 1 2 [7] 0).2 (by decide)
      ⟨6, by decide, by decide⟩⟩

/-! ## Indels never lose a match -/

theorem mism_eq_mismatch_at (P S : List Nat) (off : Int) (i : Nat) :
    mism S (off + i) (P.getD i 0)
      = if mismatch_at (discipline_rule true true) P S off i = true then 1 else 0 := by
  unfold mism mismatch_at discipline_rule
  by_cases h1 : 0 ≤ off + (i : Int)
  · by_cases h2 : off + (i : Int) < S.length
    · by_cases h3 : seqAt S (off + i) = P.getD i 0
      · rw [if_neg (by omega), if_neg]
        · simp [h1, h2, h3]
      · rw [if_pos (Or.inr (Or.inr h3)), if_pos]
        simp only [h1, h2, decide_True, Bool.true_and, Bool.not_eq_true', beq_eq_false_iff_ne]
        exact fun h => h3 h.symm
    · rw [if_pos (Or.inr (Or.inl (by omega))), if_pos]
      simp [h2]
  · rw [if_pos (Or.inl (by omega)), if_pos]
    simp [h1]

/-- The distance along the diagonal of the table is at most the number of mismatches. -/
theorem dp_diag_le (P S : List Nat) (off : Int) (i : Nat) :
    dp P S off i i ≤ (List.range i).countP (mismatch_at (discipline_rule true true) P S off) := by
  induction i with
  | zero => simp [dp]
  | succ i ih =>
    rw [dp_succ_succ, List.range_succ, List.countP_append, mism_eq_mismatch_at]
    simp only [List.countP_cons, List.countP_nil]
    omega

theorem neditSpec_nonneg (P S : List Nat) (off max_nedit nedit min_width : Int)
    (hmax : 0 ≤ max_nedit) (hspec : NeditSpec P S off max_nedit nedit min_width) :
    0 ≤ nedit := by
  by_cases hle : nedit ≤ max_nedit
  · obtain ⟨wd, -, h5, -, -⟩ := hspec.2.1 hle
    omega
  · omega

/-- With `h`, the fixed/fixed true count at the shift `Ploffset`, at most `max_nedit`, the call
returns a value between 0 and `h`. -/
theorem nedit_for_Ploffset_le_nmismatch (row1_buf row2_buf : Row) (P S : List Nat)
    (Ploffset max_nedit loose min_width : Int)
    (hP : P ≠ []) (hmax : 1 ≤ max_nedit) (hcap : min max_nedit (P.length : Int) ≤ 100)
    (hh : (true_nmismatch (discipline_rule true true) P S Ploffset : Int) ≤ max_nedit) :
    ∃ res : NeditResult,
      _nedit_for_Ploffset row1_buf row2_buf P S Ploffset max_nedit loose min_width = .ok res ∧
      0 ≤ res.nedit ∧
      res.nedit ≤ true_nmismatch (discipline_rule true true) P S Ploffset := by
  obtain ⟨res, hrun, hspec⟩ :=
    nedit_for_Ploffset_spec row1_buf row2_buf P S Ploffset max_nedit loose min_width hP hmax hcap
  have hdiag : dp P S Ploffset P.length P.length
      ≤ true_nmismatch (discipline_rule true true) P S Ploffset := dp_diag_le P S Ploffset _
  have hle : res.nedit ≤ max_nedit := by
    by_contra hgt
    have := hspec.2.2 (by omega) P.length
    omega
  obtain ⟨wd, -, -, h6, -⟩ := hspec.2.1 hle
  have h7 := h6 P.length
  exact ⟨res, hrun, neditSpec_nonneg P S Ploffset max_nedit _ _ (by omega) hspec, by omega⟩

/-- C18: on a non-empty pattern with a ceiling `k ≥ 1`, `min(k, |P|) ≤ 100`: if the fixed/fixed
true mismatch count `h` of `P` on `S` at the shift `Ploffset` is at most `k`,
`_nedit_for_Ploffset` returns a value at most `h`; hence, with the floor 0 and the first-letter
convention, an anchor that is a match for the count without indels is a match for the count
with indels. -/
theorem C18_indels_never_lose_a_match (selected : NmismatchFun) (row1_buf row2_buf : Row)
    (P S : List Nat) (Ploffset k loose min_width a : Int)
    (hP : P ≠ []) (hk : 1 ≤ k) (hcap : min k (P.length : Int) ≤ 100) :
    ((true_nmismatch (discipline_rule true true) P S Ploffset : Int) ≤ k →
      ∃ res : NeditResult,
        _nedit_for_Ploffset row1_buf row2_buf P S Ploffset k loose min_width = .ok res ∧
        res.nedit ≤ true_nmismatch (discipline_rule true true) P S Ploffset) ∧
    (∀ c0 : NeditResult,
      anchor_count nmismatch_at_Pshift_fixedPfixedS row1_buf row2_buf min_width P S 0 k 0 a
        = .ok c0 →
      is_match 0 k c0.nedit →
      ∃ c1 : NeditResult,
        anchor_count selected row1_buf row2_buf min_width P S 0 k 1 a = .ok c1 ∧
        is_match 0 k c1.nedit) := by
  constructor
  · intro hh
    obtain ⟨res, hrun, -, hle⟩ := nedit_for_Ploffset_le_nmismatch row1_buf row2_buf P S
      Ploffset k loose min_width hP hk hcap hh
    exact ⟨res, hrun, hle⟩
  · intro c0 hc0 hm
    have hsel := select_eq_min 1 1 P S (a - 1) k
    have e : _select_nmismatch_at_Pshift_fun 1 1 = nmismatch_at_Pshift_fixedPfixedS := rfl
    rw [e] at hsel
    have hc : anchor_count nmismatch_at_Pshift_fixedPfixedS row1_buf row2_buf min_width P S
        0 k 0 a = .ok ⟨nmismatch_at_Pshift_fixedPfixedS P S (a - 1) k, min_width, row1_buf,
          row2_buf⟩ := rfl
    rw [hc] at hc0
    cases hc0
    simp only [is_match] at hm
    have hh : (true_nmismatch (discipline_rule true true) P S (a - 1) : Int) ≤ k := by
      have h1 := hm.2
      rw [hsel] at h1
      simp only [ne_eq, one_ne_zero, not_false_eq_true, decide_True] at h1
      omega
    obtain ⟨res, hrun, h0, hle⟩ := nedit_for_Ploffset_le_nmismatch row1_buf row2_buf P S
      (a - 1) k 1 min_width hP hk hcap hh
    have hc1 : anchor_count selected row1_buf row2_buf min_width P S 0 k 1 a
        = _nedit_for_Ploffset row1_buf row2_buf P S (a - 1) k 1 min_width := rfl
    exact ⟨res, by rw [hc1]; exact hrun, h0, by omega⟩

theorem C18_witness :
    bytes "ACGT" ≠ [] ∧ (1 : Int) ≤ 2 ∧ min (2 : Int) ((bytes "ACGT").length : Int) ≤ 100 ∧
    (true_nmismatch (discipline_rule true true) (bytes "ACGT") (bytes "TTACCTTT") 2 : Int) ≤ 2 ∧
    (∃ res : NeditResult,
      _nedit_for_Ploffset ⟨fun _ => 0⟩ ⟨fun _ => 0⟩ (bytes "ACGT") (bytes "TTACCTTT") 2 2 1 0
        = .ok res ∧
      res.nedit ≤ true_nmismatch (discipline_rule true true) (bytes "ACGT") (bytes "TTACCTTT") 2) ∧
    (∃ c0 c1 : NeditResult,
      anchor_count nmismatch_at_Pshift_fixedPfixedS ⟨fun _ => 0⟩ ⟨fun _ => 0⟩ 0 (bytes "ACGT")
        (bytes "TTACCTTT") 0 2 0 3 = .ok c0 ∧
      is_match 0 2 c0.nedit ∧
      anchor_count nmismatch_at_Pshift_fixedPfixedS ⟨fun _ => 0⟩ ⟨fun _ => 0⟩ 0 (bytes "ACGT")
        (bytes "TTACCTTT") 0 2 1 3 = .ok c1 ∧
      is_match 0 2 c1.nedit) := by
  have h := C18_indels_never_lose_a_match nmismatch_at_Pshift_fixedPfixedS ⟨fun _ => 0⟩
    ⟨fun _ => 0⟩ (bytes "ACGT") (bytes "TTACCTTT") 2 2 1 0 3 (by decide) (by decide) (by decide)
  have hh : (true_nmismatch (discipline_rule true true) (bytes "ACGT") (bytes "TTACCTTT") 2
      : Int) ≤ 2 := by decide
  have hm : is_match 0 2 (nmismatch_at_Pshift_fixedPfixedS (bytes "ACGT") (bytes "TTACCTTT")
      (3 - 1) 2) := by decide
  obtain ⟨c1, hc1, hm1⟩ := h.2 _ rfl hm
  exact ⟨by decide, by decide, by decide, hh, h.1 hh, _, c1, rfl, hm, hc1, hm1⟩

/-! ## The rows themselves: `_nedit_for_Ploffset` by stages -/

/-- The function is its STAGE 0 to STAGE 2 followed by its STAGE 3. -/
theorem nedit_for_Ploffset_eq_stages (row1_buf row2_buf : Row) (P S : List Nat)
    (Ploffset max_nedit loose min_width : Int) (K : Int)
    (hP : P.length ≠ 0) (hmax : max_nedit ≠ 0)
    (hK : (if max_nedit > (P.length : Int) then (P.length : Int) else max_nedit) = K)
    (hcap : ¬ K > MAX_NEDIT) :
    _nedit_for_Ploffset row1_buf row2_buf P S Ploffset max_nedit loose min_width =
      .ok (nedit_result
        (stage3_loop P S (2 * K + 1) Ploffset (max_nedit + 1)
          ((P.length : Int) - (nedit_stage2 row1_buf row2_buf P S Ploffset K).2.1).toNat
          (nedit_stage2 row1_buf row2_buf P S Ploffset K))) := by
  unfold _nedit_for_Ploffset
  rw [if_neg hP, if_neg hmax]
  simp only []
  rw [hK, if_neg hcap]
  rfl

theorem nedit_no_bailout_eq_stages (row1_buf row2_buf : Row) (P S : List Nat)
    (Ploffset max_nedit loose min_width : Int) (K : Int)
    (hP : P.length ≠ 0) (hmax : max_nedit ≠ 0)
    (hK : (if max_nedit > (P.length : Int) then (P.length : Int) else max_nedit) = K)
    (hcap : ¬ K > MAX_NEDIT) :
    _nedit_for_Ploffset_no_bailout row1_buf row2_buf P S Ploffset max_nedit loose min_width =
      .ok (nedit_result
        (stage3_loop_no_bailout P S (2 * K + 1) Ploffset
          ((P.length : Int) - (nedit_stage2 row1_buf row2_buf P S Ploffset K).2.1).toNat
          (nedit_stage2 row1_buf row2_buf P S Ploffset K))) := by
  unfold _nedit_for_Ploffset_no_bailout
  rw [if_neg hP, if_neg hmax]
  simp only []
  rw [hK, if_neg hcap]

theorem PROPAGATE_NEDIT_cell_le (curr_row : Row) (B : Int) (prev_row : Row) (S : List Nat)
    (j : Int) (Pc : Nat) (row_length : Int) :
    (PROPAGATE_NEDIT curr_row B prev_row S j Pc row_length).cell B ≤ prev_row.cell B + 1 := by
  simp only [PROPAGATE_NEDIT, Row.set_cell_same]
  have hm : (if j < 0 ∨ j ≥ (S.length : Int) ∨ seqAt S j ≠ Pc then (1 : Int) else 0) ≤ 1 := by
    split <;> omega
  generalize (if j < 0 ∨ j ≥ (S.length : Int) ∨ seqAt S j ≠ Pc then (1 : Int) else 0) = m at hm
  split <;> split <;> omega

theorem PROPAGATE_NEDIT_cell_ge (curr_row : Row) (B : Int) (prev_row : Row) (S : List Nat)
    (j : Int) (Pc : Nat) (row_length c : Int)
    (h1 : c ≤ prev_row.cell B) (h2 : B - 1 ≥ 0 → c ≤ curr_row.cell (B - 1))
    (h3 : B + 1 < row_length → c ≤ prev_row.cell (B + 1)) :
    c ≤ (PROPAGATE_NEDIT curr_row B prev_row S j Pc row_length).cell B := by
  simp only [PROPAGATE_NEDIT, Row.set_cell_same]
  have hm : (0 : Int) ≤ (if j < 0 ∨ j ≥ (S.length : Int) ∨ seqAt S j ≠ Pc then (1 : Int) else 0) := by
    split <;> omega
  generalize (if j < 0 ∨ j ≥ (S.length : Int) ∨ seqAt S j ≠ Pc then (1 : Int) else 0) = m at hm
  by_cases hl : B - 1 ≥ 0 <;> by_cases hu : B + 1 < row_length
  · have := h2 hl
    have := h3 hu
    split <;> split <;> omega
  · have := h2 hl
    split <;> split <;> omega
  · have := h3 hu
    split <;> split <;> omega
  · split <;> split <;> omega

/-- A cell that the inner loop writes is at most one more than the cell above it. -/
theorem propagate_loop_cell_le (prev_row : Row) (S : List Nat) (Pc : Nat) (row_length : Int) :
    ∀ (n : Nat) (curr_row : Row) (B j B2 : Int), B + n ≤ row_length → B ≤ B2 → B2 < B + n →
      (propagate_loop prev_row S Pc row_length n curr_row B j).cell B2
        ≤ prev_row.cell B2 + 1 := by
  intro n
  induction n with
  | zero => intro curr_row B j B2 _ h1 h2; omega
  | succ n ih =>
    intro curr_row B j B2 hn h1 h2
    rw [propagate_loop, if_pos (by omega)]
    by_cases hB : B2 = B
    · subst hB
      rw [propagate_loop_cell_below _ _ _ _ _ _ _ _ _ (by omega)]
      exact PROPAGATE_NEDIT_cell_le _ _ _ _ _ _ _
    · exact ih _ _ _ _ (by push_cast at hn; omega) (by omega) (by push_cast at h2; omega)

/-- A lower bound of the cells that the inner loop reads is one of the cells it writes. -/
theorem propagate_loop_cell_ge (prev_row : Row) (S : List Nat) (Pc : Nat) (row_length c : Int)
    (hprev : ∀ B : Int, 0 ≤ B → B < row_length → c ≤ prev_row.cell B) :
    ∀ (n : Nat) (curr_row : Row) (B j : Int), 0 ≤ B → B + n ≤ row_length →
      (B - 1 ≥ 0 → c ≤ curr_row.cell (B - 1)) →
      ∀ B2 : Int, B ≤ B2 → B2 < B + n →
        c ≤ (propagate_loop prev_row S Pc row_length n curr_row B j).cell B2 := by
  intro n
  induction n with
  | zero => intro curr_row B j _ _ _ B2 h1 h2; omega
  | succ n ih =>
    intro curr_row B j hB0 hn hleft B2 h1 h2
    rw [propagate_loop, if_pos (by omega)]
    have hcell : c ≤ (PROPAGATE_NEDIT curr_row B prev_row S j Pc row_length).cell B :=
      PROPAGATE_NEDIT_cell_ge _ _ _ _ _ _ _ _ (hprev B hB0 (by omega)) hleft
        (fun h => hprev (B + 1) (by omega) h)
    by_cases hB : B2 = B
    · subst hB
      rw [propagate_loop_cell_below _ _ _ _ _ _ _ _ _ (by omega)]
      exact hcell
    · apply ih _ _ _ (by omega) (by push_cast at hn; omega) _ B2 (by omega)
        (by push_cast at h2; omega)
      intro _
      have e : B + 1 - 1 = B := by ring
      rw [e]
      exact hcell

/-- One row of STAGE 3 on the rows themselves: the tracked minimum of the new row is at least
the one of the row above, and at most one more. -/
theorem propagate_min_loop_raw (prev_row curr_row : Row) (S : List Nat) (Pc : Nat)
    (row_length Ploffset jmin iplus1 mn : Int) (hrl : 0 ≤ row_length)
    (hraw : RawMin row_length prev_row (iplus1 - 1) mn) :
    ∃ (R : Row) (mn2 mw2 : Int),
      propagate_min_loop prev_row S Pc row_length Ploffset row_length.toNat
        (curr_row, iplus1, 0) 0 jmin = (R, mn2, mw2) ∧
      RawMin row_length R iplus1 mn2 ∧ mn ≤ mn2 ∧ mn2 ≤ mn + 1 := by
  obtain ⟨h1, h2, h3⟩ := hraw
  obtain ⟨R, mn2, mw2, hrun, hR, hle, hall, hcase⟩ :=
    propagate_min_loop_track prev_row S Pc row_length Ploffset row_length.toNat curr_row
      iplus1 0 0 jmin (by omega)
  have hcells : ∀ B : Int, 0 ≤ B → B < row_length → mn2 ≤ R.cell B := by
    intro B hB0 hB1
    have := hall B.toNat (by omega)
    have e : (0 : Int) + (B.toNat : Int) = B := by omega
    rwa [e] at this
  have hge : ∀ B : Int, 0 ≤ B → B < row_length → mn ≤ R.cell B := by
    intro B hB0 hB1
    rw [hR]
    exact propagate_loop_cell_ge prev_row S Pc row_length mn h2 row_length.toNat curr_row 0 jmin
      (le_refl _) (by omega) (fun h => by omega) B hB0 (by omega)
  have hatt : mn2 = iplus1 ∨ ∃ B : Int, 0 ≤ B ∧ B < row_length ∧ R.cell B = mn2 := by
    rcases hcase with ⟨h, -⟩ | ⟨t, ht, h5, -, -, -⟩
    · exact Or.inl h
    · exact Or.inr ⟨0 + (t : Int), by omega, by omega, h5⟩
  refine ⟨R, mn2, mw2, hrun, ⟨hle, hcells, hatt⟩, ?_, ?_⟩
  · rcases hatt with h | ⟨B, hB0, hB1, hB⟩
    · omega
    · have := hge B hB0 hB1
      omega
  · rcases h3 with h | ⟨B, hB0, hB1, hB⟩
    · omega
    · have h6 : R.cell B ≤ prev_row.cell B + 1 := by
        rw [hR]
        exact propagate_loop_cell_le prev_row S Pc row_length row_length.toNat curr_row 0 jmin B
          (by omega) hB0 (by omega)
      have := hcells B hB0 hB1
      omega

/-- The state at the end of STAGE 2, `k + 1` being the clamped `max_nedit`: the counters, and
the tracked minimum against the cells of the row. -/
theorem nedit_stage2_raw (row1_buf row2_buf : Row) (P S : List Nat) (Ploffset : Int) (k : Nat) :
    ∃ (rows : RowPtrs) (mn mw : Int),
      nedit_stage2 row1_buf row2_buf P S Ploffset ((k + 1 : Nat) : Int)
        = (rows, ((k + 1 : Nat) : Int), ((k + 1 : Nat) : Int) + 1, Ploffset, mn, mw) ∧
      RawMin (2 * ((k + 1 : Nat) : Int) + 1) rows.curr_row ((k + 1 : Nat) : Int) mn := by
  unfold nedit_stage2
  simp only []
  have hfuel1 : (((k + 1 : Nat) : Int) - 1).toNat = k := by omega
  obtain ⟨rows1, hrun1, -⟩ := stage1_loop_rep P S Ploffset (k + 1) k
    ⟨row1_buf, stage0_loop (2 * ((k + 1 : Nat) : Int) + 1 - ((k + 1 : Nat) : Int)).toNat row2_buf
      ((k + 1 : Nat) : Int) 0 (2 * ((k + 1 : Nat) : Int) + 1), false⟩ 0 1 0
    (by omega) (by simp) (by simp)
    (by rw [Nat.zero_add]; exact stage0_loop_rep P S Ploffset (k + 1) row2_buf)
  rw [hfuel1, hrun1]
  simp only [SWAP_NEDIT_BUFS]
  have hfuel2 : (2 * ((k + 1 : Nat) : Int) + 1 - 1).toNat = 2 * (k + 1) := by omega
  obtain ⟨R, mn, mw, hrun, hR, hle, hall, hcase⟩ :=
    propagate_min_loop_track rows1.curr_row S (seqAt P (((k + 1 : Nat) : Int) - 1))
      (2 * ((k + 1 : Nat) : Int) + 1) Ploffset (2 * (k + 1))
      (rows1.prev_row.set 0 ((k + 1 : Nat) : Int)) ((k + 1 : Nat) : Int) 0 1 Ploffset
      (by push_cast; omega)
  rw [hfuel2, hrun]
  have e : ((k + 1 : Nat) : Int) - 1 + 1 = ((k + 1 : Nat) : Int) := by ring
  refine ⟨⟨rows1.curr_row, R, !rows1.swapped⟩, mn, mw, by simp only [e], hle, ?_, ?_⟩
  · intro B hB0 hB1
    simp only []
    by_cases hB : B = 0
    · subst hB
      rw [hR, propagate_loop_cell_below _ _ _ _ _ _ _ _ _ (by omega), Row.set_cell_same]
      exact hle
    · have := hall (B - 1).toNat (by omega)
      have e2 : (1 : Int) + ((B - 1).toNat : Int) = B := by omega
      rwa [e2] at this
  · rcases hcase with ⟨h, -⟩ | ⟨t, ht, h5, -, -, -⟩
    · exact Or.inl h
    · exact Or.inr ⟨1 + (t : Int), by omega, by omega, h5⟩

/-- STAGE 3 on the rows themselves: the tracked minimum does not decrease, and it is at most
`max_nedit_plus1` when the loop stops. -/
theorem stage3_loop_raw (P S : List Nat) (row_length Ploffset max_nedit_plus1 : Int)
    (hrl : 0 ≤ row_length) :
    ∀ (n : Nat) (rows : RowPtrs) (i iplus1 jmin mn mw : Int),
      RawMin row_length rows.curr_row (iplus1 - 1) mn → mn < max_nedit_plus1 →
      mn ≤ (stage3_loop P S row_length Ploffset max_nedit_plus1 n
        (rows, i, iplus1, jmin, mn, mw)).2.2.2.2.1 ∧
      (stage3_loop P S row_length Ploffset max_nedit_plus1 n
        (rows, i, iplus1, jmin, mn, mw)).2.2.2.2.1 ≤ max_nedit_plus1 := by
  intro n
  induction n with
  | zero =>
    intro rows i iplus1 jmin mn mw _ hlt
    simp only [stage3_loop]
    omega
  | succ n ih =>
    intro rows i iplus1 jmin mn mw hraw hlt
    rw [stage3_loop]
    split
    · obtain ⟨R, mn2, mw2, hrun, hraw2, h1, h2⟩ :=
        propagate_min_loop_raw rows.curr_row rows.prev_row S (seqAt P i) row_length Ploffset
          jmin iplus1 mn hrl hraw
      simp only [SWAP_NEDIT_BUFS]
      rw [hrun]
      simp only []
      split
      · simp only []
        omega
      · have e : iplus1 + 1 - 1 = iplus1 := by ring
        have := ih ⟨rows.curr_row, R, !rows.swapped⟩ (i + 1) (iplus1 + 1) (jmin + 1) mn2 mw2
          (by rw [e]; exact hraw2) (by omega)
        omega
    · simp only []
      omega

/-- C17: on a non-empty pattern with `max_nedit ≥ 1` and `min(max_nedit, |P|) ≤ 100`, the value
that `_nedit_for_Ploffset` returns is in `[0, max_nedit + 1]`: when it is above `max_nedit`
(the bailout, or the last row) it is `max_nedit + 1`. -/
theorem C17_returned_value_range (row1_buf row2_buf : Row) (P S : List Nat)
    (Ploffset max_nedit loose min_width : Int)
    (hP : P ≠ []) (hmax : 1 ≤ max_nedit) (hcap : min max_nedit (P.length : Int) ≤ 100) :
    ∃ res : NeditResult,
      _nedit_for_Ploffset row1_buf row2_buf P S Ploffset max_nedit loose min_width = .ok res ∧
      0 ≤ res.nedit ∧ res.nedit ≤ max_nedit + 1 ∧
      (max_nedit < res.nedit → res.nedit = max_nedit + 1) := by
  obtain ⟨res, hrun, hspec⟩ :=
    nedit_for_Ploffset_spec row1_buf row2_buf P S Ploffset max_nedit loose min_width hP hmax hcap
  have h0 := neditSpec_nonneg P S Ploffset max_nedit _ _ (by omega) hspec
  have hlen : 0 < P.length := List.length_pos.mpr hP
  obtain ⟨k, hK⟩ : ∃ k : Nat, ((k + 1 : Nat) : Int) = min max_nedit (P.length : Int) :=
    ⟨(min max_nedit (P.length : Int)).toNat - 1, by omega⟩
  have hclamp : (if max_nedit > (P.length : Int) then (P.length : Int) else max_nedit)
      = ((k + 1 : Nat) : Int) := by
    split <;> omega
  have hrun2 := nedit_for_Ploffset_eq_stages row1_buf row2_buf P S Ploffset max_nedit loose
    min_width _ (by omega) (by omega) hclamp (by simp only [MAX_NEDIT]; omega)
  obtain ⟨rows, mn, mw, hst, hraw⟩ := nedit_stage2_raw row1_buf row2_buf P S Ploffset k
  rw [hst] at hrun2
  have hbound := (stage3_loop_raw P S (2 * ((k + 1 : Nat) : Int) + 1) Ploffset (max_nedit + 1)
    (by omega) ((P.length : Int) - ((k + 1 : Nat) : Int)).toNat rows ((k + 1 : Nat) : Int)
    (((k + 1 : Nat) : Int) + 1) Ploffset mn mw
    (by
      have e : ((k + 1 : Nat) : Int) + 1 - 1 = ((k + 1 : Nat) : Int) := by ring
      rw [e]; exact hraw)
    (by have := hraw.1; omega)).2
  rw [hrun] at hrun2
  have hres := Except.ok.inj hrun2
  have hle : res.nedit ≤ max_nedit + 1 := by
    rw [hres]
    exact hbound
  exact ⟨res, hrun, h0, hle, fun h => by omega⟩

theorem C17_witness :
    bytes "GATTACA" ≠ [] ∧ (1 : Int) ≤ 2 ∧ min (2 : Int) ((bytes "GATTACA").length : Int) ≤ 100 ∧
    ∃ res : NeditResult,
      _nedit_for_Ploffset ⟨fun _ => 0⟩ ⟨fun _ => 0⟩ (bytes "GATTACA") (bytes "GCATGCTTACA") 0 2
        1 0 = .ok res ∧
      0 ≤ res.nedit ∧ res.nedit ≤ 2 + 1 ∧ (2 < res.nedit → res.nedit = 2 + 1) :=
  ⟨by decide, by decide, by decide,
    C17_returned_value_range ⟨fun _ => 0⟩ ⟨fun _ => 0⟩ (bytes "GATTACA") (bytes "GCATGCTTACA")
      0 2 1 0 (by decide) (by decide) (by decide)⟩

/-! ## The bailout against the run without it -/

/-- Without the bailout the tracked minimum does not decrease along STAGE 3. -/
theorem stage3_loop_no_bailout_raw (P S : List Nat) (row_length Ploffset : Int)
    (hrl : 0 ≤ row_length) :
    ∀ (n : Nat) (rows : RowPtrs) (i iplus1 jmin mn mw : Int),
      RawMin row_length rows.curr_row (iplus1 - 1) mn →
      ∃ (rows2 : RowPtrs) (i2 ip2 jm2 mn2 mw2 : Int),
        stage3_loop_no_bailout P S row_length Ploffset n (rows, i, iplus1, jmin, mn, mw)
          = (rows2, i2, ip2, jm2, mn2, mw2) ∧
        mn ≤ mn2 ∧ RawMin row_length rows2.curr_row (ip2 - 1) mn2 := by
  intro n
  induction n with
  | zero =>
    intro rows i iplus1 jmin mn mw hraw
    exact ⟨rows, i, iplus1, jmin, mn, mw, rfl, le_refl _, hraw⟩
  | succ n ih =>
    intro rows i iplus1 jmin mn mw hraw
    rw [stage3_loop_no_bailout]
    split
    · obtain ⟨R, mn1, mw1, hrun, hraw1, h1, -⟩ :=
        propagate_min_loop_raw rows.curr_row rows.prev_row S (seqAt P i) row_length Ploffset
          jmin iplus1 mn hrl hraw
      simp only [SWAP_NEDIT_BUFS]
      rw [hrun]
      simp only []
      have e : iplus1 + 1 - 1 = iplus1 := by ring
      obtain ⟨rows2, i2, ip2, jm2, mn2, mw2, hrun2, h2, hraw2⟩ :=
        ih ⟨rows.curr_row, R, !rows.swapped⟩ (i + 1) (iplus1 + 1) (jmin + 1) mn1 mw1
          (by rw [e]; exact hraw1)
      exact ⟨rows2, i2, ip2, jm2, mn2, mw2, hrun2, by omega, hraw2⟩
    · exact ⟨rows, i, iplus1, jmin, mn, mw, rfl, le_refl _, hraw⟩

/-- Without the bailout, one more row of STAGE 3 does not lower the tracked minimum. -/
theorem stage3_loop_no_bailout_mono (P S : List Nat) (row_length Ploffset : Int)
    (hrl : 0 ≤ row_length) :
    ∀ (n : Nat) (rows : RowPtrs) (i iplus1 jmin mn mw : Int),
      RawMin row_length rows.curr_row (iplus1 - 1) mn →
      (stage3_loop_no_bailout P S row_length Ploffset n
          (rows, i, iplus1, jmin, mn, mw)).2.2.2.2.1
        ≤ (stage3_loop_no_bailout P S row_length Ploffset (n + 1)
            (rows, i, iplus1, jmin, mn, mw)).2.2.2.2.1 := by
  intro n
  induction n with
  | zero =>
    intro rows i iplus1 jmin mn mw hraw
    obtain ⟨rows2, i2, ip2, jm2, mn2, mw2, hrun2, h2, -⟩ :=
      stage3_loop_no_bailout_raw P S row_length Ploffset hrl 1 rows i iplus1 jmin mn mw hraw
    rw [hrun2]
    exact h2
  | succ n ih =>
    intro rows i iplus1 jmin mn mw hraw
    rw [stage3_loop_no_bailout]
    conv => rhs; rw [stage3_loop_no_bailout]
    split
    · obtain ⟨R, mn1, mw1, hrun, hraw1, -, -⟩ :=
        propagate_min_loop_raw rows.curr_row rows.prev_row S (seqAt P i) row_length Ploffset
          jmin iplus1 mn hrl hraw
      simp only [SWAP_NEDIT_BUFS]
      rw [hrun]
      simp only []
      have e : iplus1 + 1 - 1 = iplus1 := by ring
      exact ih ⟨rows.curr_row, R, !rows.swapped⟩ (i + 1) (iplus1 + 1) (jmin + 1) mn1 mw1
        (by rw [e]; exact hraw1)
    · exact le_refl _

/-- STAGE 3 with and without the bailout, from the same state: the same state at the end, or a
bailout on a value that the run without bailout does not go below. -/
theorem stage3_loop_vs_no_bailout (P S : List Nat) (row_length Ploffset max_nedit_plus1 : Int)
    (hrl : 0 ≤ row_length) :
    ∀ (n : Nat) (rows : RowPtrs) (i iplus1 jmin mn mw : Int),
      RawMin row_length rows.curr_row (iplus1 - 1) mn →
      stage3_loop P S row_length Ploffset max_nedit_plus1 n (rows, i, iplus1, jmin, mn, mw)
        = stage3_loop_no_bailout P S row_length Ploffset n (rows, i, iplus1, jmin, mn, mw) ∨
      (max_nedit_plus1 ≤ (stage3_loop P S row_length Ploffset max_nedit_plus1 n
          (rows, i, iplus1, jmin, mn, mw)).2.2.2.2.1 ∧
        (stage3_loop P S row_length Ploffset max_nedit_plus1 n
          (rows, i, iplus1, jmin, mn, mw)).2.2.2.2.1
          ≤ (stage3_loop_no_bailout P S row_length Ploffset n
              (rows, i, iplus1, jmin, mn, mw)).2.2.2.2.1) := by
  intro n
  induction n with
  | zero => intro rows i iplus1 jmin mn mw _; exact Or.inl rfl
  | succ n ih =>
    intro rows i iplus1 jmin mn mw hraw
    rw [stage3_loop, stage3_loop_no_bailout]
    split
    · obtain ⟨R, mn1, mw1, hrun, hraw1, -, -⟩ :=
        propagate_min_loop_raw rows.curr_row rows.prev_row S (seqAt P i) row_length Ploffset
          jmin iplus1 mn hrl hraw
      simp only [SWAP_NEDIT_BUFS]
      rw [hrun]
      simp only []
      have e : iplus1 + 1 - 1 = iplus1 := by ring
      split
      · rename_i hbail
        right
        obtain ⟨rows2, i2, ip2, jm2, mn2, mw2, hrun2, h2, -⟩ :=
          stage3_loop_no_bailout_raw P S row_length Ploffset hrl n
            ⟨rows.curr_row, R, !rows.swapped⟩ (i + 1) (iplus1 + 1) (jmin + 1) mn1 mw1
            (by rw [e]; exact hraw1)
        rw [hrun2]
        exact ⟨hbail, h2⟩
      · exact ih ⟨rows.curr_row, R, !rows.swapped⟩ (i + 1) (iplus1 + 1) (jmin + 1) mn1 mw1
          (by rw [e]; exact hraw1)
    · exact Or.inl rfl

/-- C15: on a non-empty pattern with `max_nedit ≥ 1` and `min(max_nedit, |P|) ≤ 100`, with
`full` what the same recurrence returns with the bailout test of STAGE 3 removed: the tracked
minimum of a row of STAGE 3 is at most the one of the next row; the call returns a value at most
`max_nedit` if and only if `full` is, with the same value and the same width in that case; and
a returned value above `max_nedit` (a bailout) is at most `full`. -/
theorem C15_bailout_is_sound (row1_buf row2_buf : Row) (P S : List Nat)
    (Ploffset max_nedit loose min_width : Int)
    (hP : P ≠ []) (hmax : 1 ≤ max_nedit) (hcap : min max_nedit (P.length : Int) ≤ 100) :
    ∃ res full : NeditResult,
      _nedit_for_Ploffset row1_buf row2_buf P S Ploffset max_nedit loose min_width = .ok res ∧
      _nedit_for_Ploffset_no_bailout row1_buf row2_buf P S Ploffset max_nedit loose min_width
        = .ok full ∧
      (∀ n : Nat, tracked_min row1_buf row2_buf P S Ploffset max_nedit n
        ≤ tracked_min row1_buf row2_buf P S Ploffset max_nedit (n + 1)) ∧
      (res.nedit ≤ max_nedit ↔ full.nedit ≤ max_nedit) ∧
      (res.nedit ≤ max_nedit → res.nedit = full.nedit ∧ res.min_width = full.min_width) ∧
      (max_nedit < res.nedit → res.nedit ≤ full.nedit) := by
  have hlen : 0 < P.length := List.length_pos.mpr hP
  obtain ⟨k, hK⟩ : ∃ k : Nat, ((k + 1 : Nat) : Int) = min max_nedit (P.length : Int) :=
    ⟨(min max_nedit (P.length : Int)).toNat - 1, by omega⟩
  have hclamp : (if max_nedit > (P.length : Int) then (P.length : Int) else max_nedit)
      = ((k + 1 : Nat) : Int) := by
    split <;> omega
  have hrun := nedit_for_Ploffset_eq_stages row1_buf row2_buf P S Ploffset max_nedit loose
    min_width _ (by omega) (by omega) hclamp (by simp only [MAX_NEDIT]; omega)
  have hfull := nedit_no_bailout_eq_stages row1_buf row2_buf P S Ploffset max_nedit loose
    min_width _ (by omega) (by omega) hclamp (by simp only [MAX_NEDIT]; omega)
  obtain ⟨rows, mn, mw, hst, hraw⟩ := nedit_stage2_raw row1_buf row2_buf P S Ploffset k
  have hrl : (0 : Int) ≤ 2 * ((k + 1 : Nat) : Int) + 1 := by omega
  have e : ((k + 1 : Nat) : Int) + 1 - 1 = ((k + 1 : Nat) : Int) := by ring
  have hraw2 : RawMin (2 * ((k + 1 : Nat) : Int) + 1) rows.curr_row
      (((k + 1 : Nat) : Int) + 1 - 1) mn := by rw [e]; exact hraw
  refine ⟨_, _, hrun, hfull, ?_, ?_⟩
  · intro n
    unfold tracked_min
    simp only []
    rw [hclamp, hst]
    exact stage3_loop_no_bailout_mono P S _ Ploffset hrl n rows _ _ Ploffset mn mw hraw2
  · rw [hst]
    rcases stage3_loop_vs_no_bailout P S _ Ploffset (max_nedit + 1) hrl
        ((P.length : Int) - ((k + 1 : Nat) : Int)).toNat rows _ _ Ploffset mn mw hraw2
      with h | ⟨h1, h2⟩
    · rw [h]
      exact ⟨Iff.rfl, fun _ => ⟨rfl, rfl⟩, fun _ => le_refl _⟩
    · simp only [nedit_result]
      exact ⟨⟨fun h => by omega, fun h => by omega⟩, fun h => by omega, fun _ => h2⟩

theorem C15_witness :
    bytes "GATTACA" ≠ [] ∧ (1 : Int) ≤ 2 ∧ min (2 : Int) ((bytes "GATTACA").length : Int) ≤ 100 ∧
    ∃ res full : NeditResult,
      _nedit_for_Ploffset ⟨fun _ => 0⟩ ⟨fun _ => 0⟩ (bytes "GATTACA") (bytes "GCATGCTTACA") 0 2
        1 0 = .ok res ∧
      _nedit_for_Ploffset_no_bailout ⟨fun _ => 0⟩ ⟨fun _ => 0⟩ (bytes "GATTACA")
        (bytes "GCATGCTTACA") 0 2 1 0 = .ok full ∧
      (∀ n : Nat,
        tracked_min ⟨fun _ => 0⟩ ⟨fun _ => 0⟩ (bytes "GATTACA") (bytes "GCATGCTTACA") 0 2 n
          ≤ tracked_min ⟨fun _ => 0⟩ ⟨fun _ => 0⟩ (bytes "GATTACA") (bytes "GCATGCTTACA") 0 2
              (n + 1)) ∧
      (res.nedit ≤ 2 ↔ full.nedit ≤ 2) ∧
      (res.nedit ≤ 2 → res.nedit = full.nedit ∧ res.min_width = full.min_width) ∧
      (2 < res.nedit → res.nedit ≤ full.nedit) :=
  ⟨by decide, by decide, by decide,
    C15_bailout_is_sound ⟨fun _ => 0⟩ ⟨fun _ => 0⟩ (bytes "GATTACA") (bytes "GCATGCTTACA")
      0 2 1 0 (by decide) (by decide) (by decide)⟩

/-! ## Two runs from different scratch rows -/

/-- The cell written by `PROPAGATE_NEDIT` depends only on the three cells that it reads. -/
theorem PROPAGATE_NEDIT_agree (curr_row curr_row2 prev_row prev_row2 : Row) (B : Int)
    (S : List Nat) (j : Int) (Pc : Nat) (row_length : Int)
    (h1 : prev_row.cell B = prev_row2.cell B)
    (h2 : B - 1 ≥ 0 → curr_row.cell (B - 1) = curr_row2.cell (B - 1))
    (h3 : B + 1 < row_length → prev_row.cell (B + 1) = prev_row2.cell (B + 1)) :
    (PROPAGATE_NEDIT curr_row B prev_row S j Pc row_length).cell B
      = (PROPAGATE_NEDIT curr_row2 B prev_row2 S j Pc row_length).cell B := by
  simp only [PROPAGATE_NEDIT, Row.set_cell_same]
  rw [h1]
  by_cases hl : B - 1 ≥ 0
  · rw [h2 hl]
    by_cases hu : B + 1 < row_length
    · rw [h3 hu]
    · simp only [hu, false_and, if_false]
  · simp only [hl, false_and, if_false]
    by_cases hu : B + 1 < row_length
    · rw [h3 hu]
    · simp only [hu, false_and, if_false]

/-- After one `PROPAGATE_NEDIT` at `B` the two current rows agree one cell further. -/
theorem PROPAGATE_NEDIT_agreeOn (curr_row curr_row2 prev_row prev_row2 : Row) (lo B : Int)
    (S : List Nat) (j : Int) (Pc : Nat) (row_length : Int)
    (hlo : lo ≤ B) (hB : 0 < B → lo < B) (hlt : B < row_length)
    (hprev : AgreeOn B row_length prev_row prev_row2)
    (hcurr : AgreeOn lo B curr_row curr_row2) :
    AgreeOn lo (B + 1) (PROPAGATE_NEDIT curr_row B prev_row S j Pc row_length)
      (PROPAGATE_NEDIT curr_row2 B prev_row2 S j Pc row_length) := by
  intro B2 h1 h2
  by_cases e : B2 = B
  · subst e
    exact PROPAGATE_NEDIT_agree _ _ _ _ _ _ _ _ _ (hprev _ (le_refl _) hlt)
      (fun h => hcurr _ (by have := hB (by omega); omega) (by omega))
      (fun h => hprev _ (by omega) h)
  · rw [PROPAGATE_NEDIT_cell_ne _ _ _ _ _ _ _ _ e, PROPAGATE_NEDIT_cell_ne _ _ _ _ _ _ _ _ e]
    exact hcurr _ h1 (by omega)

/-- The inner loop of STAGE 1 on two pairs of rows that agree where they are read. -/
theorem propagate_loop_agree (prev_row prev_row2 : Row) (S : List Nat) (Pc : Nat)
    (row_length lo : Int) :
    ∀ (n : Nat) (curr_row curr_row2 : Row) (B j : Int),
      lo ≤ B → (0 < B → lo < B) → row_length ≤ B + n →
      AgreeOn B row_length prev_row prev_row2 → AgreeOn lo B curr_row curr_row2 →
      AgreeOn lo row_length (propagate_loop prev_row S Pc row_length n curr_row B j)
        (propagate_loop prev_row2 S Pc row_length n curr_row2 B j) := by
  intro n
  induction n with
  | zero =>
    intro curr_row curr_row2 B j _ _ hn _ hcurr B2 h1 h2
    exact hcurr B2 h1 (by omega)
  | succ n ih =>
    intro curr_row curr_row2 B j hlo hB hn hprev hcurr
    rw [propagate_loop, propagate_loop]
    by_cases hlt : B < row_length
    · rw [if_pos hlt, if_pos hlt]
      exact ih _ _ (B + 1) (j + 1) (by omega) (fun _ => by omega) (by push_cast at hn; omega)
        (fun B2 h1 h2 => hprev B2 (by omega) h2)
        (PROPAGATE_NEDIT_agreeOn _ _ _ _ lo B S j Pc row_length hlo hB hlt hprev hcurr)
    · rw [if_neg hlt, if_neg hlt]
      intro B2 h1 h2
      exact hcurr B2 h1 (by omega)

/-- The inner loop of STAGE 2 and STAGE 3 on two pairs of rows that agree where they are read:
the same tracked minimum and width. -/
theorem propagate_min_loop_agree (prev_row prev_row2 : Row) (S : List Nat) (Pc : Nat)
    (row_length Ploffset lo : Int) :
    ∀ (n : Nat) (curr_row curr_row2 : Row) (mn mw B j : Int),
      lo ≤ B → (0 < B → lo < B) → row_length ≤ B + n →
      AgreeOn B row_length prev_row prev_row2 → AgreeOn lo B curr_row curr_row2 →
      ∃ (R R2 : Row) (mn2 mw2 : Int),
        propagate_min_loop prev_row S Pc row_length Ploffset n (curr_row, mn, mw) B j
          = (R, mn2, mw2) ∧
        propagate_min_loop prev_row2 S Pc row_length Ploffset n (curr_row2, mn, mw) B j
          = (R2, mn2, mw2) ∧
        AgreeOn lo row_length R R2 := by
  intro n
  induction n with
  | zero =>
    intro curr_row curr_row2 mn mw B j _ _ hn _ hcurr
    exact ⟨curr_row, curr_row2, mn, mw, rfl, rfl, fun B2 h1 h2 => hcurr B2 h1 (by omega)⟩
  | succ n ih =>
    intro curr_row curr_row2 mn mw B j hlo hB hn hprev hcurr
    rw [propagate_min_loop, propagate_min_loop]
    by_cases hlt : B < row_length
    · rw [if_pos hlt, if_pos hlt]
      have hag := PROPAGATE_NEDIT_agreeOn _ _ _ _ lo B S j Pc row_length hlo hB hlt hprev hcurr
      have hcell := hag B hlo (by omega)
      simp only []
      rw [← hcell]
      by_cases hmin : (PROPAGATE_NEDIT curr_row B prev_row S j Pc row_length).cell B < mn
      · rw [if_pos hmin, if_pos hmin]
        exact ih _ _ _ _ (B + 1) (j + 1) (by omega) (fun _ => by omega)
          (by push_cast at hn; omega) (fun B2 h1 h2 => hprev B2 (by omega) h2) hag
      · rw [if_neg hmin, if_neg hmin]
        exact ih _ _ _ _ (B + 1) (j + 1) (by omega) (fun _ => by omega)
          (by push_cast at hn; omega) (fun B2 h1 h2 => hprev B2 (by omega) h2) hag
    · rw [if_neg hlt, if_neg hlt]
      exact ⟨curr_row, curr_row2, mn, mw, rfl, rfl, fun B2 h1 h2 => hcurr B2 h1 (by omega)⟩

/-- STAGE 0 leaves the same values in the cells `K .. 2K` whatever the row held. -/
theorem stage0_loop_agree (K : Nat) (row row2 : Row) :
    AgreeOn (K : Int) (2 * (K : Int) + 1)
      (stage0_loop (K + 1) row (K : Int) 0 (2 * (K : Int) + 1))
      (stage0_loop (K + 1) row2 (K : Int) 0 (2 * (K : Int) + 1)) := by
  intro B h1 h2
  obtain ⟨w, hw⟩ : ∃ w : Nat, B = (w : Int) + K := ⟨(B - K).toNat, by omega⟩
  subst hw
  rw [stage0_loop_cells K (K + 1) row 0 (K : Int) 0 (by omega) (by simp) (by simp)
      (fun w hw => by omega) w (by omega),
    stage0_loop_cells K (K + 1) row2 0 (K : Int) 0 (by omega) (by simp) (by simp)
      (fun w hw => by omega) w (by omega)]

/-- STAGE 1 on two pairs of rows whose current rows agree on the written cells. -/
theorem stage1_loop_agree (P S : List Nat) (K jmin : Int) :
    ∀ (n : Nat) (rows rows2 : RowPtrs) (iplus1 i : Int),
      1 ≤ iplus1 → iplus1 ≤ K → K ≤ iplus1 + n →
      AgreeOn (K - iplus1 + 1) (2 * K + 1) rows.curr_row rows2.curr_row →
      ∃ (rowsF rowsF2 : RowPtrs),
        stage1_loop P S K (2 * K + 1) jmin n (rows, iplus1, i)
          = (rowsF, K, i + (K - iplus1)) ∧
        stage1_loop P S K (2 * K + 1) jmin n (rows2, iplus1, i)
          = (rowsF2, K, i + (K - iplus1)) ∧
        AgreeOn 1 (2 * K + 1) rowsF.curr_row rowsF2.curr_row := by
  intro n
  induction n with
  | zero =>
    intro rows rows2 iplus1 i h1 h2 hn hag
    have e : iplus1 = K := by omega
    subst e
    refine ⟨rows, rows2, ?_, ?_, ?_⟩
    · simp [stage1_loop]
    · simp [stage1_loop]
    · intro B hB1 hB2
      exact hag B (by omega) hB2
  | succ n ih =>
    intro rows rows2 iplus1 i h1 h2 hn hag
    rw [stage1_loop, stage1_loop]
    by_cases hlt : iplus1 < K
    · rw [if_pos hlt, if_pos hlt]
      simp only [SWAP_NEDIT_BUFS]
      have hset : AgreeOn (K - iplus1) (K - iplus1 + 1)
          (rows.prev_row.set (K - iplus1) iplus1) (rows2.prev_row.set (K - iplus1) iplus1) := by
        intro B hB1 hB2
        have e : B = K - iplus1 := by omega
        subst e
        rw [Row.set_cell_same, Row.set_cell_same]
      have hloop := propagate_loop_agree rows.curr_row rows2.curr_row S (seqAt P i)
        (2 * K + 1) (K - iplus1) (2 * K + 1 - (K - iplus1 + 1)).toNat
        (rows.prev_row.set (K - iplus1) iplus1) (rows2.prev_row.set (K - iplus1) iplus1)
        (K - iplus1 + 1) jmin (by omega) (fun _ => by omega) (by omega) hag hset
      obtain ⟨rowsF, rowsF2, e1, e2, hF⟩ := ih
        ⟨rows.curr_row, propagate_loop rows.curr_row S (seqAt P i) (2 * K + 1)
          (2 * K + 1 - (K - iplus1 + 1)).toNat (rows.prev_row.set (K - iplus1) iplus1)
          (K - iplus1 + 1) jmin, !rows.swapped⟩
        ⟨rows2.curr_row, propagate_loop rows2.curr_row S (seqAt P i) (2 * K + 1)
          (2 * K + 1 - (K - iplus1 + 1)).toNat (rows2.prev_row.set (K - iplus1) iplus1)
          (K - iplus1 + 1) jmin, !rows2.swapped⟩
        (iplus1 + 1) (i + 1) (by omega) (by omega) (by push_cast at hn; omega)
        (fun B hB1 hB2 => hloop B (by omega) hB2)
      have e : i + 1 + (K - (iplus1 + 1)) = i + (K - iplus1) := by ring
      rw [e] at e1 e2
      exact ⟨rowsF, rowsF2, e1, e2, hF⟩
    · rw [if_neg hlt, if_neg hlt]
      have e : iplus1 = K := by omega
      subst e
      refine ⟨rows, rows2, by simp, by simp, ?_⟩
      intro B hB1 hB2
      exact hag B (by omega) hB2

/-- The state at the end of STAGE 2 from two pairs of scratch rows: the same counters, the same
tracked minimum and width, and current rows that agree on all their cells. -/
theorem nedit_stage2_agree (r1 r2 r1b r2b : Row) (P S : List Nat) (Ploffset : Int) (k : Nat) :
    ∃ (rows rows2 : RowPtrs) (i iplus1 jmin mn mw : Int),
      nedit_stage2 r1 r2 P S Ploffset ((k + 1 : Nat) : Int)
        = (rows, i, iplus1, jmin, mn, mw) ∧
      nedit_stage2 r1b r2b P S Ploffset ((k + 1 : Nat) : Int)
        = (rows2, i, iplus1, jmin, mn, mw) ∧
      AgreeOn 0 (2 * ((k + 1 : Nat) : Int) + 1) rows.curr_row rows2.curr_row := by
  have hn0 : (2 * ((k + 1 : Nat) : Int) + 1 - ((k + 1 : Nat) : Int)).toNat = (k + 1) + 1 := by
    omega
  have h0 := stage0_loop_agree (k + 1) r2 r2b
  obtain ⟨rowsF, rowsF2, e1, e2, hF⟩ := stage1_loop_agree P S ((k + 1 : Nat) : Int) Ploffset
    (((k + 1 : Nat) : Int) - 1).toNat
    ⟨r1, stage0_loop ((k + 1) + 1) r2 ((k + 1 : Nat) : Int) 0 (2 * ((k + 1 : Nat) : Int) + 1),
      false⟩
    ⟨r1b, stage0_loop ((k + 1) + 1) r2b ((k + 1 : Nat) : Int) 0 (2 * ((k + 1 : Nat) : Int) + 1),
      false⟩
    1 0 (le_refl _) (by omega) (by omega) (fun B hB1 hB2 => h0 B (by omega) hB2)
  have hset : AgreeOn 0 1 (rowsF.prev_row.set 0 ((k + 1 : Nat) : Int))
      (rowsF2.prev_row.set 0 ((k + 1 : Nat) : Int)) := by
    intro B hB1 hB2
    have e : B = 0 := by omega
    subst e
    rw [Row.set_cell_same, Row.set_cell_same]
  obtain ⟨R, R2, mn, mw, e3, e4, hR⟩ := propagate_min_loop_agree rowsF.curr_row rowsF2.curr_row
    S (seqAt P (0 + (((k + 1 : Nat) : Int) - 1))) (2 * ((k + 1 : Nat) : Int) + 1) Ploffset 0
    (2 * ((k + 1 : Nat) : Int) + 1 - 1).toNat
    (rowsF.prev_row.set 0 ((k + 1 : Nat) : Int)) (rowsF2.prev_row.set 0 ((k + 1 : Nat) : Int))
    ((k + 1 : Nat) : Int) 0 1 Ploffset (by omega) (fun _ => by omega) (by omega) hF hset
  refine ⟨⟨rowsF.curr_row, R, !rowsF.swapped⟩, ⟨rowsF2.curr_row, R2, !rowsF2.swapped⟩,
    0 + (((k + 1 : Nat) : Int) - 1) + 1, ((k + 1 : Nat) : Int) + 1, Ploffset, mn, mw, ?_, ?_, hR⟩
  · unfold nedit_stage2
    simp only [hn0]
    rw [e1]
    simp only [SWAP_NEDIT_BUFS]
    rw [e3]
  · unfold nedit_stage2
    simp only [hn0]
    rw [e2]
    simp only [SWAP_NEDIT_BUFS]
    rw [e4]

/-- STAGE 3 from two states that differ only in rows whose current rows agree: the same
counters, tracked minimum and width at the end. -/
theorem stage3_loop_agree (P S : List Nat) (row_length Ploffset max_nedit_plus1 : Int) :
    ∀ (n : Nat) (rows rows2 : RowPtrs) (i iplus1 jmin mn mw : Int),
      AgreeOn 0 row_length rows.curr_row rows2.curr_row →
      ∃ (rowsF rowsF2 : RowPtrs) (iF ipF jmF mnF mwF : Int),
        stage3_loop P S row_length Ploffset max_nedit_plus1 n (rows, i, iplus1, jmin, mn, mw)
          = (rowsF, iF, ipF, jmF, mnF, mwF) ∧
        stage3_loop P S row_length Ploffset max_nedit_plus1 n (rows2, i, iplus1, jmin, mn, mw)
          = (rowsF2, iF, ipF, jmF, mnF, mwF) := by
  intro n
  induction n with
  | zero =>
    intro rows rows2 i iplus1 jmin mn mw _
    exact ⟨rows, rows2, i, iplus1, jmin, mn, mw, rfl, rfl⟩
  | succ n ih =>
    intro rows rows2 i iplus1 jmin mn mw hag
    rw [stage3_loop, stage3_loop]
    by_cases hlt : i < (P.length : Int)
    · rw [if_pos hlt, if_pos hlt]
      simp only [SWAP_NEDIT_BUFS]
      obtain ⟨R, R2, mn2, mw2, e1, e2, hR⟩ := propagate_min_loop_agree rows.curr_row
        rows2.curr_row S (seqAt P i) row_length Ploffset 0 row_length.toNat
        rows.prev_row rows2.prev_row iplus1 0 0 jmin (le_refl _) (fun h => by omega) (by omega)
        hag (fun B hB1 hB2 => by omega)
      rw [e1, e2]
      simp only []
      by_cases hbail : mn2 ≥ max_nedit_plus1
      · rw [if_pos hbail, if_pos hbail]
        exact ⟨_, _, i, iplus1, jmin, mn2, mw2, rfl, rfl⟩
      · rw [if_neg hbail, if_neg hbail]
        exact ih ⟨rows.curr_row, R, !rows.swapped⟩ ⟨rows2.curr_row, R2, !rows2.swapped⟩
          (i + 1) (iplus1 + 1) (jmin + 1) mn2 mw2 hR
    · rw [if_neg hlt, if_neg hlt]
      exact ⟨rows, rows2, i, iplus1, jmin, mn, mw, rfl, rfl⟩

/-- C16: on a non-empty pattern with `max_nedit ≥ 1` and `min(max_nedit, |P|) ≤ 100`, two calls
of `_nedit_for_Ploffset` that differ only in what the scratch rows `row1_buf` and `row2_buf`
(and the caller's cell `*min_width`) hold at the call both return, with the same distance and
the same width. -/
theorem C16_scratch_rows_do_not_matter (r1 r2 r1b r2b : Row) (P S : List Nat)
    (Ploffset max_nedit loose min_width min_width2 : Int)
    (hP : P ≠ []) (hmax : 1 ≤ max_nedit) (hcap : min max_nedit (P.length : Int) ≤ 100) :
    ∃ res res2 : NeditResult,
      _nedit_for_Ploffset r1 r2 P S Ploffset max_nedit loose min_width = .ok res ∧
      _nedit_for_Ploffset r1b r2b P S Ploffset max_nedit loose min_width2 = .ok res2 ∧
      res.nedit = res2.nedit ∧ res.min_width = res2.min_width := by
  have hlen : 0 < P.length := List.length_pos.mpr hP
  obtain ⟨k, hK⟩ : ∃ k : Nat, ((k + 1 : Nat) : Int) = min max_nedit (P.length : Int) :=
    ⟨(min max_nedit (P.length : Int)).toNat - 1, by omega⟩
  have hclamp : (if max_nedit > (P.length : Int) then (P.length : Int) else max_nedit)
      = ((k + 1 : Nat) : Int) := by
    split <;> omega
  have hrun := nedit_for_Ploffset_eq_stages r1 r2 P S Ploffset max_nedit loose
    min_width _ (by omega) (by omega) hclamp (by simp only [MAX_NEDIT]; omega)
  have hrun2 := nedit_for_Ploffset_eq_stages r1b r2b P S Ploffset max_nedit loose
    min_width2 _ (by omega) (by omega) hclamp (by simp only [MAX_NEDIT]; omega)
  obtain ⟨rows, rows2, i, iplus1, jmin, mn, mw, e1, e2, hag⟩ :=
    nedit_stage2_agree r1 r2 r1b r2b P S Ploffset k
  rw [e1] at hrun
  rw [e2] at hrun2
  obtain ⟨rowsF, rowsF2, iF, ipF, jmF, mnF, mwF, e3, e4⟩ :=
    stage3_loop_agree P S (2 * ((k + 1 : Nat) : Int) + 1) Ploffset (max_nedit + 1)
      ((P.length : Int) - i).toNat rows rows2 i iplus1 jmin mn mw hag
  simp only [] at hrun hrun2
  rw [e3] at hrun
  rw [e4] at hrun2
  exact ⟨_, _, hrun, hrun2, rfl, rfl⟩

theorem C16_witness :
    bytes "GATTACA" ≠ [] ∧ (1 : Int) ≤ 2 ∧ min (2 : Int) ((bytes "GATTACA").length : Int) ≤ 100 ∧
    ∃ res res2 : NeditResult,
      _nedit_for_Ploffset ⟨fun _ => 0⟩ ⟨fun _ => 0⟩ (bytes "GATTACA") (bytes "GCATTAGA") 1 2
        1 0 = .ok res ∧
      _nedit_for_Ploffset ⟨fun B => 7 - B⟩ ⟨fun B => B * B - 50⟩ (bytes "GATTACA")
        (bytes "GCATTAGA") 1 2 1 9 = .ok res2 ∧
      res.nedit = res2.nedit ∧ res.min_width = res2.min_width :=
  ⟨by decide, by decide, by decide,
    C16_scratch_rows_do_not_matter ⟨fun _ => 0⟩ ⟨fun _ => 0⟩ ⟨fun B => 7 - B⟩
      ⟨fun B => B * B - 50⟩ (bytes "GATTACA") (bytes "GCATTAGA") 1 2 1 0 9
      (by decide) (by decide) (by decide)⟩

/-! ## Every access is in bounds -/

theorem traceOk_some (P S : List Nat) (row_length : Int) (tr : List Access)
    (h : ∀ a ∈ tr, InBounds P S row_length a) : TraceOk P S row_length (some tr) :=
  ⟨tr, rfl, h⟩

theorem traceOk_nil (P S : List Nat) (row_length : Int) : TraceOk P S row_length (some []) :=
  ⟨[], rfl, fun a h => by simp at h⟩

theorem traceOk_seq (P S : List Nat) (row_length : Int) (a b : Trace)
    (ha : TraceOk P S row_length a) (hb : TraceOk P S row_length b) :
    TraceOk P S row_length (Trace.seq a b) := by
  obtain ⟨x, rfl, hx⟩ := ha
  obtain ⟨y, rfl, hy⟩ := hb
  refine ⟨x ++ y, rfl, ?_⟩
  intro c hc
  rcases List.mem_append.mp hc with h | h
  · exact hx c h
  · exact hy c h

/-- The accesses of `PROPAGATE_NEDIT` at a cell of the row are in bounds. -/
theorem PROPAGATE_NEDIT_accesses_inBounds (P S : List Nat) (row_length B j : Int)
    (h0 : 0 ≤ B) (h1 : B < row_length) :
    ∀ a ∈ PROPAGATE_NEDIT_accesses B S j row_length, InBounds P S row_length a := by
  intro a ha
  simp only [PROPAGATE_NEDIT_accesses, List.mem_append, List.mem_singleton] at ha
  rcases ha with (((ha | ha) | ha) | ha) | ha
  · subst ha; exact ⟨h0, h1⟩
  · split at ha
    · simp at ha
    · rw [List.mem_singleton] at ha
      subst ha
      simp only [InBounds]
      omega
  · split at ha
    · rw [List.mem_singleton] at ha
      subst ha
      simp only [InBounds]
      omega
    · simp at ha
  · split at ha
    · rw [List.mem_singleton] at ha
      subst ha
      simp only [InBounds]
      omega
    · simp at ha
  · subst ha; exact ⟨h0, h1⟩

theorem stage0_loop_accesses_ok (P S : List Nat) (row_length : Int) :
    ∀ (n : Nat) (B : Int), 0 ≤ B → row_length ≤ B + n →
      TraceOk P S row_length (stage0_loop_accesses n B row_length) := by
  intro n
  induction n with
  | zero =>
    intro B h0 hn
    rw [stage0_loop_accesses, if_neg (by omega)]
    exact traceOk_nil P S row_length
  | succ n ih =>
    intro B h0 hn
    rw [stage0_loop_accesses]
    split
    · rename_i hlt
      refine traceOk_seq P S row_length _ _ (traceOk_some P S row_length _ ?_)
        (ih (B + 1) (by omega) (by push_cast at hn; omega))
      intro a ha
      rw [List.mem_singleton] at ha
      subst ha
      exact ⟨h0, hlt⟩
    · exact traceOk_nil P S row_length

theorem propagate_loop_accesses_ok (P S : List Nat) (row_length : Int) :
    ∀ (n : Nat) (B j : Int), 0 ≤ B → row_length ≤ B + n →
      TraceOk P S row_length (propagate_loop_accesses S row_length n B j) := by
  intro n
  induction n with
  | zero =>
    intro B j h0 hn
    rw [propagate_loop_accesses, if_neg (by omega)]
    exact traceOk_nil P S row_length
  | succ n ih =>
    intro B j h0 hn
    rw [propagate_loop_accesses]
    split
    · rename_i hlt
      exact traceOk_seq P S row_length _ _
        (traceOk_some P S row_length _
          (PROPAGATE_NEDIT_accesses_inBounds P S row_length B j h0 hlt))
        (ih (B + 1) (j + 1) (by omega) (by push_cast at hn; omega))
    · exact traceOk_nil P S row_length

theorem propagate_min_loop_accesses_ok (P S : List Nat) (prev_row : Row) (Pc : Nat)
    (row_length Ploffset : Int) :
    ∀ (n : Nat) (st : Row × Int × Int) (B j : Int), 0 ≤ B → row_length ≤ B + n →
      TraceOk P S row_length
        (propagate_min_loop_accesses prev_row S Pc row_length Ploffset n st B j) := by
  intro n
  induction n with
  | zero =>
    intro st B j h0 hn
    rw [propagate_min_loop_accesses, if_neg (by omega)]
    exact traceOk_nil P S row_length
  | succ n ih =>
    intro st B j h0 hn
    obtain ⟨curr_row, min_nedit, min_width⟩ := st
    rw [propagate_min_loop_accesses]
    split
    · rename_i hlt
      refine traceOk_seq P S row_length _ _ (traceOk_some P S row_length _ ?_)
        (ih _ (B + 1) (j + 1) (by omega) (by push_cast at hn; omega))
      intro a ha
      rcases List.mem_append.mp ha with ha | ha
      · rcases List.mem_append.mp ha with ha | ha
        · exact PROPAGATE_NEDIT_accesses_inBounds P S row_length B j h0 hlt a ha
        · rw [List.mem_singleton] at ha
          subst ha
          exact ⟨h0, hlt⟩
      · split at ha
        · rw [List.mem_singleton] at ha
          subst ha
          exact ⟨h0, hlt⟩
        · simp at ha
    · exact traceOk_nil P S row_length

theorem stage1_loop_accesses_ok (P S : List Nat) (K jmin : Int) (hK : K ≤ P.length) :
    ∀ (n : Nat) (iplus1 i : Int), 1 ≤ iplus1 → i = iplus1 - 1 → K ≤ iplus1 + n →
      TraceOk P S (2 * K + 1) (stage1_loop_accesses S K (2 * K + 1) jmin n (iplus1, i)) := by
  intro n
  induction n with
  | zero =>
    intro iplus1 i h1 hi hn
    rw [stage1_loop_accesses, if_neg (by omega)]
    exact traceOk_nil P S _
  | succ n ih =>
    intro iplus1 i h1 hi hn
    rw [stage1_loop_accesses]
    split
    · rename_i hlt
      refine traceOk_seq P S _ _ _ (traceOk_some P S _ _ ?_)
        (traceOk_seq P S _ _ _
          (propagate_loop_accesses_ok P S _ _ _ _ (by omega) (by omega))
          (ih (iplus1 + 1) (i + 1) (by omega) (by omega) (by push_cast at hn; omega)))
      intro a ha
      simp only [List.mem_cons, List.mem_singleton, List.not_mem_nil, or_false] at ha
      rcases ha with ha | ha
      · subst ha
        simp only [InBounds]
        omega
      · subst ha
        simp only [InBounds]
        omega
    · exact traceOk_nil P S _

theorem stage3_loop_accesses_ok (P S : List Nat) (row_length Ploffset max_nedit_plus1 : Int)
    (hrl : 0 ≤ row_length) :
    ∀ (n : Nat) (rows : RowPtrs) (i iplus1 jmin mn mw : Int), 0 ≤ i →
      (P.length : Int) ≤ i + n →
      TraceOk P S row_length
        (stage3_loop_accesses P S row_length Ploffset max_nedit_plus1 n
          (rows, i, iplus1, jmin, mn, mw)) := by
  intro n
  induction n with
  | zero =>
    intro rows i iplus1 jmin mn mw h0 hn
    rw [stage3_loop_accesses, if_neg (by omega)]
    exact traceOk_nil P S _
  | succ n ih =>
    intro rows i iplus1 jmin mn mw h0 hn
    rw [stage3_loop_accesses]
    split
    · rename_i hlt
      simp only []
      refine traceOk_seq P S _ _ _ (traceOk_some P S _ _ ?_)
        (traceOk_seq P S _ _ _
          (propagate_min_loop_accesses_ok P S _ _ _ _ _ _ _ _ (le_refl _) (by omega)) ?_)
      · intro a ha
        rw [List.mem_singleton] at ha
        subst ha
        exact ⟨h0, hlt⟩
      · split
        · exact traceOk_nil P S _
        · exact ih _ (i + 1) _ _ _ _ (by omega) (by push_cast at hn; omega)
    · exact traceOk_nil P S _

/-- C19: on a non-empty pattern, for every integer offset and every `max_nedit ≥ 1` with
`min(max_nedit, |P|) ≤ 100`, the row length `2*min(max_nedit,|P|)+1` is at most
`MAX_ROW_LENGTH = 201`, every loop of `_nedit_for_Ploffset` ends within its number of
iterations, and every access of the call is in bounds: a row index `B` read or written in
`prev_row` or `curr_row` has `0 ≤ B < 2*min(max_nedit,|P|)+1`, a pattern index `i` read has
`0 ≤ i < |P|`, and a subject position `j` read has `0 ≤ j < |S|`. -/
theorem C19_every_access_in_bounds (row1_buf row2_buf : Row) (P S : List Nat)
    (Ploffset max_nedit : Int)
    (hP : P ≠ []) (hmax : 1 ≤ max_nedit) (hcap : min max_nedit (P.length : Int) ≤ 100) :
    2 * min max_nedit (P.length : Int) + 1 ≤ MAX_ROW_LENGTH ∧ MAX_ROW_LENGTH = 201 ∧
    ∃ tr : List Access,
      nedit_accesses row1_buf row2_buf P S Ploffset max_nedit = some tr ∧
      ∀ a ∈ tr, InBounds P S (2 * min max_nedit (P.length : Int) + 1) a := by
  refine ⟨by simp only [MAX_ROW_LENGTH, MAX_NEDIT]; omega, rfl, ?_⟩
  have hlen : 0 < P.length := List.length_pos.mpr hP
  obtain ⟨k, hK⟩ : ∃ k : Nat, ((k + 1 : Nat) : Int) = min max_nedit (P.length : Int) :=
    ⟨(min max_nedit (P.length : Int)).toNat - 1, by omega⟩
  have hclamp : (if max_nedit > (P.length : Int) then (P.length : Int) else max_nedit)
      = ((k + 1 : Nat) : Int) := by
    split <;> omega
  rw [← hK]
  obtain ⟨rows, mn, mw, hst, -⟩ := nedit_stage2_raw row1_buf row2_buf P S Ploffset k
  obtain ⟨rowsF, -, e1, -, -⟩ := stage1_loop_agree P S ((k + 1 : Nat) : Int) Ploffset
    (((k + 1 : Nat) : Int) - 1).toNat
    ⟨row1_buf, stage0_loop (2 * ((k + 1 : Nat) : Int) + 1 - ((k + 1 : Nat) : Int)).toNat
      row2_buf ((k + 1 : Nat) : Int) 0 (2 * ((k + 1 : Nat) : Int) + 1), false⟩
    ⟨row1_buf, stage0_loop (2 * ((k + 1 : Nat) : Int) + 1 - ((k + 1 : Nat) : Int)).toNat
      row2_buf ((k + 1 : Nat) : Int) 0 (2 * ((k + 1 : Nat) : Int) + 1), false⟩
    1 0 (le_refl _) (by omega) (by omega) (fun B _ _ => rfl)
  unfold nedit_accesses
  rw [if_neg (by omega), if_neg (by omega)]
  simp only []
  rw [hclamp, if_neg (by simp only [MAX_NEDIT]; omega), e1, hst]
  simp only []
  refine traceOk_seq P S _ _ _ (stage0_loop_accesses_ok P S _ _ _ (by omega) (by omega))
    (traceOk_seq P S _ _ _
      (stage1_loop_accesses_ok P S _ Ploffset (by omega) _ 1 0 (le_refl _) (by omega)
        (by omega))
      (traceOk_seq P S _ _ _
        (traceOk_seq P S _ _ _ (traceOk_some P S _ _ ?_)
          (propagate_min_loop_accesses_ok P S _ _ _ _ _ _ _ _ (by omega) (by omega)))
        (stage3_loop_accesses_ok P S _ Ploffset _ (by omega) _ rows _ _ _ _ _ (by omega)
          (by omega))))
  intro a ha
  simp only [List.mem_cons, List.mem_singleton, List.not_mem_nil, or_false] at ha
  rcases ha with ha | ha
  · subst ha
    simp only [InBounds]
    omega
  · subst ha
    simp only [InBounds]
    omega

theorem C19_witness :
    bytes "GATTACA" ≠ [] ∧ (1 : Int) ≤ 2 ∧ min (2 : Int) ((bytes "GATTACA").length : Int) ≤ 100 ∧
    2 * min (2 : Int) ((bytes "GATTACA").length : Int) + 1 ≤ MAX_ROW_LENGTH ∧
    MAX_ROW_LENGTH = 201 ∧
    ∃ tr : List Access,
      nedit_accesses ⟨fun _ => 0⟩ ⟨fun _ => 0⟩ (bytes "GATTACA") (bytes "GCATTAGA") (-1) 2
        = some tr ∧
      ∀ a ∈ tr, InBounds (bytes "GATTACA") (bytes "GCATTAGA")
        (2 * min (2 : Int) ((bytes "GATTACA").length : Int) + 1) a :=
  ⟨by decide, by decide, by decide,
    C19_every_access_in_bounds ⟨fun _ => 0⟩ ⟨fun _ => 0⟩ (bytes "GATTACA") (bytes "GCATTAGA")
      (-1) 2 (by decide) (by decide) (by decide)⟩

end Biostrings
